import Mathlib

/-!
Verification of the blog static-site generator's rendering pipeline:
the token-overlay syntax highlighter (`tree_sitter.ts`), the document
metrics extractor and the AST render visitor (`templates.tsx` / `djot.ts`).

Strings are shallowly embedded as `List Char`; every JavaScript string
operation used by the source (global single-character `replace`,
`split`, `trimEnd`, regex scans) is modelled as an explicit recursive
function over `List Char`.
-/

namespace Blog

/-- Strings of the JavaScript program, embedded as lists of characters. -/
abbrev LC := List Char

/-- The whitespace characters recognised by JavaScript's `trimEnd`, `trim`
and the `\s` regex class (restricted to the ASCII range, which is the only
range the program ever produces). -/
def wsChar (c : Char) : Bool :=
  c = ' ' || c = '\t' || c = '\n' || c = '\r' || c = '\x0b' || c = '\x0c'

/-- JavaScript `String.prototype.trimEnd` over `List Char`. -/
def trimEnd (s : LC) : LC :=
  (s.reverse.dropWhile wsChar).reverse

/-- JavaScript `str.split(sep)` for a one-character separator: splitting
`""` yields `[""]`, and a trailing separator yields a trailing empty
piece, exactly as in JavaScript. -/
def splitOn1 (sep : Char) : LC → List LC
  | [] => [[]]
  | c :: t =>
    if c = sep then [] :: splitOn1 sep t
    else
      match splitOn1 sep t with
      | [] => [[c]]
      | l :: ls => (c :: l) :: ls

/-- JavaScript `arr.join(sep)` for a one-character separator. -/
def join1 (sep : Char) : List LC → LC
  | [] => []
  | [l] => l
  | l :: ls => l ++ sep :: join1 sep ls

/-- Global replacement of every occurrence of the single character `c` by
the string `r` — the semantics of `str.replace(/c/g, r)`. -/
def replaceC (c : Char) (r : LC) : LC → LC
  | [] => []
  | x :: t => (if x = c then r else [x]) ++ replaceC c r t

/-- `escapeHtml` from `tree_sitter.ts`: five global single-character
replacements, applied in source order (`&` first, then `<`, `>`, `"`, `'`). -/
def escapeHtml (text : LC) : LC :=
  replaceC '\'' "&#039;".data
    (replaceC '"' "&quot;".data
      (replaceC '>' "&gt;".data
        (replaceC '<' "&lt;".data
          (replaceC '&' "&amp;".data text))))

/-- The per-character entity map that the five sequential replacements of
`escapeHtml` amount to. -/
def escChar (c : Char) : LC :=
  if c = '&' then "&amp;".data
  else if c = '<' then "&lt;".data
  else if c = '>' then "&gt;".data
  else if c = '"' then "&quot;".data
  else if c = '\'' then "&#039;".data
  else [c]

theorem replaceC_append (c : Char) (r : LC) (a b : LC) :
    replaceC c r (a ++ b) = replaceC c r a ++ replaceC c r b := by
  induction a with
  | nil => rfl
  | cons x t ih => simp [replaceC, ih]

theorem escapeHtml_nil : escapeHtml [] = [] := rfl

theorem escapeHtml_cons (c : Char) (t : LC) :
    escapeHtml (c :: t) = escChar c ++ escapeHtml t := by
  show escapeHtml ([c] ++ t) = _
  by_cases h1 : c = '&'
  · subst h1; simp [escapeHtml, replaceC, replaceC_append, escChar]
  · by_cases h2 : c = '<'
    · subst h2; simp [escapeHtml, replaceC, replaceC_append, escChar]
    · by_cases h3 : c = '>'
      · subst h3; simp [escapeHtml, replaceC, replaceC_append, escChar]
      · by_cases h4 : c = '"'
        · subst h4; simp [escapeHtml, replaceC, replaceC_append, escChar]
        · by_cases h5 : c = '\''
          · subst h5; simp [escapeHtml, replaceC, replaceC_append, escChar]
          · simp [escapeHtml, replaceC, replaceC_append, escChar, h1, h2, h3, h4, h5]

/-- `escapeHtml` is exactly the concatenation of the per-character entity
map: the sequential replacements never rewrite each other's output. -/
theorem escapeHtml_eq_flatMap (s : LC) : escapeHtml s = s.flatMap escChar := by
  induction s with
  | nil => rfl
  | cons c t ih => rw [escapeHtml_cons, ih]; rfl

theorem mem_escChar {x c : Char} (h : x ∈ escChar c) :
    x ≠ '<' ∧ x ≠ '>' ∧ x ≠ '"' ∧ x ≠ '\'' := by
  unfold escChar at h
  by_cases h1 : c = '&' <;> by_cases h2 : c = '<' <;> by_cases h3 : c = '>' <;>
    by_cases h4 : c = '"' <;> by_cases h5 : c = '\'' <;>
    simp_all <;> (first
      | (rcases h with h | h | h | h | h | h <;> subst h <;> decide)
      | (rcases h with h | h | h | h | h <;> subst h <;> decide)
      | (rcases h with h | h | h | h <;> subst h <;> decide))

theorem escapeHtml_no_specials {x : Char} {s : LC} (h : x ∈ escapeHtml s) :
    x ≠ '<' ∧ x ≠ '>' ∧ x ≠ '"' ∧ x ≠ '\'' := by
  rw [escapeHtml_eq_flatMap] at h
  obtain ⟨c, _, hc⟩ := List.mem_flatMap.mp h
  exact mem_escChar hc

/-- C10 — For every input string, `escapeHtml` returns a string containing
no raw `<`, `>`, `"` or `'` characters (it is exactly the concatenation of
the per-character HTML entities, with `&` escaped first so no entity is
re-escaped); consequently the literal patterns `<span ...>` and `</span>`
scanned by the line re-splitting pass in `highlight` cannot occur inside
escaped user content, since both require a raw `<`. -/
theorem escapeHtml_no_raw_specials (s : LC) :
    (∀ x ∈ escapeHtml s, x ≠ '<' ∧ x ≠ '>' ∧ x ≠ '"' ∧ x ≠ '\'') ∧
    escapeHtml s = s.flatMap escChar ∧
    (¬ ("<span ".data <:+: escapeHtml s)) ∧ (¬ ("</span>".data <:+: escapeHtml s)) := by
  refine ⟨fun x hx => escapeHtml_no_specials hx, escapeHtml_eq_flatMap s, ?_, ?_⟩
  · rintro ⟨a, b, hab⟩
    have h1 : '<' ∈ ("<span ".data : LC) := by decide
    have : '<' ∈ escapeHtml s := by
      rw [← hab]; simp [List.mem_append, h1]
    exact (escapeHtml_no_specials this).1 rfl
  · rintro ⟨a, b, hab⟩
    have h1 : '<' ∈ ("</span>".data : LC) := by decide
    have : '<' ∈ escapeHtml s := by
      rw [← hab]; simp [List.mem_append, h1]
    exact (escapeHtml_no_specials this).1 rfl

/-! ## The token-overlay highlighter (`tree_sitter.ts`) -/

/-- A tree-sitter capture `{start, end, name}` produced by the external
grammar registry (the `end` field is called `stop` because `end` is a Lean
keyword). -/
structure Cap where
  start : Nat
  stop : Nat
  name : LC

/-- A highlighter token `{start, end, class}` derived from a capture. -/
structure Token where
  start : Nat
  stop : Nat
  cls : LC

/-- Token construction in `add_spans`: CSS class `hl-` + the capture name
with every `.` replaced by `-`. -/
def capToken (c : Cap) : Token :=
  ⟨c.start, c.stop, "hl-".data ++ replaceC '.' "-".data c.name⟩

/-- The sort comparator `(a, b) => a.start - b.start || b.end - a.end`:
ascending start, descending end. -/
def tokLe (a b : Token) : Bool :=
  a.start < b.start || (a.start == b.start && b.stop ≤ a.stop)

/-- JavaScript `s.slice(a, b)` (two-argument form, clamped). -/
def jsSlice (s : LC) (a b : Nat) : LC := (s.drop a).take (b - a)

/-- The literal `</span>` closing tag. -/
def closeTagStr : LC := "</span>".data

/-- The opening tag `<span class="CLS">` emitted for a token. -/
def openTagStr (cls : LC) : LC := "<span class=\"".data ++ cls ++ "\">".data

/-- The inner `while` of the token loop in `add_spans`: pop and close every
open span whose end is at or behind the next token's start, emitting the
escaped text up to each popped end (the stack's top is the list head). -/
def popPhase (src : LC) (tstart : Nat) : List Token → Nat → LC × List Token × Nat
  | [], pos => ([], [], pos)
  | top :: rest, pos =>
    if top.stop ≤ tstart then
      let r := popPhase src tstart rest top.stop
      (escapeHtml (jsSlice src pos top.stop) ++ closeTagStr ++ r.1, r.2.1, r.2.2)
    else ([], top :: rest, pos)

/-- The trailing `while` of `add_spans`: close all remaining open spans in
LIFO order, then flush the trailing plain text. -/
def closeAll (src : LC) : List Token → Nat → LC
  | [], pos => if pos < src.length then escapeHtml (src.drop pos) else []
  | top :: rest, pos =>
    escapeHtml (jsSlice src pos top.stop) ++ closeTagStr ++ closeAll src rest top.stop

/-- The token loop of `add_spans` (general grammar path): skip tokens that
start behind the cursor, close spans that ended, emit the escaped gap,
open a span for the token and push it. -/
def spanLoop (src : LC) : List Token → Nat → List Token → LC
  | [], pos, stack => closeAll src stack pos
  | t :: ts, pos, stack =>
    if t.start < pos then spanLoop src ts pos stack
    else
      (popPhase src t.start stack pos).1
        ++ (if (popPhase src t.start stack pos).2.2 < t.start then
              escapeHtml (jsSlice src (popPhase src t.start stack pos).2.2 t.start) else [])
        ++ openTagStr t.cls
        ++ spanLoop src ts
            (if (popPhase src t.start stack pos).2.2 < t.start then t.start
              else (popPhase src t.start stack pos).2.2)
            (t :: (popPhase src t.start stack pos).2.1)

/-- The general grammar path of `add_spans`: derive tokens from the
captures, sort by ascending start / descending end (stable, as in
ES2019+ `Array.prototype.sort`), and run the span loop. -/
def add_spans_general (source : LC) (caps : List Cap) : LC :=
  spanLoop source (List.mergeSort (caps.map capToken) tokLe) 0 []

/-- JavaScript `line.endsWith("\\")` (a single backslash). -/
def endsBackslash (l : LC) : Bool := l.reverse.head? = some '\\'

/-- One line of the console classifier, with the `cont` continuation flag;
returns the new flag and the `html`-template output of that line (the
template's literal indentation, and the literal two characters `\` `n`
produced by the cooked `\\n`, included verbatim). -/
def consoleLine (cont : Bool) (line : LC) : Bool × LC :=
  if cont then
    (endsBackslash line,
      "\n        ".data ++ escapeHtml line ++ "\\n".data ++ "\n      ".data)
  else if "$ ".data.isPrefixOf line then
    (endsBackslash line,
      "\n        <span class=\"hl-title function_\">$</span> ".data
        ++ escapeHtml (line.drop 2) ++ "\\n".data ++ "\n      ".data)
  else if line.head? = some '#' then
    (false,
      "\n        <span class=\"hl-comment\">".data ++ escapeHtml line
        ++ "</span>".data ++ "\\n".data ++ "\n      ".data)
  else
    (false,
      "\n      <span class=\"hl-output\">".data ++ escapeHtml line
        ++ "</span>".data ++ "\\n".data ++ "\n    ".data)

/-- `map` with the threaded `cont` flag over the console lines, flattened
by the `html` template. -/
def consoleLines : Bool → List LC → LC
  | _, [] => []
  | cont, l :: ls =>
    let r := consoleLine cont l
    r.2 ++ consoleLines r.1 ls

/-- `add_spans_console`: classify each line of the trimmed source, wrapped
in the outer `html` template. -/
def add_spans_console (source : LC) : LC :=
  "\n    ".data ++ consoleLines false (splitOn1 '\n' (trimEnd source)) ++ "\n  ".data

/-- The plain-text fallback `html` template of `add_spans` for a missing
language or the `adoc` sentinel (the template's newlines and indentation
are part of the value). The interpolated `${escapeHtml(source)}` is a
plain string, so the `html` tagged template's `content` helper escapes it
a second time: the emitted text is `escapeHtml (escapeHtml source)`. -/
def plainWrap (source : LC) : LC :=
  "\n      ".data ++ escapeHtml (escapeHtml source) ++ "\n    ".data

/-- The plain-text fallback `html` template used when no grammar is
registered for the language (deeper indentation than `plainWrap`, and the
same second escape by the `html` template). -/
def plainWrapNoGrammar (source : LC) : LC :=
  "\n        ".data ++ escapeHtml (escapeHtml source) ++ "\n      ".data

/-- `add_spans` from `tree_sitter.ts`. The external grammar registry and
the parser/query run are modelled by the `captures` argument: `none` means
no grammar is registered for the language (warn-and-fall-back), `some
caps` is the flat capture set the query produced for this source. A falsy
language (`undefined` or the empty string) or the `adoc` sentinel escapes
the source as plain text; `console` uses the line classifier. The `catch`
fallback is unreachable in this pure model (nothing throws). -/
def add_spans (source : LC) (language : Option LC) (captures : Option (List Cap)) : LC :=
  match language with
  | none => plainWrap source
  | some lang =>
    if lang = [] ∨ lang = "adoc".data then plainWrap source
    else if lang = "console".data then add_spans_console source
    else
      match captures with
      | none => plainWrapNoGrammar source
      | some caps => add_spans_general source caps

/-- The optional sign consumed by `parseInt`: returns whether it was a
minus sign, and the remaining characters. -/
def jsSign : LC → Bool × LC
  | '-' :: t => (true, t)
  | '+' :: t => (false, t)
  | t => (false, t)

/-- JavaScript `parseInt(s, 10)`: skip leading whitespace, optional sign,
parse the longest leading digit run; `none` models `NaN`. -/
def jsParseInt (s : LC) : Option Int :=
  let signed := jsSign (s.dropWhile wsChar)
  let ds := signed.2.takeWhile Char.isDigit
  if ds = [] then none
  else
    let v : Int := ds.foldl (fun a c => a * 10 + ((c.toNat : Int) - 48)) 0
    some (if signed.1 then -v else v)

/-- `parse_highlight_spec`: a falsy spec (absent or empty) yields `[]`;
otherwise split on `,`; an element containing `-` is destructured into its
first two `-`-separated parts and expanded with
`Array.from({length: hi-lo+1}, (_, i) => lo+i)` (an empty array when
either bound is `NaN` or the length is not positive); other elements
contribute `[parseInt(el, 10)]`, where `none` models a `NaN` entry kept in
the array. -/
def parse_highlight_spec (spec : Option LC) : List (Option Int) :=
  match spec with
  | none => []
  | some s =>
    if s = [] then []
    else
      (splitOn1 ',' s).flatMap (fun el =>
        if '-' ∈ el then
          let parts := splitOn1 '-' el
          let los := parts.headD []
          let his := (parts.drop 1).headD []
          match jsParseInt los, jsParseInt his with
          | some lo, some hi =>
            (List.range (hi - lo + 1).toNat).map (fun i => some (lo + (i : Int)))
          | _, _ => []
        else [jsParseInt el])

/-- The scan of `parse_callouts`: the regex `/<(\d)>|\n/g`, leftmost match
first; a `<D>` marker is removed and recorded as a `(line, digit)` event,
a newline advances the line counter. -/
def parse_callouts_aux (line : Nat) : LC → LC × List (Nat × Char)
  | [] => ([], [])
  | '\n' :: rest =>
    let p := parse_callouts_aux (line + 1) rest
    ('\n' :: p.1, p.2)
  | '<' :: d :: '>' :: r =>
    if d.isDigit then
      let p := parse_callouts_aux line r
      (p.1, (line, d) :: p.2)
    else
      let p := parse_callouts_aux line (d :: '>' :: r)
      ('<' :: p.1, p.2)
  | c :: rest =>
    let p := parse_callouts_aux line rest
    (c :: p.1, p.2)

/-- `parse_callouts`: the marker-stripped source and the per-line recorded
digits (the `Map` is modelled by the ordered event list). -/
def parse_callouts (source : LC) : LC × List (Nat × Char) :=
  parse_callouts_aux 0 source

/-- `callouts.get(idx) ?? []`: the digits recorded for line `idx`, in scan
order. -/
def calloutsAt (events : List (Nat × Char)) (idx : Nat) : List Char :=
  (events.filter (fun p => p.1 = idx)).map (fun p => p.2)

/-- Leftmost match of the regex fragment `<span [^>]+>` at the start of
`s`: the literal `<span `, then a non-empty greedy run of non-`>`
characters, then `>`. Returns the match and the rest. (When the dropWhile
remainder is non-empty its head is necessarily `>`, so consuming one
character consumes exactly the closing `>` of the regex.) -/
def matchOpenTag (s : LC) : Option (LC × LC) :=
  if "<span ".data.isPrefixOf s then
    if (s.drop 6).takeWhile (fun c => c ≠ '>') = [] then none
    else if (s.drop 6).dropWhile (fun c => c ≠ '>') = [] then none
    else some ("<span ".data ++ (s.drop 6).takeWhile (fun c => c ≠ '>') ++ ['>'],
        ((s.drop 6).dropWhile (fun c => c ≠ '>')).drop 1)
  else none

theorem dropWhile_ne_head {p : Char → Bool} (l : LC) :
    ∀ {c : Char} {t : LC}, l.dropWhile p = c :: t → p c = false := by
  induction l with
  | nil => intro c t h; simp [List.dropWhile] at h
  | cons x xs ih =>
    intro c t h
    by_cases hx : p x
    · rw [List.dropWhile_cons_of_pos hx] at h; exact ih h
    · rw [List.dropWhile_cons_of_neg hx] at h
      cases h
      simpa using hx

theorem matchOpenTag_some {s tag r : LC} (h : matchOpenTag s = some (tag, r)) :
    s = tag ++ r ∧ 7 ≤ tag.length := by
  unfold matchOpenTag at h
  by_cases hp : "<span ".data.isPrefixOf s
  swap
  · simp [hp] at h
  simp only [hp, if_true] at h
  set after := s.drop 6 with hafter
  set mid := after.takeWhile (fun c => c ≠ '>') with hmid
  set rest := after.dropWhile (fun c => c ≠ '>') with hrest
  by_cases hm : mid = []
  · simp [hm] at h
  by_cases hr0 : rest = []
  · simp [hm, hr0] at h
  simp only [hm, hr0, if_false, Option.some.injEq, Prod.mk.injEq] at h
  obtain ⟨htag, hrr⟩ := h
  obtain ⟨c, t, hct⟩ := List.exists_cons_of_ne_nil hr0
  have hc : c = '>' := by
    have := dropWhile_ne_head (p := fun c => c ≠ '>') after (hrest.symm.trans hct)
    simpa using this
  have hs6 : s = "<span ".data ++ after := by
    have hpre := List.isPrefixOf_iff_prefix.mp hp
    have := List.prefix_iff_eq_take.mp hpre
    rw [this, hafter]
    have h6 : ("<span ".data : LC).length = 6 := by decide
    rw [h6]
    exact (List.take_append_drop 6 s).symm
  have hsplit : mid ++ rest = after := by
    rw [hmid, hrest]; exact List.takeWhile_append_dropWhile _ _
  constructor
  · rw [hs6, ← hsplit, ← htag, ← hrr, hct, hc]
    simp
  · rw [← htag]
    have hmlen : 1 ≤ mid.length := List.length_pos.mpr hm
    have h6 : ("<span ".data : LC).length = 6 := by decide
    simp only [List.length_append, h6, List.length_singleton]
    omega

/-- The line re-splitting pass of `highlight`: the global regex replace of
`(<span [^>]+>)|(</span>)|(\n)` scanning once left to right. An open tag is
recorded (pushed last) in `tags`, a close tag pops the last record, and a
newline is replaced by `</span>` repeated once per open tag, the newline,
and the recorded open tags re-emitted in push order. The first two
alternatives can never match at the same position, so checking the close
tag first is equivalent to the regex's alternation order. -/
def resplitStr (tags : List LC) : LC → LC
  | [] => []
  | c :: rest =>
    if hpre : "</span>".data.isPrefixOf (c :: rest) then
      "</span>".data ++ resplitStr tags.dropLast ((c :: rest).drop 7)
    else
      match hm : matchOpenTag (c :: rest) with
      | some (tag, r) => tag ++ resplitStr (tags ++ [tag]) r
      | none =>
        if c = '\n' then
          (List.replicate tags.length "</span>".data).flatten ++ '\n' :: tags.flatten
            ++ resplitStr tags rest
        else c :: resplitStr tags rest
termination_by s => s.length
decreasing_by
  · have h7 := (List.isPrefixOf_iff_prefix.mp hpre).length_le
    have h7' : ("</span>".data : LC).length = 7 := by decide
    rw [h7'] at h7
    simp only [List.length_drop, List.length_cons] at *
    omega
  · obtain ⟨heq, hlen⟩ := matchOpenTag_some hm
    have hl := congrArg List.length heq
    simp only [List.length_append, List.length_cons] at hl ⊢
    omega
  · simp only [List.length_cons]; omega
  · simp only [List.length_cons]; omega

/-- One callout icon element. -/
def iconStr (d : Char) : LC :=
  "<i class=\"callout\" data-value=\"".data ++ [d] ++ "\"></i>".data

/-- The `hl-line` modifier: present exactly when `spec.includes(idx + 1)`
(a `none` entry models `NaN`, which `includes` can never match against the
number `idx + 1`). -/
def lineCls (spec : List (Option Int)) (idx : Nat) : LC :=
  if some ((idx : Int) + 1) ∈ spec then " hl-line".data else []

/-- The per-line wrapper of `highlight`:
`<span class="line${cls}">${it}${calls}</span>`, with the line's callout
icons joined by a single space. -/
def wrapLine (spec : List (Option Int)) (events : List (Nat × Char)) (idx : Nat)
    (it : LC) : LC :=
  "<span class=\"line".data ++ lineCls spec idx ++ "\">".data ++ it
    ++ join1 ' ' ((calloutsAt events idx).map iconStr) ++ "</span>".data

/-- `arr.map((it, idx) => ...)`: map with the element index, starting at
`i`. -/
def mapIdxFrom {α β : Type} (f : Nat → α → β) : Nat → List α → List β
  | _, [] => []
  | i, l :: ls => f i l :: mapIdxFrom f (i + 1) ls

/-- The `lines` local of `highlight`: parse the spec, strip the callouts,
run `add_spans`, trim the end, re-split lines, and wrap each resulting
line. -/
def highlight_lines (source : LC) (language : Option LC) (highlight_spec : Option LC)
    (captures : Option (List Cap)) : List LC :=
  let spec := parse_highlight_spec highlight_spec
  let pc := parse_callouts source
  let h2 := resplitStr [] (trimEnd (add_spans pc.1 language captures))
  mapIdxFrom (fun idx it => wrapLine spec pc.2 idx it) 0 (splitOn1 '\n' h2)

/-- `highlight` from `tree_sitter.ts`: the joined wrapped lines inside the
final `html` template `<pre><code>...</code></pre>` (whose literal
newlines and indentation are part of the returned value). -/
def highlight (source : LC) (language : Option LC) (highlight_spec : Option LC)
    (captures : Option (List Cap)) : LC :=
  "\n    <pre><code>".data
    ++ join1 '\n' (highlight_lines source language highlight_spec captures)
    ++ "</code></pre>\n  ".data

/-! ## C8: malformed highlight specs -/

theorem splitOn1_ne_nil (sep : Char) (s : LC) : splitOn1 sep s ≠ [] := by
  cases s with
  | nil => simp [splitOn1]
  | cons c t =>
    unfold splitOn1
    by_cases h : c = sep
    · simp [h]
    · simp only [h, if_false]
      cases splitOn1 sep t <;> simp

theorem mem_splitOn1 {sep : Char} {s el : LC} (h : el ∈ splitOn1 sep s) :
    ∀ c ∈ el, c ∈ s := by
  induction s generalizing el with
  | nil =>
    simp [splitOn1] at h
    simp [h]
  | cons x t ih =>
    unfold splitOn1 at h
    by_cases hx : x = sep
    · simp only [hx, if_true, List.mem_cons] at h
      rcases h with h | h
      · simp [h]
      · intro c hc; exact List.mem_cons_of_mem _ (ih h c hc)
    · simp only [hx, if_false] at h
      rcases hsplit : splitOn1 sep t with _ | ⟨l, ls⟩
      · exact absurd hsplit (splitOn1_ne_nil sep t)
      · rw [hsplit, List.mem_cons] at h
        have hl : l ∈ splitOn1 sep t := by rw [hsplit]; exact List.mem_cons_self l ls
        rcases h with h | h
        · subst h
          intro c hc
          rw [List.mem_cons] at hc
          rcases hc with hc | hc
          · exact hc ▸ List.mem_cons_self _ _
          · exact List.mem_cons_of_mem _ (ih hl c hc)
        · intro c hc
          have hel : el ∈ splitOn1 sep t := by
            rw [hsplit]; exact List.mem_cons_of_mem l h
          exact List.mem_cons_of_mem _ (ih hel c hc)

theorem jsSign_snd_sub (s : LC) : ∀ c ∈ (jsSign s).2, c ∈ s := by
  unfold jsSign
  split
  · intro c hc; exact List.mem_cons_of_mem _ hc
  · intro c hc; exact List.mem_cons_of_mem _ hc
  · intro c hc; exact hc

theorem jsParseInt_none {s : LC} (h : ∀ c ∈ s, ¬ c.isDigit) : jsParseInt s = none := by
  have hds : (jsSign (s.dropWhile wsChar)).2.takeWhile Char.isDigit = [] := by
    cases hne : (jsSign (s.dropWhile wsChar)).2.takeWhile Char.isDigit with
    | nil => rfl
    | cons d dt =>
      exfalso
      have hdin : d ∈ (jsSign (s.dropWhile wsChar)).2.takeWhile Char.isDigit := by
        rw [hne]; exact List.mem_cons_self d dt
      have hd : d.isDigit := List.mem_takeWhile_imp hdin
      have hmem : d ∈ (jsSign (s.dropWhile wsChar)).2 :=
        (List.takeWhile_sublist _).subset hdin
      have hmem2 : d ∈ s.dropWhile wsChar := jsSign_snd_sub _ d hmem
      have hmem3 : d ∈ s := (List.dropWhile_sublist _).subset hmem2
      exact h d hmem3 hd
  unfold jsParseInt
  simp [hds]

theorem parse_highlight_spec_all_none {spec : LC}
    (h : ∀ el ∈ splitOn1 ',' spec, ∀ c ∈ el, ¬ c.isDigit) :
    ∀ x ∈ parse_highlight_spec (some spec), x = none := by
  intro x hx
  unfold parse_highlight_spec at hx
  by_cases hnil : spec = []
  · simp [hnil] at hx
  simp only [hnil, if_false, List.mem_flatMap] at hx
  obtain ⟨el, hel, hxel⟩ := hx
  have hnod : ∀ c ∈ el, ¬ c.isDigit := h el hel
  by_cases hdash : '-' ∈ el
  · simp only [hdash, if_true] at hxel
    have hlos : jsParseInt ((splitOn1 '-' el).headD []) = none := by
      apply jsParseInt_none
      intro c hc
      rcases hsplit : splitOn1 '-' el with _ | ⟨l, ls⟩
      · exact absurd hsplit (splitOn1_ne_nil '-' el)
      · rw [hsplit] at hc
        simp only [List.headD_cons] at hc
        exact hnod c (mem_splitOn1 (hsplit ▸ List.mem_cons_self l ls) c hc)
    rw [hlos] at hxel
    simp at hxel
  · simp only [hdash, if_false, List.mem_singleton] at hxel
    rw [hxel, jsParseInt_none hnod]

unseal resplitStr in
/-- C8 counterexample — the claim states that for every highlight-spec
string containing non-numeric tokens, no output line receives the
`hl-line` modifier class. The spec `2,4-abc` ... here `2,abc` contains the
non-numeric token `abc`, yet line 2 of the highlighted two-line source
still receives the `hl-line` modifier: numeric tokens of a partially
malformed spec still take effect. -/
theorem parse_spec_nonnumeric_counterexample :
    ("abc".data ∈ splitOn1 ',' "2,abc".data) ∧
    (∀ c ∈ "abc".data, ¬ c.isDigit) ∧
    lineCls (parse_highlight_spec (some "2,abc".data)) 1 = " hl-line".data ∧
    (" hl-line".data <:+: highlight "a\nb".data none (some "2,abc".data) none) := by
  refine ⟨by decide, by decide, by decide, ?_⟩
  show " hl-line".data <:+: highlight "a\nb".data none (some "2,abc".data) none
  decide

/-- C8 (amended) — parsing a highlight spec never raises (the model is a
total function) and a token with no digits at all contributes only a `NaN`
entry or nothing; hence when every comma-separated token of the spec is
digit-free, the parsed set contains no number and no output line of any
code block receives the `hl-line` modifier class. (As stated the claim is
false: a spec mixing numeric and non-numeric tokens, such as `2,abc`,
still highlights the lines named by its numeric tokens, and a token with a
numeric prefix such as `3px` takes effect as `parseInt` parses its leading
digits.) -/
theorem parse_spec_nonnumeric_amended (spec : LC)
    (h : ∀ el ∈ splitOn1 ',' spec, ∀ c ∈ el, ¬ c.isDigit) :
    (∀ n : Int, some n ∉ parse_highlight_spec (some spec)) ∧
    (∀ idx : Nat, lineCls (parse_highlight_spec (some spec)) idx = []) := by
  have hall := parse_highlight_spec_all_none h
  constructor
  · intro n hn
    exact Option.some_ne_none n (hall _ hn)
  · intro idx
    unfold lineCls
    rw [if_neg]
    intro hmem
    exact Option.some_ne_none _ (hall _ hmem)

/-- Witness for the amended C8 theorem at the concrete spec `abc,def`. -/
theorem parse_spec_nonnumeric_amended_witness :
    (some (1 : Int) ∉ parse_highlight_spec (some "abc,def".data)) ∧
    lineCls (parse_highlight_spec (some "abc,def".data)) 0 = [] := by
  have h := parse_spec_nonnumeric_amended "abc,def".data (by decide)
  exact ⟨h.1 1, h.2 0⟩

/-! ## A structured view of the generated HTML

Every string the highlighter builds is a concatenation of five kinds of
fragments: ordinary characters (escaped text and template whitespace),
newlines, `<span class="...">` open tags, `</span>` close tags, callout
icons, and the `<pre><code>` wrappers. The scanners of `highlight` (the
line re-splitting regex) and the verification scanners below are related
to folds over this structured view. -/

inductive Piece where
  | pch (c : Char)
  | pnl
  | popen (cls : LC)
  | pclose
  | picon (d : Char)
  | ppre
  | ppost
deriving DecidableEq

def Piece.render : Piece → LC
  | pch c => [c]
  | pnl => ['\n']
  | popen cls => openTagStr cls
  | pclose => closeTagStr
  | picon d => iconStr d
  | ppre => "<pre><code>".data
  | ppost => "</code></pre>".data

/-- Well-formedness of a piece: ordinary characters are neither `<` nor a
newline, span classes contain no `<`, `>` or newline, icon values are
digits. -/
def Piece.wf : Piece → Prop
  | pch c => c ≠ '<' ∧ c ≠ '\n'
  | popen cls => '<' ∉ cls ∧ '>' ∉ cls ∧ '\n' ∉ cls
  | picon d => d.isDigit
  | _ => True

def renderPs (ps : List Piece) : LC := ps.flatMap Piece.render

theorem renderPs_nil : renderPs [] = [] := rfl

theorem renderPs_cons (p : Piece) (ps : List Piece) :
    renderPs (p :: ps) = p.render ++ renderPs ps := rfl

theorem renderPs_append (a b : List Piece) :
    renderPs (a ++ b) = renderPs a ++ renderPs b := by
  simp [renderPs]

/-- The depth fold over pieces: an open tag pushes, a close tag pops
(failing at depth 0), everything else is neutral. `some 0` from depth 0
means the piece sequence is properly nested and balanced. -/
def pfold : List Piece → Nat → Option Nat
  | [], d => some d
  | Piece.popen _ :: t, d => pfold t (d + 1)
  | Piece.pclose :: t, d => if d = 0 then none else pfold t (d - 1)
  | Piece.pnl :: t, d => pfold t d
  | Piece.pch _ :: t, d => pfold t d
  | Piece.picon _ :: t, d => pfold t d
  | Piece.ppre :: t, d => pfold t d
  | Piece.ppost :: t, d => pfold t d

theorem pfold_append (a b : List Piece) (d : Nat) :
    pfold (a ++ b) d = match pfold a d with
      | some d' => pfold b d'
      | none => none := by
  induction a generalizing d with
  | nil => rfl
  | cons p t ih =>
    cases p with
    | popen cls => simp only [List.cons_append, pfold]; exact ih _
    | pclose =>
      simp only [List.cons_append, pfold]
      by_cases hd : d = 0
      · simp [hd]
      · simp only [hd, if_false]; exact ih _
    | pch c => simp only [List.cons_append, pfold]; exact ih _
    | pnl => simp only [List.cons_append, pfold]; exact ih _
    | picon e => simp only [List.cons_append, pfold]; exact ih _
    | ppre => simp only [List.cons_append, pfold]; exact ih _
    | ppost => simp only [List.cons_append, pfold]; exact ih _

/-- A piece list with no open and no close tags is neutral for `pfold`. -/
def Piece.textlike : Piece → Prop
  | popen _ => False
  | pclose => False
  | _ => True

theorem pfold_textlike {ps : List Piece} (h : ∀ p ∈ ps, p.textlike) (d : Nat) :
    pfold ps d = some d := by
  induction ps with
  | nil => rfl
  | cons p t ih =>
    have hp := h p (List.mem_cons_self p t)
    have ht := fun q hq => h q (List.mem_cons_of_mem p hq)
    cases p with
    | popen cls => exact absurd hp (by simp [Piece.textlike])
    | pclose => exact absurd hp (by simp [Piece.textlike])
    | pch c => exact ih ht
    | pnl => exact ih ht
    | picon e => exact ih ht
    | ppre => exact ih ht
    | ppost => exact ih ht

/-- Escaped text and template whitespace, as pieces: one `pch` per
character, with newlines as `pnl`. -/
def textPieces (s : LC) : List Piece :=
  s.map (fun c => if c = '\n' then Piece.pnl else Piece.pch c)

theorem renderPs_textPieces (s : LC) : renderPs (textPieces s) = s := by
  induction s with
  | nil => rfl
  | cons c t ih =>
    simp only [textPieces, List.map_cons] at *
    by_cases hc : c = '\n'
    · subst hc
      rw [if_pos rfl, renderPs_cons, ih]
      rfl
    · rw [if_neg hc, renderPs_cons, ih]
      rfl

theorem textPieces_textlike (s : LC) : ∀ p ∈ textPieces s, p.textlike := by
  intro p hp
  simp only [textPieces, List.mem_map] at hp
  obtain ⟨c, _, hc⟩ := hp
  by_cases h : c = '\n' <;> simp [h] at hc <;> rw [← hc] <;> trivial

/-- A piece that is not a callout icon. -/
def Piece.noIcon : Piece → Prop
  | picon _ => False
  | _ => True

theorem textPieces_noIcon (s : LC) : ∀ p ∈ textPieces s, p.noIcon := by
  intro p hp
  simp only [textPieces, List.mem_map] at hp
  obtain ⟨c, _, hc⟩ := hp
  by_cases h : c = '\n' <;> simp [h] at hc <;> rw [← hc] <;> trivial

theorem textPieces_wf {s : LC} (h : '<' ∉ s) : ∀ p ∈ textPieces s, p.wf := by
  intro p hp
  simp only [textPieces, List.mem_map] at hp
  obtain ⟨c, hcs, hc⟩ := hp
  by_cases hn : c = '\n'
  · simp [hn] at hc; rw [← hc]; trivial
  · simp [hn] at hc; rw [← hc]
    exact ⟨fun heq => h (heq ▸ hcs), hn⟩

theorem escapeHtml_textPieces_wf (s : LC) : ∀ p ∈ textPieces (escapeHtml s), p.wf :=
  textPieces_wf (fun hmem => (escapeHtml_no_specials hmem).1 rfl)

theorem textPieces_wfn {s : LC} (h : '<' ∉ s) :
    ∀ p ∈ textPieces s, p.wf ∧ p.noIcon :=
  fun p hp => ⟨textPieces_wf h p hp, textPieces_noIcon s p hp⟩

theorem escapeHtml_textPieces_wfn (s : LC) :
    ∀ p ∈ textPieces (escapeHtml s), p.wf ∧ p.noIcon :=
  fun p hp => ⟨escapeHtml_textPieces_wf s p hp, textPieces_noIcon _ p hp⟩

/-! ### Scanners and stepping lemmas -/

/-- The span-balance scanner over the final HTML string: it recognises
opening tags with the same `(<span [^>]+>)` pattern as the source's line
re-splitting regex, `</span>` close tags (failing on a close at depth 0),
and steps over any other character. `spanScan s 0 = some 0` says `s` has
as many open as close span tags, properly nested. -/
def spanScan : LC → Nat → Option Nat
  | [], d => some d
  | c :: rest, d =>
    if hpre : "</span>".data.isPrefixOf (c :: rest) then
      if d = 0 then none else spanScan ((c :: rest).drop 7) (d - 1)
    else
      match hm : matchOpenTag (c :: rest) with
      | some (_, r) => spanScan r (d + 1)
      | none => spanScan rest d
termination_by s => s.length
decreasing_by
  · have h7 := (List.isPrefixOf_iff_prefix.mp hpre).length_le
    have h7' : ("</span>".data : LC).length = 7 := by decide
    rw [h7'] at h7
    simp only [List.length_drop, List.length_cons] at *
    omega
  · obtain ⟨heq, hlen⟩ := matchOpenTag_some hm
    have hl := congrArg List.length heq
    simp only [List.length_append, List.length_cons] at hl ⊢
    omega
  · simp only [List.length_cons]; omega

theorem closeTag_data : "</span>".data = '<' :: '/' :: 's' :: 'p' :: 'a' :: 'n' :: '>' :: [] := rfl

theorem openPre_data :
    "<span class=\"".data = '<' :: 's' :: 'p' :: 'a' :: 'n' :: ' ' :: 'c' :: 'l' :: 'a' :: 's' :: 's' :: '=' :: '"' :: [] := rfl

theorem close_not_prefix_of_ne {c : Char} (h : c ≠ '<') (r : LC) :
    "</span>".data.isPrefixOf (c :: r) = false := by
  rw [closeTag_data]
  have hb : ('<' == c) = false := beq_eq_false_iff_ne.mpr (Ne.symm h)
  simp [List.isPrefixOf, hb]

theorem openPrefix_not_of_ne {c : Char} (h : c ≠ '<') (r : LC) :
    "<span ".data.isPrefixOf (c :: r) = false := by
  have hd : "<span ".data = '<' :: 's' :: 'p' :: 'a' :: 'n' :: ' ' :: [] := rfl
  rw [hd]
  have hb : ('<' == c) = false := beq_eq_false_iff_ne.mpr (Ne.symm h)
  simp [List.isPrefixOf, hb]

theorem matchOpenTag_none_of_ne {c : Char} (h : c ≠ '<') (r : LC) :
    matchOpenTag (c :: r) = none := by
  unfold matchOpenTag
  rw [openPrefix_not_of_ne h r]
  simp

/-- `pat` provably fails to be a prefix of `s ++ r` for every `r`: some
position inside `s` already mismatches `pat`. -/
def failsWithinB (pat s : LC) : Bool :=
  (List.range pat.length).any (fun j =>
    decide (j < s.length) && (s[j]? != pat[j]?))

theorem not_prefix_of_failsWithin {pat s : LC} (h : failsWithinB pat s = true) (r : LC) :
    pat.isPrefixOf (s ++ r) = false := by
  simp only [failsWithinB, List.any_eq_true, List.mem_range, Bool.and_eq_true,
    decide_eq_true_eq, bne_iff_ne] at h
  obtain ⟨j, hj, hjs, hne⟩ := h
  by_contra hpre
  rw [Bool.not_eq_false] at hpre
  have hp := List.isPrefixOf_iff_prefix.mp hpre
  have htake := List.prefix_iff_eq_take.mp hp
  have : pat[j]? = (s ++ r)[j]? := by
    rw [htake]; exact List.getElem?_take_of_lt hj
  rw [List.getElem?_append_left hjs] at this
  exact hne this.symm

/-- Scanner-inertness: at every position of `s`, the character is not a
newline, and if it is `<` then both the `</span>` pattern and the
`<span ` pattern mismatch somewhere inside `s` (so neither can match
there, whatever follows `s`). -/
def tagInert (s : LC) : Bool :=
  (List.range s.length).all (fun i =>
    match (s.drop i).head? with
    | some '<' => failsWithinB "</span>".data (s.drop i) && failsWithinB "<span ".data (s.drop i)
    | some '\n' => false
    | _ => true)

theorem tagInert_tail {c : Char} {t : LC} (h : tagInert (c :: t) = true) :
    tagInert t = true := by
  simp only [tagInert, List.all_eq_true, List.mem_range] at h ⊢
  intro i hi
  have := h (i + 1) (by simp only [List.length_cons]; omega)
  simpa using this

theorem tagInert_head {c : Char} {t : LC} (h : tagInert (c :: t) = true) :
    c ≠ '\n' ∧ (c = '<' →
      failsWithinB "</span>".data (c :: t) = true ∧
      failsWithinB "<span ".data (c :: t) = true) := by
  simp only [tagInert, List.all_eq_true, List.mem_range] at h
  have h0 := h 0 (by simp only [List.length_cons]; omega)
  simp only [List.drop_zero, List.head?_cons] at h0
  constructor
  · intro hc
    subst hc
    simp at h0
  · intro hc
    subst hc
    simpa using h0

theorem failsWithin_extend {pat s : LC} (h : failsWithinB pat s = true) (r : LC) :
    failsWithinB pat (s ++ r) = true := by
  simp only [failsWithinB, List.any_eq_true, List.mem_range, Bool.and_eq_true,
    decide_eq_true_eq, bne_iff_ne] at h ⊢
  obtain ⟨j, hj, hjs, hne⟩ := h
  refine ⟨j, hj, by simp only [List.length_append]; omega, ?_⟩
  rw [List.getElem?_append_left hjs]
  exact hne

/-- Stepping the balance scanner over an inert string. -/
theorem spanScan_through {s : LC} (h : tagInert s = true) :
    ∀ (r : LC) (d : Nat), spanScan (s ++ r) d = spanScan r d := by
  induction s with
  | nil => simp
  | cons c t ih =>
    intro r d
    obtain ⟨hnl, hlt⟩ := tagInert_head h
    have ht := tagInert_tail h
    rw [List.cons_append]
    by_cases hc : c = '<'
    · subst hc
      obtain ⟨hf1, hf2⟩ := hlt rfl
      have hclose : "</span>".data.isPrefixOf ('<' :: t ++ r) = false := by
        have := not_prefix_of_failsWithin hf1 r
        simpa using this
      have hopen : "<span ".data.isPrefixOf ('<' :: t ++ r) = false := by
        have := not_prefix_of_failsWithin hf2 r
        simpa using this
      have hmot : matchOpenTag ('<' :: (t ++ r)) = none := by
        unfold matchOpenTag
        rw [show ('<' :: (t ++ r)) = ('<' :: t ++ r) by simp, hopen]
        simp
      rw [spanScan]
      rw [dif_neg (by rw [show ('<' :: (t ++ r)) = ('<' :: t ++ r) by simp, hclose]; simp)]
      rw [hmot]
      exact ih ht r d
    · rw [spanScan]
      rw [dif_neg (by rw [close_not_prefix_of_ne hc]; simp)]
      rw [matchOpenTag_none_of_ne hc]
      exact ih ht r d

/-- Stepping the line re-splitting scanner over an inert string. -/
theorem resplitStr_through {s : LC} (h : tagInert s = true) :
    ∀ (r : LC) (tags : List LC), resplitStr tags (s ++ r) = s ++ resplitStr tags r := by
  induction s with
  | nil => simp
  | cons c t ih =>
    intro r tags
    obtain ⟨hnl, hlt⟩ := tagInert_head h
    have ht := tagInert_tail h
    rw [List.cons_append]
    by_cases hc : c = '<'
    · subst hc
      obtain ⟨hf1, hf2⟩ := hlt rfl
      have hclose : "</span>".data.isPrefixOf ('<' :: t ++ r) = false := by
        have := not_prefix_of_failsWithin hf1 r
        simpa using this
      have hmot : matchOpenTag ('<' :: (t ++ r)) = none := by
        unfold matchOpenTag
        rw [show ('<' :: (t ++ r)) = ('<' :: t ++ r) by simp,
          not_prefix_of_failsWithin hf2 r]
        simp
      rw [resplitStr]
      rw [dif_neg (by rw [show ('<' :: (t ++ r)) = ('<' :: t ++ r) by simp, hclose]; simp)]
      rw [hmot]
      simp only [if_neg (by decide : ¬ ('<' : Char) = '\n')]
      rw [ih ht r tags]; simp
    · rw [resplitStr]
      rw [dif_neg (by rw [close_not_prefix_of_ne hc]; simp)]
      rw [matchOpenTag_none_of_ne hc]
      simp only [if_neg hnl]
      rw [ih ht r tags]; simp

theorem isPrefixOf_append_self (l r : LC) : l.isPrefixOf (l ++ r) = true :=
  List.isPrefixOf_iff_prefix.mpr (List.prefix_append l r)

theorem takeWhile_append_all {p : Char → Bool} {a : LC} (h : ∀ c ∈ a, p c) (b : LC) :
    (a ++ b).takeWhile p = a ++ b.takeWhile p := by
  induction a with
  | nil => simp
  | cons x t ih => simp_all [List.takeWhile_cons]

theorem dropWhile_append_all {p : Char → Bool} {a : LC} (h : ∀ c ∈ a, p c) (b : LC) :
    (a ++ b).dropWhile p = b.dropWhile p := by
  induction a with
  | nil => simp
  | cons x t ih => simp_all [List.dropWhile_cons]

theorem digit_ne_specials {d : Char} (h : d.isDigit) :
    d ≠ '<' ∧ d ≠ '\n' ∧ d ≠ '>' ∧ d ≠ '"' := by
  refine ⟨?_, ?_, ?_, ?_⟩ <;> (intro he; subst he; exact absurd h (by decide))

theorem close_not_prefix_openTag (cls : LC) (r : LC) :
    "</span>".data.isPrefixOf (openTagStr cls ++ r) = false := by
  rw [openTagStr, List.append_assoc, List.append_assoc]
  rw [closeTag_data, openPre_data]
  have h1 : (('/' : Char) == 's') = false := by decide
  simp [List.isPrefixOf, h1]

theorem matchOpenTag_openTagStr {cls : LC} (h : '>' ∉ cls) (r : LC) :
    matchOpenTag (openTagStr cls ++ r) = some (openTagStr cls, r) := by
  have hAB : "<span class=\"".data = "<span ".data ++ "class=\"".data := by decide
  have hsplit : openTagStr cls ++ r
      = "<span ".data ++ (("class=\"".data ++ cls ++ ['"']) ++ '>' :: r) := by
    rw [openTagStr, hAB]
    simp
  have hM : ∀ c ∈ ("class=\"".data ++ cls ++ ['"']), (c ≠ '>' : Bool) := by
    intro c hc
    simp only [List.mem_append, List.mem_singleton] at hc
    rcases hc with (hc | hc) | hc
    · have : ∀ x ∈ "class=\"".data, x ≠ '>' := by decide
      simpa using this c hc
    · simp only [decide_eq_true_eq]
      intro he; exact h (he ▸ hc)
    · subst hc; decide
  unfold matchOpenTag
  rw [hsplit, isPrefixOf_append_self]
  have h6 : ("<span ".data : LC).length = 6 := by decide
  rw [if_pos rfl]
  have hdrop : ("<span ".data ++ (("class=\"".data ++ cls ++ ['"']) ++ '>' :: r)).drop 6
      = ("class=\"".data ++ cls ++ ['"']) ++ '>' :: r := by
    rw [← h6, List.drop_left]
  rw [hdrop]
  rw [takeWhile_append_all hM, dropWhile_append_all hM]
  have htw : (('>' :: r).takeWhile (fun c => c ≠ '>')) = [] := by
    simp [List.takeWhile_cons]
  have hdw : (('>' :: r).dropWhile (fun c => c ≠ '>')) = '>' :: r := by
    simp [List.dropWhile_cons]
  rw [htw, hdw]
  rw [if_neg (by simp)]
  rw [if_neg (by simp)]
  simp only [List.append_nil, List.drop_one, Option.some.injEq, Prod.mk.injEq]
  constructor
  · rw [openTagStr, hAB]
    simp
  · rfl

/-! Step lemmas: how the two scanners consume each kind of piece. -/

theorem spanScan_ch {c : Char} (h : c ≠ '<') (r : LC) (d : Nat) :
    spanScan (c :: r) d = spanScan r d := by
  rw [spanScan]
  rw [dif_neg (by rw [close_not_prefix_of_ne h]; simp)]
  rw [matchOpenTag_none_of_ne h]

theorem resplitStr_ch {c : Char} (h1 : c ≠ '<') (h2 : c ≠ '\n') (tags : List LC) (r : LC) :
    resplitStr tags (c :: r) = c :: resplitStr tags r := by
  rw [resplitStr]
  rw [dif_neg (by rw [close_not_prefix_of_ne h1]; simp)]
  rw [matchOpenTag_none_of_ne h1]
  simp only [if_neg h2]

theorem resplitStr_nl (tags : List LC) (r : LC) :
    resplitStr tags ('\n' :: r)
      = (List.replicate tags.length "</span>".data).flatten ++ '\n' :: tags.flatten
          ++ resplitStr tags r := by
  rw [resplitStr]
  rw [dif_neg (by rw [close_not_prefix_of_ne (by decide)]; simp)]
  rw [matchOpenTag_none_of_ne (by decide)]
  simp

theorem spanScan_close (r : LC) (d : Nat) :
    spanScan (closeTagStr ++ r) d = if d = 0 then none else spanScan r (d - 1) := by
  have hpre : "</span>".data.isPrefixOf
      ('<' :: '/' :: 's' :: 'p' :: 'a' :: 'n' :: '>' :: r) = true :=
    isPrefixOf_append_self "</span>".data r
  show spanScan ('<' :: '/' :: 's' :: 'p' :: 'a' :: 'n' :: '>' :: r) d = _
  rw [spanScan]
  rw [dif_pos hpre]
  rfl

theorem resplitStr_close (tags : List LC) (r : LC) :
    resplitStr tags (closeTagStr ++ r) = closeTagStr ++ resplitStr tags.dropLast r := by
  have hpre : "</span>".data.isPrefixOf
      ('<' :: '/' :: 's' :: 'p' :: 'a' :: 'n' :: '>' :: r) = true :=
    isPrefixOf_append_self "</span>".data r
  show resplitStr tags ('<' :: '/' :: 's' :: 'p' :: 'a' :: 'n' :: '>' :: r) = _
  rw [resplitStr]
  rw [dif_pos hpre]
  rfl

theorem spanScan_openTag {cls : LC} (h : '>' ∉ cls) (r : LC) (d : Nat) :
    spanScan (openTagStr cls ++ r) d = spanScan r (d + 1) := by
  have hne : openTagStr cls ++ r ≠ [] := by simp [openTagStr]
  obtain ⟨c, t, hct⟩ := List.exists_cons_of_ne_nil hne
  rw [hct, spanScan]
  rw [dif_neg (by rw [← hct, close_not_prefix_openTag]; simp)]
  have hmot := matchOpenTag_openTagStr h r
  rw [hct] at hmot
  rw [hmot]

theorem resplitStr_openTag {cls : LC} (h : '>' ∉ cls) (tags : List LC) (r : LC) :
    resplitStr tags (openTagStr cls ++ r)
      = openTagStr cls ++ resplitStr (tags ++ [openTagStr cls]) r := by
  have hne : openTagStr cls ++ r ≠ [] := by simp [openTagStr]
  obtain ⟨c, t, hct⟩ := List.exists_cons_of_ne_nil hne
  rw [hct, resplitStr]
  rw [dif_neg (by rw [← hct, close_not_prefix_openTag]; simp)]
  have hmot := matchOpenTag_openTagStr h r
  rw [hct] at hmot
  rw [hmot]

theorem tagInert_iconPrefix : tagInert "<i class=\"callout\" data-value=\"".data = true := by
  decide

theorem tagInert_iconSuffix : tagInert "\"></i>".data = true := by decide

theorem tagInert_pre : tagInert "<pre><code>".data = true := by decide

theorem tagInert_post : tagInert "</code></pre>".data = true := by decide

theorem iconStr_eq (d : Char) :
    iconStr d = "<i class=\"callout\" data-value=\"".data ++ [d] ++ "\"></i>".data := rfl

theorem spanScan_icon {d : Char} (h : d.isDigit) (r : LC) (k : Nat) :
    spanScan (iconStr d ++ r) k = spanScan r k := by
  rw [iconStr_eq]
  rw [List.append_assoc, List.append_assoc]
  rw [spanScan_through tagInert_iconPrefix]
  rw [List.singleton_append]
  rw [spanScan_ch (digit_ne_specials h).1]
  rw [spanScan_through tagInert_iconSuffix]

theorem resplitStr_icon {d : Char} (h : d.isDigit) (tags : List LC) (r : LC) :
    resplitStr tags (iconStr d ++ r) = iconStr d ++ resplitStr tags r := by
  rw [iconStr_eq]
  rw [List.append_assoc, List.append_assoc]
  rw [resplitStr_through tagInert_iconPrefix]
  rw [List.singleton_append]
  rw [resplitStr_ch (digit_ne_specials h).1 (digit_ne_specials h).2.1]
  rw [resplitStr_through tagInert_iconSuffix]
  simp

/-- The class strings that may appear in an open tag: no `<`, `>` or
newline. -/
def clsOk (cls : LC) : Prop := '<' ∉ cls ∧ '>' ∉ cls ∧ '\n' ∉ cls

/-- The balance scanner over the rendering of well-formed pieces is the
depth fold over the pieces. -/
theorem spanScan_renderPs {ps : List Piece} (h : ∀ p ∈ ps, p.wf) (r : LC) (d : Nat) :
    spanScan (renderPs ps ++ r) d =
      match pfold ps d with
      | some d' => spanScan r d'
      | none => none := by
  induction ps generalizing d with
  | nil => simp [renderPs, pfold]
  | cons p t ih =>
    have hp := h p (List.mem_cons_self p t)
    have ht := fun q hq => h q (List.mem_cons_of_mem p hq)
    rw [renderPs_cons, List.append_assoc]
    cases p with
    | pch c =>
      rw [show Piece.render (Piece.pch c) = [c] from rfl, List.singleton_append]
      rw [spanScan_ch hp.1, ih ht]
      rfl
    | pnl =>
      rw [show Piece.render Piece.pnl = ['\n'] from rfl, List.singleton_append]
      rw [spanScan_ch (by decide), ih ht]
      rfl
    | popen cls =>
      rw [show Piece.render (Piece.popen cls) = openTagStr cls from rfl]
      rw [spanScan_openTag hp.2.1, ih ht]
      rfl
    | pclose =>
      rw [show Piece.render Piece.pclose = closeTagStr from rfl]
      rw [spanScan_close]
      by_cases hd : d = 0
      · subst hd; simp [pfold]
      · rw [if_neg hd, ih ht]
        simp only [pfold, hd, if_false]
    | picon e =>
      rw [show Piece.render (Piece.picon e) = iconStr e from rfl]
      rw [spanScan_icon hp, ih ht]
      rfl
    | ppre =>
      rw [show Piece.render Piece.ppre = "<pre><code>".data from rfl]
      rw [spanScan_through tagInert_pre, ih ht]
      rfl
    | ppost =>
      rw [show Piece.render Piece.ppost = "</code></pre>".data from rfl]
      rw [spanScan_through tagInert_post, ih ht]
      rfl

/-- Piece-level mirror of the line re-splitting pass: `tags` is the list
of open span classes, pushed at the end, popped from the end; a newline is
replaced by one close per open tag, the newline, and re-opens in push
order. -/
def presplit (tags : List LC) : List Piece → List Piece
  | [] => []
  | Piece.popen cls :: t => Piece.popen cls :: presplit (tags ++ [cls]) t
  | Piece.pclose :: t => Piece.pclose :: presplit tags.dropLast t
  | Piece.pnl :: t =>
      List.replicate tags.length Piece.pclose ++ Piece.pnl :: tags.map Piece.popen
        ++ presplit tags t
  | Piece.pch c :: t => Piece.pch c :: presplit tags t
  | Piece.picon d :: t => Piece.picon d :: presplit tags t
  | Piece.ppre :: t => Piece.ppre :: presplit tags t
  | Piece.ppost :: t => Piece.ppost :: presplit tags t

theorem renderPs_replicate_close (n : Nat) :
    renderPs (List.replicate n Piece.pclose) = (List.replicate n "</span>".data).flatten := by
  induction n with
  | zero => rfl
  | succ k ih =>
    rw [List.replicate_succ, List.replicate_succ, renderPs_cons, List.flatten_cons, ih]
    rfl

theorem renderPs_map_popen (tags : List LC) :
    renderPs (tags.map Piece.popen) = (tags.map openTagStr).flatten := by
  induction tags with
  | nil => rfl
  | cons x t ih =>
    rw [List.map_cons, List.map_cons, renderPs_cons, List.flatten_cons, ih]
    rfl

/-- The string-level re-splitting pass agrees with the piece-level one on
renderings of well-formed pieces. -/
theorem resplitStr_renderPs {ps : List Piece} (h : ∀ p ∈ ps, p.wf) (tags : List LC) :
    resplitStr (tags.map openTagStr) (renderPs ps) = renderPs (presplit tags ps) := by
  induction ps generalizing tags with
  | nil =>
    show resplitStr (tags.map openTagStr) [] = renderPs []
    rw [resplitStr]
    rfl
  | cons p t ih =>
    have hp := h p (List.mem_cons_self p t)
    have ht := fun q hq => h q (List.mem_cons_of_mem p hq)
    rw [renderPs_cons]
    cases p with
    | pch c =>
      rw [show Piece.render (Piece.pch c) = [c] from rfl, List.singleton_append]
      rw [resplitStr_ch hp.1 hp.2, ih ht]
      rfl
    | pnl =>
      rw [show Piece.render Piece.pnl = ['\n'] from rfl, List.singleton_append]
      rw [resplitStr_nl, ih ht]
      show _ = renderPs (List.replicate tags.length Piece.pclose ++ Piece.pnl :: tags.map Piece.popen ++ presplit tags t)
      rw [renderPs_append, renderPs_append, renderPs_replicate_close, renderPs_cons,
        renderPs_map_popen]
      simp [List.length_map, Piece.render]
    | popen cls =>
      rw [show Piece.render (Piece.popen cls) = openTagStr cls from rfl]
      rw [resplitStr_openTag hp.2.1]
      have : tags.map openTagStr ++ [openTagStr cls] = (tags ++ [cls]).map openTagStr := by
        simp
      rw [this, ih ht]
      rfl
    | pclose =>
      rw [show Piece.render Piece.pclose = closeTagStr from rfl]
      rw [resplitStr_close]
      have : (tags.map openTagStr).dropLast = tags.dropLast.map openTagStr := by
        induction tags with
        | nil => rfl
        | cons x xs ihx =>
          cases xs with
          | nil => rfl
          | cons y ys => simp [List.dropLast_cons₂, List.map_cons, ihx]
      rw [this, ih ht]
      rfl
    | picon e =>
      rw [show Piece.render (Piece.picon e) = iconStr e from rfl]
      rw [resplitStr_icon hp, ih ht]
      rfl
    | ppre =>
      rw [show Piece.render Piece.ppre = "<pre><code>".data from rfl]
      rw [resplitStr_through tagInert_pre, ih ht]
      rfl
    | ppost =>
      rw [show Piece.render Piece.ppost = "</code></pre>".data from rfl]
      rw [resplitStr_through tagInert_post, ih ht]
      rfl

/-- `presplit` preserves well-formedness (the recorded tag classes are
well-formed throughout). -/
theorem presplit_wf {ps : List Piece} (h : ∀ p ∈ ps, p.wf) :
    ∀ {tags : List LC}, (∀ cls ∈ tags, clsOk cls) →
      ∀ p ∈ presplit tags ps, p.wf := by
  induction ps with
  | nil => intro tags htags p hp; simp [presplit] at hp
  | cons q t ih =>
    intro tags htags p hp
    have hq := h q (List.mem_cons_self q t)
    have ht := fun x hx => h x (List.mem_cons_of_mem q hx)
    cases q with
    | popen cls =>
      rw [presplit] at hp
      rcases List.mem_cons.mp hp with hp | hp
      · rw [hp]; exact hq
      · refine ih ht ?_ p hp
        intro c hc
        rcases List.mem_append.mp hc with hc | hc
        · exact htags c hc
        · rw [List.mem_singleton.mp hc]
          exact hq
    | pclose =>
      rw [presplit] at hp
      rcases List.mem_cons.mp hp with hp | hp
      · rw [hp]; trivial
      · exact ih ht (fun c hc => htags c ((List.dropLast_sublist tags).subset hc)) p hp
    | pnl =>
      rw [presplit] at hp
      rcases List.mem_append.mp hp with hp | hp
      · rcases List.mem_append.mp hp with hp | hp
        · rw [List.eq_of_mem_replicate hp]; trivial
        · rcases List.mem_cons.mp hp with hp | hp
          · rw [hp]; trivial
          · obtain ⟨cls, hcls, hpc⟩ := List.mem_map.mp hp
            rw [← hpc]
            exact htags cls hcls
      · exact ih ht htags p hp
    | pch c =>
      rw [presplit] at hp
      rcases List.mem_cons.mp hp with hp | hp
      · rw [hp]; exact hq
      · exact ih ht htags p hp
    | picon e =>
      rw [presplit] at hp
      rcases List.mem_cons.mp hp with hp | hp
      · rw [hp]; exact hq
      · exact ih ht htags p hp
    | ppre =>
      rw [presplit] at hp
      rcases List.mem_cons.mp hp with hp | hp
      · rw [hp]; trivial
      · exact ih ht htags p hp
    | ppost =>
      rw [presplit] at hp
      rcases List.mem_cons.mp hp with hp | hp
      · rw [hp]; trivial
      · exact ih ht htags p hp

/-- `presplit` introduces no callout-icon piece. -/
theorem presplit_noIcon {ps : List Piece} (h : ∀ p ∈ ps, p.noIcon) :
    ∀ (tags : List LC), ∀ p ∈ presplit tags ps, p.noIcon := by
  induction ps with
  | nil => intro tags p hp; simp [presplit] at hp
  | cons q t ih =>
    intro tags p hp
    have hq := h q (List.mem_cons_self q t)
    have ht := fun x hx => h x (List.mem_cons_of_mem q hx)
    cases q with
    | popen cls =>
      rw [presplit] at hp
      rcases List.mem_cons.mp hp with hp | hp
      · rw [hp]; trivial
      · exact ih ht _ p hp
    | pclose =>
      rw [presplit] at hp
      rcases List.mem_cons.mp hp with hp | hp
      · rw [hp]; trivial
      · exact ih ht _ p hp
    | pnl =>
      rw [presplit] at hp
      rcases List.mem_append.mp hp with hp | hp
      · rcases List.mem_append.mp hp with hp | hp
        · rw [List.eq_of_mem_replicate hp]; trivial
        · rcases List.mem_cons.mp hp with hp | hp
          · rw [hp]; trivial
          · obtain ⟨cls, hcls, hpc⟩ := List.mem_map.mp hp
            rw [← hpc]
            trivial
      · exact ih ht _ p hp
    | pch c =>
      rw [presplit] at hp
      rcases List.mem_cons.mp hp with hp | hp
      · rw [hp]; trivial
      · exact ih ht _ p hp
    | picon e =>
      rw [presplit] at hp
      rcases List.mem_cons.mp hp with hp | hp
      · rw [hp]; exact hq
      · exact ih ht _ p hp
    | ppre =>
      rw [presplit] at hp
      rcases List.mem_cons.mp hp with hp | hp
      · rw [hp]; trivial
      · exact ih ht _ p hp
    | ppost =>
      rw [presplit] at hp
      rcases List.mem_cons.mp hp with hp | hp
      · rw [hp]; trivial
      · exact ih ht _ p hp

theorem pfold_mono {ps : List Piece} {d e : Nat} (h : pfold ps d = some e) (k : Nat) :
    pfold ps (d + k) = some (e + k) := by
  induction ps generalizing d with
  | nil =>
    rw [pfold] at h ⊢
    rw [Option.some.injEq] at h ⊢
    omega
  | cons p t ih =>
    cases p with
    | popen cls =>
      rw [pfold] at h ⊢
      have := ih h
      rw [show d + 1 + k = d + k + 1 by omega] at this
      exact this
    | pclose =>
      rw [pfold] at h ⊢
      by_cases h0 : d = 0
      · simp [h0] at h
      rw [if_neg h0] at h
      rw [if_neg (by omega)]
      have := ih h
      rw [show d - 1 + k = d + k - 1 by omega] at this
      exact this
    | pch c => rw [pfold] at h ⊢; exact ih h
    | pnl => rw [pfold] at h ⊢; exact ih h
    | picon e' => rw [pfold] at h ⊢; exact ih h
    | ppre => rw [pfold] at h ⊢; exact ih h
    | ppost => rw [pfold] at h ⊢; exact ih h

/-- Each physical line of a piece sequence is independently balanced:
every newline occurs at depth 0 and the sequence ends at depth 0. This is
exactly the shape the line re-splitting pass establishes. -/
def lineOk : Nat → List Piece → Prop
  | d, [] => d = 0
  | d, Piece.popen _ :: t => lineOk (d + 1) t
  | d, Piece.pclose :: t => 0 < d ∧ lineOk (d - 1) t
  | d, Piece.pnl :: t => d = 0 ∧ lineOk 0 t
  | d, Piece.pch _ :: t => lineOk d t
  | d, Piece.picon _ :: t => lineOk d t
  | d, Piece.ppre :: t => lineOk d t
  | d, Piece.ppost :: t => lineOk d t

theorem lineOk_replicate_close (n : Nat) (rest : List Piece) (h : lineOk 0 rest) :
    lineOk n (List.replicate n Piece.pclose ++ rest) := by
  induction n with
  | zero => simpa using h
  | succ k ih =>
    rw [List.replicate_succ, List.cons_append, lineOk]
    exact ⟨Nat.succ_pos k, by simpa using ih⟩

theorem lineOk_map_popen (tags : List LC) : ∀ (d : Nat) (rest : List Piece),
    lineOk (d + tags.length) rest → lineOk d (tags.map Piece.popen ++ rest) := by
  induction tags with
  | nil => intro d rest h; simpa using h
  | cons x xs ih =>
    intro d rest h
    rw [List.map_cons, List.cons_append, lineOk]
    refine ih (d + 1) rest ?_
    rw [show d + 1 + xs.length = d + (x :: xs).length by simp; omega]
    exact h

/-- The re-splitting pass turns a nested-and-balanced piece sequence into
one whose every line is independently balanced. -/
theorem presplit_lineOk : ∀ (ps : List Piece) (tags : List LC),
    pfold ps tags.length = some 0 → lineOk tags.length (presplit tags ps) := by
  intro ps
  induction ps with
  | nil =>
    intro tags h
    rw [pfold, Option.some.injEq] at h
    rw [presplit, lineOk]
    omega
  | cons p t ih =>
    intro tags h
    cases p with
    | popen cls =>
      rw [pfold] at h
      rw [presplit, lineOk]
      have := ih (tags ++ [cls]) (by simpa using h)
      simpa using this
    | pclose =>
      rw [pfold] at h
      by_cases h0 : tags.length = 0
      · simp [h0] at h
      rw [if_neg h0] at h
      rw [presplit, lineOk]
      refine ⟨Nat.pos_of_ne_zero h0, ?_⟩
      have hlen : tags.dropLast.length = tags.length - 1 := by
        simp [List.length_dropLast]
      have := ih tags.dropLast (by rw [hlen]; exact h)
      rw [hlen] at this
      exact this
    | pnl =>
      rw [pfold] at h
      rw [presplit, List.append_assoc]
      apply lineOk_replicate_close
      rw [List.cons_append, lineOk]
      refine ⟨rfl, ?_⟩
      exact lineOk_map_popen tags 0 _ (by simpa using ih tags h)
    | pch c =>
      rw [pfold] at h
      rw [presplit, lineOk]
      exact ih tags h
    | picon e =>
      rw [pfold] at h
      rw [presplit, lineOk]
      exact ih tags h
    | ppre =>
      rw [pfold] at h
      rw [presplit, lineOk]
      exact ih tags h
    | ppost =>
      rw [pfold] at h
      rw [presplit, lineOk]
      exact ih tags h

/-- Piece-level mirror of splitting on newlines. -/
def segsP : List Piece → List (List Piece)
  | [] => [[]]
  | p :: t =>
    if p = Piece.pnl then [] :: segsP t
    else
      match segsP t with
      | [] => [[p]]
      | l :: ls => (p :: l) :: ls

theorem segsP_ne_nil (ps : List Piece) : segsP ps ≠ [] := by
  cases ps with
  | nil => simp [segsP]
  | cons p t =>
    rw [segsP]
    by_cases h : p = Piece.pnl
    · simp [h]
    · simp only [h, if_false]
      cases segsP t <;> simp

/-- Every segment of a line-balanced sequence is balanced: the first from
the ambient depth, the rest from depth 0. -/
theorem lineOk_segs : ∀ (ps : List Piece) (d : Nat), lineOk d ps →
    pfold ((segsP ps).headD []) d = some 0 ∧
      ∀ seg ∈ (segsP ps).tail, pfold seg 0 = some 0 := by
  intro ps
  induction ps with
  | nil =>
    intro d h
    rw [lineOk] at h
    subst h
    exact ⟨rfl, by simp [segsP]⟩
  | cons p t ih =>
    intro d h
    by_cases hnl : p = Piece.pnl
    · subst hnl
      rw [lineOk] at h
      obtain ⟨h0, hrest⟩ := h
      subst h0
      rw [segsP, if_pos rfl]
      refine ⟨by simp [pfold], ?_⟩
      intro seg hseg
      simp only [List.tail_cons] at hseg
      obtain ⟨ha, hb⟩ := ih 0 hrest
      rcases hsp : segsP t with _ | ⟨l, ls⟩
      · exact absurd hsp (segsP_ne_nil t)
      rw [hsp] at hseg ha hb
      rcases List.mem_cons.mp hseg with hseg | hseg
      · subst hseg; simpa using ha
      · exact hb seg (by simpa using hseg)
    · rcases hsp : segsP t with _ | ⟨l, ls⟩
      · exact absurd hsp (segsP_ne_nil t)
      rw [segsP, if_neg hnl, hsp]
      cases p with
      | pnl => exact absurd rfl hnl
      | popen cls =>
        rw [lineOk] at h
        obtain ⟨ha, hb⟩ := ih (d + 1) h
        rw [hsp] at ha hb
        refine ⟨?_, by simpa using hb⟩
        rw [List.headD_cons, pfold]
        simpa using ha
      | pclose =>
        rw [lineOk] at h
        obtain ⟨hpos, h⟩ := h
        obtain ⟨ha, hb⟩ := ih (d - 1) h
        rw [hsp] at ha hb
        refine ⟨?_, by simpa using hb⟩
        rw [List.headD_cons, pfold, if_neg (by omega)]
        simpa using ha
      | pch c =>
        rw [lineOk] at h
        obtain ⟨ha, hb⟩ := ih d h
        rw [hsp] at ha hb
        exact ⟨by rw [List.headD_cons, pfold]; simpa using ha, by simpa using hb⟩
      | picon e =>
        rw [lineOk] at h
        obtain ⟨ha, hb⟩ := ih d h
        rw [hsp] at ha hb
        exact ⟨by rw [List.headD_cons, pfold]; simpa using ha, by simpa using hb⟩
      | ppre =>
        rw [lineOk] at h
        obtain ⟨ha, hb⟩ := ih d h
        rw [hsp] at ha hb
        exact ⟨by rw [List.headD_cons, pfold]; simpa using ha, by simpa using hb⟩
      | ppost =>
        rw [lineOk] at h
        obtain ⟨ha, hb⟩ := ih d h
        rw [hsp] at ha hb
        exact ⟨by rw [List.headD_cons, pfold]; simpa using ha, by simpa using hb⟩

theorem render_no_nl {p : Piece} (h : p.wf) (hnl : p ≠ Piece.pnl) :
    ∀ c ∈ p.render, c ≠ '\n' := by
  cases p with
  | pch c =>
    intro x hx
    rw [List.mem_singleton.mp hx]
    exact h.2
  | pnl => exact absurd rfl hnl
  | popen cls =>
    intro x hx
    rw [show Piece.render (Piece.popen cls) = openTagStr cls from rfl, openTagStr] at hx
    rcases List.mem_append.mp hx with hx | hx
    · rcases List.mem_append.mp hx with hx | hx
      · have hcc : ∀ y ∈ "<span class=\"".data, y ≠ '\n' := by decide
        exact hcc x hx
      · intro he
        exact h.2.2 (he ▸ hx)
    · have hcc : ∀ y ∈ "\">".data, y ≠ '\n' := by decide
      exact hcc x hx
  | pclose =>
    intro x hx
    have hcc : ∀ y ∈ ("</span>".data : LC), y ≠ '\n' := by decide
    exact hcc x hx
  | picon d =>
    intro x hx
    rw [show Piece.render (Piece.picon d) = iconStr d from rfl, iconStr_eq] at hx
    rcases List.mem_append.mp hx with hx | hx
    · rcases List.mem_append.mp hx with hx | hx
      · have hcc : ∀ y ∈ "<i class=\"callout\" data-value=\"".data, y ≠ '\n' := by decide
        exact hcc x hx
      · rw [List.mem_singleton.mp hx]
        exact (digit_ne_specials h).2.1
    · have hcc : ∀ y ∈ "\"></i>".data, y ≠ '\n' := by decide
      exact hcc x hx
  | ppre =>
    intro x hx
    have hcc : ∀ y ∈ "<pre><code>".data, y ≠ '\n' := by decide
    exact hcc x hx
  | ppost =>
    intro x hx
    have hcc : ∀ y ∈ "</code></pre>".data, y ≠ '\n' := by decide
    exact hcc x hx

theorem splitOn1_append_no_sep {sep : Char} {x : LC} (h : ∀ c ∈ x, c ≠ sep) (r : LC) :
    splitOn1 sep (x ++ r)
      = (x ++ (splitOn1 sep r).headD []) :: (splitOn1 sep r).tail := by
  induction x with
  | nil =>
    simp only [List.nil_append]
    rcases hsp : splitOn1 sep r with _ | ⟨l, ls⟩
    · exact absurd hsp (splitOn1_ne_nil sep r)
    · simp
  | cons c t ihx =>
    rw [List.cons_append, splitOn1]
    rw [if_neg (h c (List.mem_cons_self c t))]
    rw [ihx (fun y hy => h y (List.mem_cons_of_mem c hy))]
    simp

/-- Splitting the rendering of well-formed pieces on newlines is the
rendering of the piece-level segments. -/
theorem splitOn1_renderPs {ps : List Piece} (h : ∀ p ∈ ps, p.wf) :
    splitOn1 '\n' (renderPs ps) = (segsP ps).map renderPs := by
  induction ps with
  | nil => simp [renderPs, splitOn1, segsP]
  | cons p t ih =>
    have hp := h p (List.mem_cons_self p t)
    have ht := fun q hq => h q (List.mem_cons_of_mem p hq)
    by_cases hnl : p = Piece.pnl
    · subst hnl
      rw [renderPs_cons, show Piece.render Piece.pnl = ['\n'] from rfl,
        List.singleton_append, splitOn1, if_pos rfl, ih ht, segsP, if_pos rfl,
        List.map_cons]
      rfl
    · rw [renderPs_cons, splitOn1_append_no_sep (render_no_nl hp hnl), ih ht]
      rw [segsP, if_neg hnl]
      rcases hsp : segsP t with _ | ⟨l, ls⟩
      · exact absurd hsp (segsP_ne_nil t)
      rfl

/-- Piece-level mirror of `join1 '\n'`. -/
def joinP : List (List Piece) → List Piece
  | [] => []
  | [l] => l
  | l :: l2 :: ls => l ++ Piece.pnl :: joinP (l2 :: ls)

theorem renderPs_joinP : ∀ ls : List (List Piece),
    renderPs (joinP ls) = join1 '\n' (ls.map renderPs)
  | [] => rfl
  | [_] => rfl
  | l :: l2 :: ls => by
    show renderPs (l ++ Piece.pnl :: joinP (l2 :: ls)) = _
    rw [renderPs_append, renderPs_cons]
    rw [renderPs_joinP (l2 :: ls)]
    rfl

theorem pfold_joinP : ∀ ls : List (List Piece),
    (∀ l ∈ ls, pfold l 0 = some 0) → pfold (joinP ls) 0 = some 0
  | [] => fun _ => rfl
  | [l] => fun h => h l (List.mem_singleton.mpr rfl)
  | l :: l2 :: ls => by
    intro h
    show pfold (l ++ Piece.pnl :: joinP (l2 :: ls)) 0 = some 0
    rw [pfold_append, h l (List.mem_cons_self l _)]
    exact pfold_joinP (l2 :: ls) (fun x hx => h x (List.mem_cons_of_mem l hx))

theorem joinP_wf : ∀ ls : List (List Piece),
    (∀ l ∈ ls, ∀ p ∈ l, p.wf) → ∀ p ∈ joinP ls, p.wf
  | [] => by intro _ p hp; simp [joinP] at hp
  | [l] => fun h => h l (List.mem_singleton.mpr rfl)
  | l :: l2 :: ls => by
    intro h p hp
    rw [show joinP (l :: l2 :: ls) = l ++ Piece.pnl :: joinP (l2 :: ls) from rfl] at hp
    rcases List.mem_append.mp hp with hp | hp
    · exact h l (List.mem_cons_self l _) p hp
    · rcases List.mem_cons.mp hp with hp | hp
      · rw [hp]; trivial
      · exact joinP_wf (l2 :: ls) (fun x hx => h x (List.mem_cons_of_mem l hx)) p hp

/-- The callout icons of one output line, as pieces (`join1 ' '` of the
icon strings). -/
def iconPieces : List Char → List Piece
  | [] => []
  | [d] => [Piece.picon d]
  | d :: d2 :: ds => Piece.picon d :: Piece.pch ' ' :: iconPieces (d2 :: ds)

theorem renderPs_iconPieces : ∀ ds : List Char,
    renderPs (iconPieces ds) = join1 ' ' (ds.map iconStr)
  | [] => rfl
  | [d] => by simp [iconPieces, renderPs_cons, renderPs_nil, join1, Piece.render]
  | d :: d2 :: ds => by
    show renderPs (Piece.picon d :: Piece.pch ' ' :: iconPieces (d2 :: ds)) = _
    rw [renderPs_cons, renderPs_cons, renderPs_iconPieces (d2 :: ds)]
    rfl

theorem iconPieces_textlike : ∀ ds : List Char, ∀ p ∈ iconPieces ds, p.textlike
  | [] => by intro p hp; simp [iconPieces] at hp
  | [d] => by
    intro p hp
    rw [show iconPieces [d] = [Piece.picon d] from rfl, List.mem_singleton] at hp
    rw [hp]; trivial
  | d :: d2 :: ds => by
    intro p hp
    rw [show iconPieces (d :: d2 :: ds)
        = Piece.picon d :: Piece.pch ' ' :: iconPieces (d2 :: ds) from rfl] at hp
    rcases List.mem_cons.mp hp with hp | hp
    · rw [hp]; trivial
    rcases List.mem_cons.mp hp with hp | hp
    · rw [hp]; trivial
    · exact iconPieces_textlike (d2 :: ds) p hp

theorem iconPieces_wf : ∀ {ds : List Char}, (∀ d ∈ ds, d.isDigit) →
    ∀ p ∈ iconPieces ds, p.wf
  | [], _ => by intro p hp; simp [iconPieces] at hp
  | [d], h => by
    intro p hp
    rw [show iconPieces [d] = [Piece.picon d] from rfl, List.mem_singleton] at hp
    rw [hp]
    exact h d (List.mem_singleton.mpr rfl)
  | d :: d2 :: ds, h => by
    intro p hp
    rw [show iconPieces (d :: d2 :: ds)
        = Piece.picon d :: Piece.pch ' ' :: iconPieces (d2 :: ds) from rfl] at hp
    rcases List.mem_cons.mp hp with hp | hp
    · rw [hp]; exact h d (List.mem_cons_self d _)
    rcases List.mem_cons.mp hp with hp | hp
    · rw [hp]; exact ⟨by decide, by decide⟩
    · exact iconPieces_wf (fun x hx => h x (List.mem_cons_of_mem d hx)) p hp

/-- One wrapped output line, as pieces. -/
def wrapLineP (spec : List (Option Int)) (events : List (Nat × Char)) (idx : Nat)
    (seg : List Piece) : List Piece :=
  Piece.popen ("line".data ++ lineCls spec idx)
    :: (seg ++ iconPieces (calloutsAt events idx) ++ [Piece.pclose])

theorem renderPs_wrapLineP (spec : List (Option Int)) (events : List (Nat × Char))
    (idx : Nat) (seg : List Piece) :
    renderPs (wrapLineP spec events idx seg)
      = wrapLine spec events idx (renderPs seg) := by
  rw [wrapLineP, wrapLine, renderPs_cons,
    show Piece.render (Piece.popen ("line".data ++ lineCls spec idx))
      = openTagStr ("line".data ++ lineCls spec idx) from rfl,
    openTagStr, renderPs_append, renderPs_append, renderPs_iconPieces,
    show renderPs [Piece.pclose] = "</span>".data from rfl]
  have hsplit : ("<span class=\"line".data : LC) = "<span class=\"".data ++ "line".data := by
    decide
  rw [hsplit]
  simp [List.append_assoc]

theorem pfold_wrapLineP (spec : List (Option Int)) (events : List (Nat × Char))
    (idx : Nat) {seg : List Piece} (h : pfold seg 0 = some 0) :
    pfold (wrapLineP spec events idx seg) 0 = some 0 := by
  have hm : pfold seg 1 = some 1 := by simpa using pfold_mono h 1
  have hi : pfold (iconPieces (calloutsAt events idx)) 1 = some 1 :=
    pfold_textlike (iconPieces_textlike _) 1
  have h1 : pfold (seg ++ iconPieces (calloutsAt events idx)) 1 = some 1 := by
    rw [pfold_append, hm]
    exact hi
  have h2 : pfold ((seg ++ iconPieces (calloutsAt events idx)) ++ [Piece.pclose]) 1
      = some 0 := by
    rw [pfold_append, h1]
    rfl
  rw [wrapLineP]
  exact h2

theorem lineCls_no_specials (spec : List (Option Int)) (idx : Nat) :
    '<' ∉ ("line".data ++ lineCls spec idx) ∧ '>' ∉ ("line".data ++ lineCls spec idx)
      ∧ '\n' ∉ ("line".data ++ lineCls spec idx) := by
  rw [lineCls]
  by_cases h : some ((idx : Int) + 1) ∈ spec <;> simp only [h, if_true, if_false] <;> decide

theorem wrapLineP_wf (spec : List (Option Int)) {events : List (Nat × Char)}
    (hev : ∀ e ∈ events, (e : Nat × Char).2.isDigit) (idx : Nat) {seg : List Piece}
    (hseg : ∀ p ∈ seg, p.wf) :
    ∀ p ∈ wrapLineP spec events idx seg, p.wf := by
  intro p hp
  rw [wrapLineP] at hp
  rcases List.mem_cons.mp hp with hp | hp
  · rw [hp]
    exact lineCls_no_specials spec idx
  rcases List.mem_append.mp hp with hp | hp
  · rcases List.mem_append.mp hp with hp | hp
    · exact hseg p hp
    · refine iconPieces_wf ?_ p hp
      intro d hd
      rw [calloutsAt] at hd
      obtain ⟨e, he, hde⟩ := List.mem_map.mp hd
      have := List.mem_filter.mp he
      exact hde ▸ hev e this.1
  · rw [List.mem_singleton.mp hp]
    trivial

theorem trimEnd_append_ws {x : LC} {c : Char} (h : wsChar c = true) :
    trimEnd (x ++ [c]) = trimEnd x := by
  rw [trimEnd, trimEnd, List.reverse_append]
  simp [List.dropWhile_cons, h]

theorem trimEnd_append_nonws {x : LC} {c : Char} (h : wsChar c = false) :
    trimEnd (x ++ [c]) = x ++ [c] := by
  rw [trimEnd, List.reverse_append]
  simp [List.dropWhile_cons, h]

theorem pfold_append_textlike {suffix : List Piece} (h : ∀ p ∈ suffix, p.textlike)
    (a : List Piece) (d : Nat) : pfold (a ++ suffix) d = pfold a d := by
  rw [pfold_append]
  cases hp : pfold a d with
  | none => rfl
  | some d' => exact pfold_textlike h d'

/-- Each non-text piece renders to a string ending in `>`. -/
theorem render_snoc_gt (p : Piece) (h : p.textlike → False) :
    ∃ y, p.render = y ++ ['>'] := by
  cases p with
  | pch c => exact absurd trivial h
  | pnl => exact absurd trivial h
  | picon d => exact absurd trivial h
  | ppre => exact absurd trivial h
  | ppost => exact absurd trivial h
  | pclose => exact ⟨"</span".data, by decide⟩
  | popen cls =>
    refine ⟨"<span class=\"".data ++ cls ++ ['"'], ?_⟩
    show openTagStr cls = _
    rw [openTagStr]
    simp

/-- Those text-like pieces that do not render to whitespace. -/
theorem render_snoc_nonws (p : Piece) :
    (∃ y c, p.render = y ++ [c] ∧ wsChar c = false) ∨
    (∃ c, p.render = [c] ∧ wsChar c = true) := by
  cases p with
  | pch c =>
    by_cases hws : wsChar c
    · exact Or.inr ⟨c, rfl, hws⟩
    · exact Or.inl ⟨[], c, rfl, by simpa using hws⟩
  | pnl => exact Or.inr ⟨'\n', rfl, by decide⟩
  | pclose => exact Or.inl ⟨"</span".data, '>', by decide, by decide⟩
  | popen cls =>
    refine Or.inl ⟨"<span class=\"".data ++ cls ++ ['"'], '>', ?_, by decide⟩
    show openTagStr cls = _
    rw [openTagStr]
    simp
  | picon d =>
    refine Or.inl ⟨"<i class=\"callout\" data-value=\"".data ++ [d] ++ "\"></i".data, '>', ?_, by decide⟩
    rw [show Piece.render (Piece.picon d) = iconStr d from rfl, iconStr_eq]
    have : ("\"></i>".data : LC) = "\"></i".data ++ ['>'] := by decide
    rw [this]
    simp
  | ppre => exact Or.inl ⟨"<pre><code".data, '>', by decide, by decide⟩
  | ppost => exact Or.inl ⟨"</code></pre".data, '>', by decide, by decide⟩

/-- Trimming trailing whitespace from the rendering of well-formed pieces
yields the rendering of well-formed pieces with the same depth fold. -/
theorem trimEnd_renderPs : ∀ {ps : List Piece}, (∀ p ∈ ps, p.wf) →
    ∃ ps', trimEnd (renderPs ps) = renderPs ps' ∧ (∀ p ∈ ps', p.wf) ∧
      (∀ q ∈ ps', q ∈ ps) ∧ ∀ d, pfold ps' d = pfold ps d := by
  intro ps
  induction ps using List.reverseRecOn with
  | nil =>
    intro _
    exact ⟨[], rfl, by simp, by simp, fun d => rfl⟩
  | append_singleton init p ih =>
    intro h
    have hp : p.wf := h p (by simp)
    have hi : ∀ q ∈ init, q.wf := fun q hq => h q (by simp [hq])
    rcases render_snoc_nonws p with ⟨y, c, hyc, hws⟩ | ⟨c, hc, hws⟩
    · refine ⟨init ++ [p], ?_, h, fun q hq => hq, fun d => rfl⟩
      rw [renderPs_append, renderPs_cons, renderPs_nil, List.append_nil, hyc,
        ← List.append_assoc, trimEnd_append_nonws hws]
    · obtain ⟨ps', h1, h2, hsub, h3⟩ := ih hi
      refine ⟨ps', ?_, h2,
        fun q hq => List.mem_append.mpr (Or.inl (hsub q hq)), ?_⟩
      · rw [renderPs_append, renderPs_cons, renderPs_nil, List.append_nil, hc,
          trimEnd_append_ws hws, h1]
      · intro d
        rw [h3 d]
        have hT : ∀ q ∈ [p], q.textlike := by
          intro q hq
          rw [List.mem_singleton.mp hq]
          cases p with
          | pch c' => trivial
          | pnl => trivial
          | picon d' => trivial
          | ppre => trivial
          | ppost => trivial
          | pclose =>
            exfalso
            have := congrArg List.length hc
            rw [show (Piece.pclose.render).length = 7 from rfl] at this
            simp at this
          | popen cls =>
            exfalso
            have : (openTagStr cls).length = 1 := by
              rw [show openTagStr cls = Piece.render (Piece.popen cls) from rfl, hc]
              rfl
            rw [openTagStr] at this
            simp [List.length_append] at this
        rw [pfold_append_textlike hT]

/-- The plain-text template of `add_spans` as balanced well-formed
pieces. -/
theorem plainWrap_pieces (src : LC) :
    ∃ ps, plainWrap src = renderPs ps ∧ (∀ p ∈ ps, p.wf ∧ p.noIcon)
      ∧ pfold ps 0 = some 0 := by
  refine ⟨textPieces ("\n      ".data ++ escapeHtml (escapeHtml src) ++ "\n    ".data),
    ?_, ?_, ?_⟩
  · rw [renderPs_textPieces, plainWrap]
  · apply textPieces_wfn
    intro hmem
    rcases List.mem_append.mp hmem with hmem | hmem
    · rcases List.mem_append.mp hmem with hmem | hmem
      · exact absurd hmem (by decide)
      · exact (escapeHtml_no_specials hmem).1 rfl
    · exact absurd hmem (by decide)
  · exact pfold_textlike (textPieces_textlike _) 0

theorem plainWrapNoGrammar_pieces (src : LC) :
    ∃ ps, plainWrapNoGrammar src = renderPs ps ∧ (∀ p ∈ ps, p.wf ∧ p.noIcon)
      ∧ pfold ps 0 = some 0 := by
  refine ⟨textPieces ("\n        ".data ++ escapeHtml (escapeHtml src) ++ "\n      ".data),
    ?_, ?_, ?_⟩
  · rw [renderPs_textPieces, plainWrapNoGrammar]
  · apply textPieces_wfn
    intro hmem
    rcases List.mem_append.mp hmem with hmem | hmem
    · rcases List.mem_append.mp hmem with hmem | hmem
      · exact absurd hmem (by decide)
      · exact (escapeHtml_no_specials hmem).1 rfl
    · exact absurd hmem (by decide)
  · exact pfold_textlike (textPieces_textlike _) 0

theorem all_append {P : Piece → Prop} {a b : List Piece} (ha : ∀ p ∈ a, P p)
    (hb : ∀ p ∈ b, P p) : ∀ p ∈ a ++ b, P p := by
  intro p hp
  rcases List.mem_append.mp hp with hp | hp
  · exact ha p hp
  · exact hb p hp

theorem wf_append {a b : List Piece} (ha : ∀ p ∈ a, p.wf) (hb : ∀ p ∈ b, p.wf) :
    ∀ p ∈ a ++ b, p.wf := by
  intro p hp
  rcases List.mem_append.mp hp with hp | hp
  · exact ha p hp
  · exact hb p hp

theorem textPieces_wf_of_parts {a c : LC} (ha : '<' ∉ a) (hc : '<' ∉ c) (s : LC) :
    ∀ p ∈ textPieces (a ++ escapeHtml s ++ c), p.wf := by
  apply textPieces_wf
  intro hmem
  rcases List.mem_append.mp hmem with hmem | hmem
  · rcases List.mem_append.mp hmem with hmem | hmem
    · exact ha hmem
    · exact (escapeHtml_no_specials hmem).1 rfl
  · exact hc hmem

theorem textPieces_wfn_of_parts {a c : LC} (ha : '<' ∉ a) (hc : '<' ∉ c) (s : LC) :
    ∀ p ∈ textPieces (a ++ escapeHtml s ++ c), p.wf ∧ p.noIcon :=
  fun p hp => ⟨textPieces_wf_of_parts ha hc s p hp, textPieces_noIcon _ p hp⟩

/-- `pfold` of a text–span–text–close–text sandwich, as produced by the
console classifier lines. -/
theorem pfold_span_sandwich {t1 t2 t3 : List Piece} (h1 : ∀ p ∈ t1, p.textlike)
    (h2 : ∀ p ∈ t2, p.textlike) (h3 : ∀ p ∈ t3, p.textlike) (cls : LC) :
    pfold (t1 ++ Piece.popen cls :: (t2 ++ Piece.pclose :: t3)) 0 = some 0 := by
  rw [pfold_append, pfold_textlike h1]
  show pfold (t2 ++ Piece.pclose :: t3) 1 = some 0
  rw [pfold_append, pfold_textlike h2]
  show pfold t3 0 = some 0
  exact pfold_textlike h3 0

/-- Each console-classified line is a balanced well-formed piece list. -/
theorem consoleLine_pieces (cont : Bool) (line : LC) :
    ∃ ps, (consoleLine cont line).2 = renderPs ps ∧ (∀ p ∈ ps, p.wf ∧ p.noIcon) ∧
      pfold ps 0 = some 0 := by
  rw [consoleLine]
  by_cases hc : cont = true
  · rw [if_pos hc]
    refine ⟨textPieces ("\n        ".data ++ escapeHtml line ++ "\\n\n      ".data),
      ?_, textPieces_wfn_of_parts (by decide) (by decide) line,
      pfold_textlike (textPieces_textlike _) 0⟩
    rw [renderPs_textPieces]
    simp
  · rw [if_neg hc]
    by_cases hd : "$ ".data.isPrefixOf line = true
    · rw [if_pos hd]
      refine ⟨textPieces "\n        ".data
          ++ Piece.popen "hl-title function_".data
          :: ([Piece.pch '$']
            ++ Piece.pclose
            :: textPieces (" ".data ++ escapeHtml (line.drop 2) ++ "\\n\n      ".data)),
        ?_, ?_, ?_⟩
      · simp only [renderPs_append, renderPs_cons, renderPs_nil, renderPs_textPieces,
          Piece.render, openTagStr, closeTagStr]
        simp
      · refine all_append (textPieces_wfn (by decide)) ?_
        intro p hp
        rcases List.mem_cons.mp hp with hp | hp
        · rw [hp]; exact ⟨⟨by decide, by decide, by decide⟩, trivial⟩
        rcases List.mem_append.mp hp with hp | hp
        · rw [List.mem_singleton.mp hp]; exact ⟨⟨by decide, by decide⟩, trivial⟩
        rcases List.mem_cons.mp hp with hp | hp
        · rw [hp]; exact ⟨trivial, trivial⟩
        · exact textPieces_wfn_of_parts (by decide) (by decide) (line.drop 2) p hp
      · exact pfold_span_sandwich (textPieces_textlike _)
          (by intro p hp; rw [List.mem_singleton.mp hp]; trivial)
          (textPieces_textlike _) _
    · rw [if_neg hd]
      by_cases hh : line.head? = some '#'
      · rw [if_pos hh]
        refine ⟨textPieces "\n        ".data
            ++ Piece.popen "hl-comment".data
            :: (textPieces (escapeHtml line)
              ++ Piece.pclose
              :: textPieces "\\n\n      ".data),
          ?_, ?_, ?_⟩
        · simp only [renderPs_append, renderPs_cons, renderPs_nil, renderPs_textPieces,
            Piece.render, openTagStr, closeTagStr]
          simp
        · refine all_append (textPieces_wfn (by decide)) ?_
          intro p hp
          rcases List.mem_cons.mp hp with hp | hp
          · rw [hp]; exact ⟨⟨by decide, by decide, by decide⟩, trivial⟩
          rcases List.mem_append.mp hp with hp | hp
          · exact escapeHtml_textPieces_wfn line p hp
          rcases List.mem_cons.mp hp with hp | hp
          · rw [hp]; exact ⟨trivial, trivial⟩
          · exact textPieces_wfn (by decide) p hp
        · exact pfold_span_sandwich (textPieces_textlike _) (textPieces_textlike _)
            (textPieces_textlike _) _
      · rw [if_neg hh]
        refine ⟨textPieces "\n      ".data
            ++ Piece.popen "hl-output".data
            :: (textPieces (escapeHtml line)
              ++ Piece.pclose
              :: textPieces "\\n\n    ".data),
          ?_, ?_, ?_⟩
        · simp only [renderPs_append, renderPs_cons, renderPs_nil, renderPs_textPieces,
            Piece.render, openTagStr, closeTagStr]
          simp
        · refine all_append (textPieces_wfn (by decide)) ?_
          intro p hp
          rcases List.mem_cons.mp hp with hp | hp
          · rw [hp]; exact ⟨⟨by decide, by decide, by decide⟩, trivial⟩
          rcases List.mem_append.mp hp with hp | hp
          · exact escapeHtml_textPieces_wfn line p hp
          rcases List.mem_cons.mp hp with hp | hp
          · rw [hp]; exact ⟨trivial, trivial⟩
          · exact textPieces_wfn (by decide) p hp
        · exact pfold_span_sandwich (textPieces_textlike _) (textPieces_textlike _)
            (textPieces_textlike _) _

theorem consoleLines_pieces : ∀ (ls : List LC) (cont : Bool),
    ∃ ps, consoleLines cont ls = renderPs ps ∧ (∀ p ∈ ps, p.wf ∧ p.noIcon) ∧
      pfold ps 0 = some 0
  | [], cont => ⟨[], rfl, by simp, rfl⟩
  | l :: ls, cont => by
    obtain ⟨ps1, h1, h2, h3⟩ := consoleLine_pieces cont l
    obtain ⟨ps2, g1, g2, g3⟩ := consoleLines_pieces ls (consoleLine cont l).1
    refine ⟨ps1 ++ ps2, ?_, all_append h2 g2, ?_⟩
    · rw [consoleLines, h1, g1, renderPs_append]
    · rw [pfold_append, h3]
      exact g3

theorem add_spans_console_pieces (source : LC) :
    ∃ ps, add_spans_console source = renderPs ps ∧ (∀ p ∈ ps, p.wf ∧ p.noIcon) ∧
      pfold ps 0 = some 0 := by
  obtain ⟨ps1, h1, h2, h3⟩ := consoleLines_pieces (splitOn1 '\n' (trimEnd source)) false
  refine ⟨textPieces "\n    ".data ++ ps1 ++ textPieces "\n  ".data, ?_, ?_, ?_⟩
  · rw [add_spans_console, h1, renderPs_append, renderPs_append,
      renderPs_textPieces, renderPs_textPieces]
  · exact all_append (all_append (textPieces_wfn (by decide)) h2) (textPieces_wfn (by decide))
  · have ha : pfold (textPieces "\n    ".data ++ ps1) 0 = some 0 := by
      rw [pfold_append, pfold_textlike (textPieces_textlike _)]
      exact h3
    rw [pfold_append, ha]
    exact pfold_textlike (textPieces_textlike _) 0

theorem mem_replaceC {x c : Char} {r : LC} : ∀ {s : LC}, x ∈ replaceC c r s → x ∈ r ∨ x ∈ s := by
  intro s
  induction s with
  | nil => intro h; simp [replaceC] at h
  | cons y t ih =>
    intro h
    rw [replaceC] at h
    rcases List.mem_append.mp h with h | h
    · by_cases hy : y = c
      · rw [if_pos hy] at h
        exact Or.inl h
      · rw [if_neg hy] at h
        exact Or.inr (List.mem_cons.mpr (Or.inl (List.mem_singleton.mp h)))
    · rcases ih h with h | h
      · exact Or.inl h
      · exact Or.inr (List.mem_cons_of_mem y h)

/-- A capture whose name avoids `<`, `>` and newline yields a token with a
well-formed class. -/
theorem capToken_clsOk {cap : Cap}
    (h : '<' ∉ cap.name ∧ '>' ∉ cap.name ∧ '\n' ∉ cap.name) :
    clsOk (capToken cap).cls := by
  rw [capToken, clsOk]
  refine ⟨?_, ?_, ?_⟩ <;> intro hmem <;> rcases List.mem_append.mp hmem with hm | hm
  · exact absurd hm (by decide)
  · rcases mem_replaceC hm with hm | hm
    · exact absurd hm (by decide)
    · exact h.1 hm
  · exact absurd hm (by decide)
  · rcases mem_replaceC hm with hm | hm
    · exact absurd hm (by decide)
    · exact h.2.1 hm
  · exact absurd hm (by decide)
  · rcases mem_replaceC hm with hm | hm
    · exact absurd hm (by decide)
    · exact h.2.2 hm

theorem closeAll_pieces (src : LC) : ∀ (stack : List Token) (pos : Nat),
    ∃ ps, closeAll src stack pos = renderPs ps ∧
      (∀ p ∈ ps, p.wf ∧ p.noIcon) ∧ pfold ps stack.length = some 0
  | [], pos => by
    rw [closeAll]
    by_cases h : pos < src.length
    · refine ⟨textPieces (escapeHtml (src.drop pos)), ?_, escapeHtml_textPieces_wfn _, ?_⟩
      · rw [if_pos h, renderPs_textPieces]
      · exact pfold_textlike (textPieces_textlike _) 0
    · exact ⟨[], by rw [if_neg h]; rfl, by simp, rfl⟩
  | top :: rest, pos => by
    obtain ⟨ps', h1, h2, h3⟩ := closeAll_pieces src rest top.stop
    refine ⟨textPieces (escapeHtml (jsSlice src pos top.stop)) ++ Piece.pclose :: ps',
      ?_, ?_, ?_⟩
    · rw [closeAll, h1, renderPs_append, renderPs_textPieces, renderPs_cons]
      simp [Piece.render, closeTagStr]
    · refine all_append (escapeHtml_textPieces_wfn _) ?_
      intro p hp
      rcases List.mem_cons.mp hp with hp | hp
      · rw [hp]; exact ⟨trivial, trivial⟩
      · exact h2 p hp
    · rw [List.length_cons, pfold_append, pfold_textlike (textPieces_textlike _)]
      show pfold ps' rest.length = some 0
      exact h3

theorem popPhase_pieces (src : LC) (tstart : Nat) : ∀ (stack : List Token) (pos : Nat),
    ∃ ps, (popPhase src tstart stack pos).1 = renderPs ps ∧ (∀ p ∈ ps, p.wf ∧ p.noIcon) ∧
      (∀ t ∈ (popPhase src tstart stack pos).2.1, t ∈ stack) ∧
      pfold ps stack.length = some (popPhase src tstart stack pos).2.1.length
  | [], pos => ⟨[], rfl, by simp, by simp [popPhase], rfl⟩
  | top :: rest, pos => by
    by_cases h : top.stop ≤ tstart
    · obtain ⟨ps', h1, h2, h3, h4⟩ := popPhase_pieces src tstart rest top.stop
      rw [popPhase]
      refine ⟨textPieces (escapeHtml (jsSlice src pos top.stop)) ++ Piece.pclose :: ps',
        ?_, ?_, ?_, ?_⟩
      · rw [if_pos h]
        show escapeHtml (jsSlice src pos top.stop) ++ closeTagStr
            ++ (popPhase src tstart rest top.stop).1 = _
        rw [h1, renderPs_append, renderPs_textPieces, renderPs_cons]
        simp [Piece.render, closeTagStr]
      · refine all_append (escapeHtml_textPieces_wfn _) ?_
        intro p hp
        rcases List.mem_cons.mp hp with hp | hp
        · rw [hp]; exact ⟨trivial, trivial⟩
        · exact h2 p hp
      · rw [if_pos h]
        intro t ht
        exact List.mem_cons_of_mem top (h3 t ht)
      · rw [if_pos h, List.length_cons, pfold_append,
          pfold_textlike (textPieces_textlike _)]
        show pfold ps' rest.length = _
        exact h4
    · rw [popPhase, if_neg h]
      exact ⟨[], rfl, by simp, fun t ht => ht, rfl⟩

theorem spanLoop_pieces (src : LC) : ∀ (toks : List Token) (pos : Nat) (stack : List Token),
    (∀ t ∈ toks, clsOk t.cls) → (∀ t ∈ stack, clsOk t.cls) →
    ∃ ps, spanLoop src toks pos stack = renderPs ps ∧ (∀ p ∈ ps, p.wf ∧ p.noIcon) ∧
      pfold ps stack.length = some 0
  | [], pos, stack => fun _ _ => by
    rw [spanLoop]
    exact closeAll_pieces src stack pos
  | t :: ts, pos, stack => by
    intro htoks hstack
    have hts := fun x hx => htoks x (List.mem_cons_of_mem t hx)
    rw [spanLoop]
    by_cases hlt : t.start < pos
    · rw [if_pos hlt]
      exact spanLoop_pieces src ts pos stack hts hstack
    · rw [if_neg hlt]
      obtain ⟨ps1, p1, p2, p3, p4⟩ := popPhase_pieces src t.start stack pos
      have hstack' : ∀ x ∈ t :: (popPhase src t.start stack pos).2.1, clsOk x.cls := by
        intro x hx
        rcases List.mem_cons.mp hx with hx | hx
        · rw [hx]; exact htoks t (List.mem_cons_self t ts)
        · exact hstack x (p3 x hx)
      obtain ⟨ps2, q1, q2, q3⟩ :=
        spanLoop_pieces src ts
          (if (popPhase src t.start stack pos).2.2 < t.start then t.start
            else (popPhase src t.start stack pos).2.2)
          (t :: (popPhase src t.start stack pos).2.1) hts hstack'
      refine ⟨ps1
          ++ textPieces (if (popPhase src t.start stack pos).2.2 < t.start then
              escapeHtml (jsSlice src (popPhase src t.start stack pos).2.2 t.start) else [])
          ++ Piece.popen t.cls :: ps2, ?_, ?_, ?_⟩
      · rw [p1, q1, renderPs_append, renderPs_append, renderPs_textPieces, renderPs_cons]
        by_cases hg : (popPhase src t.start stack pos).2.2 < t.start
        · rw [if_pos hg]
          simp [Piece.render]
        · rw [if_neg hg]
          simp [Piece.render]
      · refine all_append (all_append p2 ?_) ?_
        · by_cases hg : (popPhase src t.start stack pos).2.2 < t.start
          · rw [if_pos hg]; exact escapeHtml_textPieces_wfn _
          · rw [if_neg hg]; intro p hp; simp [textPieces] at hp
        · intro p hp
          rcases List.mem_cons.mp hp with hp | hp
          · rw [hp]
            exact ⟨htoks t (List.mem_cons_self t ts), trivial⟩
          · exact q2 p hp
      · have hmid : pfold (ps1 ++ textPieces (if (popPhase src t.start stack pos).2.2 < t.start
            then escapeHtml (jsSlice src (popPhase src t.start stack pos).2.2 t.start) else []))
            stack.length = some (popPhase src t.start stack pos).2.1.length := by
          rw [pfold_append, p4]
          exact pfold_textlike (textPieces_textlike _) _
        rw [pfold_append, hmid]
        show pfold (Piece.popen t.cls :: ps2) (popPhase src t.start stack pos).2.1.length
            = some 0
        rw [pfold]
        have hq := q3
        rw [List.length_cons] at hq
        exact hq

/-- The general grammar path of `add_spans` renders to balanced
well-formed pieces, provided every capture name avoids `<`, `>` and
newline. -/
theorem add_spans_general_pieces (src : LC) {caps : List Cap}
    (h : ∀ cap ∈ caps, '<' ∉ cap.name ∧ '>' ∉ cap.name ∧ '\n' ∉ cap.name) :
    ∃ ps, add_spans_general src caps = renderPs ps ∧ (∀ p ∈ ps, p.wf ∧ p.noIcon) ∧
      pfold ps 0 = some 0 := by
  rw [add_spans_general]
  refine spanLoop_pieces src _ 0 [] ?_ (by simp)
  intro t ht
  have hmem := List.mem_mergeSort.mp ht
  obtain ⟨cap, hcap, hct⟩ := List.mem_map.mp hmem
  rw [← hct]
  exact capToken_clsOk (h cap hcap)

/-- `add_spans` always renders to balanced well-formed pieces (under the
capture-name condition for the general path). -/
theorem add_spans_pieces (src : LC) (language : Option LC) (captures : Option (List Cap))
    (h : ∀ caps ∈ captures, ∀ cap ∈ caps, '<' ∉ cap.name ∧ '>' ∉ cap.name ∧ '\n' ∉ cap.name) :
    ∃ ps, add_spans src language captures = renderPs ps ∧ (∀ p ∈ ps, p.wf ∧ p.noIcon) ∧
      pfold ps 0 = some 0 := by
  cases language with
  | none => exact plainWrap_pieces src
  | some lang =>
    show ∃ ps, (if lang = [] ∨ lang = "adoc".data then plainWrap src
        else if lang = "console".data then add_spans_console src
        else match captures with
          | none => plainWrapNoGrammar src
          | some caps => add_spans_general src caps) = renderPs ps
        ∧ (∀ p ∈ ps, p.wf ∧ p.noIcon) ∧ pfold ps 0 = some 0
    by_cases h1 : lang = [] ∨ lang = "adoc".data
    · rw [if_pos h1]
      exact plainWrap_pieces src
    rw [if_neg h1]
    by_cases h2 : lang = "console".data
    · rw [if_pos h2]
      exact add_spans_console_pieces src
    rw [if_neg h2]
    cases captures with
    | none => exact plainWrapNoGrammar_pieces src
    | some caps =>
      exact add_spans_general_pieces src (h caps rfl)

/-- Every digit recorded by the callout scan is an actual digit. -/
theorem parse_callouts_aux_digits (line : Nat) (s : LC) :
    ∀ e ∈ (parse_callouts_aux line s).2, (Prod.snd e).isDigit := by
  induction line, s using parse_callouts_aux.induct with
  | case1 line => intro e he; simp [parse_callouts_aux] at he
  | case2 line rest ih =>
    intro e he
    rw [parse_callouts_aux] at he
    exact ih e he
  | case3 line d r hd ih =>
    intro e he
    rw [parse_callouts_aux, if_pos hd] at he
    rcases List.mem_cons.mp he with he | he
    · rw [he]; exact hd
    · exact ih e he
  | case4 line d r hd ih =>
    intro e he
    rw [parse_callouts_aux, if_neg hd] at he
    exact ih e he
  | case5 line c rest h1 h2 ih =>
    intro e he
    rw [parse_callouts_aux] at he
    · exact ih e he
    · exact h1
    · exact h2

theorem parse_callouts_digits (source : LC) :
    ∀ e ∈ (parse_callouts source).2, (Prod.snd e).isDigit :=
  parse_callouts_aux_digits 0 source

theorem mapIdxFrom_map {α β γ : Type} (g : Nat → β → γ) (f : α → β) :
    ∀ (i : Nat) (l : List α),
      mapIdxFrom g i (l.map f) = mapIdxFrom (fun j x => g j (f x)) i l := by
  intro i l
  induction l generalizing i with
  | nil => rfl
  | cons x t ih => rw [List.map_cons, mapIdxFrom, mapIdxFrom, ih]

theorem map_mapIdxFrom {α β γ : Type} (g : Nat → α → β) (h : β → γ) :
    ∀ (i : Nat) (l : List α),
      (mapIdxFrom g i l).map h = mapIdxFrom (fun j x => h (g j x)) i l := by
  intro i l
  induction l generalizing i with
  | nil => rfl
  | cons x t ih => rw [mapIdxFrom, List.map_cons, mapIdxFrom, ih]

theorem mem_mapIdxFrom {α β : Type} {g : Nat → α → β} :
    ∀ {i : Nat} {l : List α} {x : β}, x ∈ mapIdxFrom g i l → ∃ j a, a ∈ l ∧ x = g j a := by
  intro i l
  induction l generalizing i with
  | nil => intro x hx; simp [mapIdxFrom] at hx
  | cons y t ih =>
    intro x hx
    rw [mapIdxFrom] at hx
    rcases List.mem_cons.mp hx with hx | hx
    · exact ⟨i, y, List.mem_cons_self y t, hx⟩
    · obtain ⟨j, a, ha, hxa⟩ := ih hx
      exact ⟨j, a, List.mem_cons_of_mem y ha, hxa⟩

theorem mem_segsP {ps : List Piece} : ∀ {seg : List Piece}, seg ∈ segsP ps →
    ∀ p ∈ seg, p ∈ ps := by
  induction ps with
  | nil =>
    intro seg h
    simp [segsP] at h
    simp [h]
  | cons q t ih =>
    intro seg h
    rw [segsP] at h
    by_cases hq : q = Piece.pnl
    · rw [if_pos hq] at h
      rcases List.mem_cons.mp h with h | h
      · intro p hp; rw [h] at hp; simp at hp
      · intro p hp; exact List.mem_cons_of_mem q (ih h p hp)
    · rw [if_neg hq] at h
      rcases hsp : segsP t with _ | ⟨l, ls⟩
      · exact absurd hsp (segsP_ne_nil t)
      rw [hsp] at h
      have hl : l ∈ segsP t := by rw [hsp]; exact List.mem_cons_self l ls
      rcases List.mem_cons.mp h with h | h
      · subst h
        intro p hp
        rcases List.mem_cons.mp hp with hp | hp
        · exact hp ▸ List.mem_cons_self q t
        · exact List.mem_cons_of_mem q (ih hl p hp)
      · intro p hp
        have hseg : seg ∈ segsP t := by rw [hsp]; exact List.mem_cons_of_mem l h
        exact List.mem_cons_of_mem q (ih hseg p hp)

theorem lineOk_segs_all {ps : List Piece} (h : lineOk 0 ps) :
    ∀ seg ∈ segsP ps, pfold seg 0 = some 0 := by
  obtain ⟨ha, hb⟩ := lineOk_segs ps 0 h
  intro seg hseg
  rcases hsp : segsP ps with _ | ⟨l, ls⟩
  · exact absurd hsp (segsP_ne_nil ps)
  rw [hsp] at hseg ha hb
  rcases List.mem_cons.mp hseg with hseg | hseg
  · subst hseg
    simpa using ha
  · exact hb seg (by simpa using hseg)

/-- The line list produced by `highlight_lines` is the rendering of
per-line wrapped piece segments, each well formed, icon free inside the
segment, and balanced. -/
theorem highlight_lines_pieces (source : LC) (language : Option LC)
    (highlight_spec : Option LC) (captures : Option (List Cap))
    (h : ∀ caps ∈ captures, ∀ cap ∈ caps,
      '<' ∉ cap.name ∧ '>' ∉ cap.name ∧ '\n' ∉ cap.name) :
    ∃ segs : List (List Piece),
      highlight_lines source language highlight_spec captures
        = (mapIdxFrom (wrapLineP (parse_highlight_spec highlight_spec)
            (parse_callouts source).2) 0 segs).map renderPs
      ∧ (∀ seg ∈ segs, ∀ p ∈ seg, p.wf ∧ p.noIcon)
      ∧ ∀ seg ∈ segs, pfold seg 0 = some 0 := by
  obtain ⟨ps0, a1, a2, a3⟩ := add_spans_pieces (parse_callouts source).1 language captures h
  obtain ⟨ps1, b1, b2, bsub, b3⟩ := trimEnd_renderPs (fun p hp => (a2 p hp).1)
  have bn : ∀ p ∈ ps1, p.noIcon := fun p hp => (a2 p (bsub p hp)).2
  have c1 : resplitStr [] (trimEnd (add_spans (parse_callouts source).1 language captures))
      = renderPs (presplit [] ps1) := by
    rw [a1, b1]
    have := resplitStr_renderPs b2 ([] : List LC)
    simpa using this
  have c2 : ∀ p ∈ presplit [] ps1, p.wf := presplit_wf b2 (by simp)
  have c2n : ∀ p ∈ presplit [] ps1, p.noIcon := presplit_noIcon bn []
  have c3 : lineOk 0 (presplit [] ps1) := by
    have hp : pfold ps1 (([] : List LC)).length = some 0 := by
      rw [show (([] : List LC)).length = 0 from rfl, b3 0]
      exact a3
    simpa using presplit_lineOk ps1 [] hp
  refine ⟨segsP (presplit [] ps1), ?_, ?_, ?_⟩
  · rw [highlight_lines]
    show mapIdxFrom _ 0 (splitOn1 '\n'
        (resplitStr [] (trimEnd (add_spans (parse_callouts source).1 language captures)))) = _
    rw [c1, splitOn1_renderPs c2, mapIdxFrom_map, map_mapIdxFrom]
    congr 1
    funext j x
    rw [renderPs_wrapLineP]
  · intro seg hseg p hp
    exact ⟨c2 p (mem_segsP hseg p hp), c2n p (mem_segsP hseg p hp)⟩
  · exact lineOk_segs_all c3

/-- C1 — For every source string, language, capture set and highlight
spec, the HTML fragment returned by `highlight` has exactly as many
`<span ...>` opening tags as `</span>` closing tags, properly nested
(`spanScan ... 0 = some 0` means the left-to-right scan that recognises
the same `(<span [^>]+>)|(</span>)` patterns as the code's re-splitting
regex never sees a close tag at depth 0 and ends at depth 0) — including
adjacent, nested, identical-range or newline-crossing captures, since the
line re-splitting pass closes and reopens every open span at each newline.
The capture names are assumed to avoid `<`, `>` and newline characters, as
tree-sitter capture names (dotted identifiers) always do. -/
theorem highlight_spans_balanced (source : LC) (language : Option LC)
    (highlight_spec : Option LC) (captures : Option (List Cap))
    (h : ∀ caps ∈ captures, ∀ cap ∈ caps,
      '<' ∉ cap.name ∧ '>' ∉ cap.name ∧ '\n' ∉ cap.name) :
    spanScan (highlight source language highlight_spec captures) 0 = some 0 := by
  obtain ⟨segs, e1, e2, e3⟩ := highlight_lines_pieces source language highlight_spec captures h
  have hev : ∀ e ∈ (parse_callouts source).2, (Prod.snd e).isDigit :=
    parse_callouts_digits source
  have d2 : highlight source language highlight_spec captures
      = renderPs (textPieces "\n    ".data ++ [Piece.ppre]
          ++ joinP (mapIdxFrom (wrapLineP (parse_highlight_spec highlight_spec)
              (parse_callouts source).2) 0 segs)
          ++ [Piece.ppost] ++ textPieces "\n  ".data) := by
    rw [highlight, e1, ← renderPs_joinP]
    rw [renderPs_append, renderPs_append, renderPs_append, renderPs_append,
      renderPs_textPieces, renderPs_textPieces]
    have hpre : ("\n    <pre><code>".data : LC) = "\n    ".data ++ renderPs [Piece.ppre] := by
      decide
    have hpost : ("</code></pre>\n  ".data : LC) = renderPs [Piece.ppost] ++ "\n  ".data := by
      decide
    rw [hpre, hpost]
    simp
  rw [d2]
  have hwf : ∀ p ∈ (textPieces "\n    ".data ++ [Piece.ppre]
      ++ joinP (mapIdxFrom (wrapLineP (parse_highlight_spec highlight_spec)
          (parse_callouts source).2) 0 segs)
      ++ [Piece.ppost] ++ textPieces "\n  ".data), p.wf := by
    refine wf_append (wf_append (wf_append (wf_append (textPieces_wf (by decide)) ?_) ?_) ?_)
      (textPieces_wf (by decide))
    · intro p hp
      rw [List.mem_singleton.mp hp]
      trivial
    · apply joinP_wf
      intro l hl
      obtain ⟨j, seg, hseg, hlw⟩ := mem_mapIdxFrom hl
      rw [hlw]
      exact wrapLineP_wf _ hev j (fun p hp => (e2 seg hseg p hp).1)
    · intro p hp
      rw [List.mem_singleton.mp hp]
      trivial
  have hfold : pfold (textPieces "\n    ".data ++ [Piece.ppre]
      ++ joinP (mapIdxFrom (wrapLineP (parse_highlight_spec highlight_spec)
          (parse_callouts source).2) 0 segs)
      ++ [Piece.ppost] ++ textPieces "\n  ".data) 0 = some 0 := by
    have hj : pfold (joinP (mapIdxFrom (wrapLineP (parse_highlight_spec highlight_spec)
        (parse_callouts source).2) 0 segs)) 0 = some 0 := by
      apply pfold_joinP
      intro l hl
      obtain ⟨j, seg, hseg, hlw⟩ := mem_mapIdxFrom hl
      rw [hlw]
      exact pfold_wrapLineP _ _ j (e3 seg hseg)
    have h1 : pfold (textPieces "\n    ".data ++ [Piece.ppre]) 0 = some 0 := by
      rw [pfold_append, pfold_textlike (textPieces_textlike _)]
      rfl
    have h2 : pfold ((textPieces "\n    ".data ++ [Piece.ppre])
        ++ joinP (mapIdxFrom (wrapLineP (parse_highlight_spec highlight_spec)
            (parse_callouts source).2) 0 segs)) 0 = some 0 := by
      rw [pfold_append, h1]
      exact hj
    have h3 : pfold (((textPieces "\n    ".data ++ [Piece.ppre])
        ++ joinP (mapIdxFrom (wrapLineP (parse_highlight_spec highlight_spec)
            (parse_callouts source).2) 0 segs)) ++ [Piece.ppost]) 0
        = some 0 := by
      rw [pfold_append, h2]
      rfl
    rw [pfold_append, h3]
    exact pfold_textlike (textPieces_textlike _) 0
  have := spanScan_renderPs hwf [] 0
  rw [List.append_nil] at this
  rw [this, hfold]
  show spanScan [] 0 = some 0
  rw [spanScan]

/-- Witness for the balanced-spans theorem at a concrete input: a Rust
snippet with two nested captures, a callout marker and a highlight spec. -/
theorem highlight_spans_balanced_witness :
    spanScan (highlight "let x = 1; <1>\nx + 2".data (some "rust".data)
      (some "1".data) (some [⟨0, 10, "keyword".data⟩, ⟨0, 3, "keyword.fn".data⟩])) 0
      = some 0 :=
  highlight_spans_balanced "let x = 1; <1>\nx + 2".data (some "rust".data)
    (some "1".data) (some [⟨0, 10, "keyword".data⟩, ⟨0, 3, "keyword.fn".data⟩])
    (by intro caps hc cap hcap
        rw [Option.mem_def, Option.some.injEq] at hc
        subst hc
        rcases List.mem_cons.mp hcap with hcap | hcap
        · rw [hcap]; refine ⟨by decide, by decide, by decide⟩
        · rw [List.mem_singleton.mp hcap]; refine ⟨by decide, by decide, by decide⟩)

/-! ## C2: callout icons in the rendered output -/

/-- The number of occurrences of the callout icon element for digit `d`
in a string, counted in one left-to-right scan. -/
def countIcon (d : Char) : LC → Nat
  | [] => 0
  | c :: rest =>
    if (iconStr d).isPrefixOf (c :: rest) then
      1 + countIcon d ((c :: rest).drop (iconStr d).length)
    else countIcon d rest
termination_by s => s.length
decreasing_by
  · have hlen : (iconStr d).length = 38 := rfl
    simp only [List.length_drop, List.length_cons, hlen]
    omega
  · simp only [List.length_cons]
    omega

theorem iconStr_length (d : Char) : (iconStr d).length = 38 := rfl

theorem iconStr_getElem1 (d : Char) : (iconStr d)[1]? = some 'i' := rfl

theorem iconStr_getElem31 (d : Char) : (iconStr d)[31]? = some d := rfl

theorem icon_not_prefix_of_ne {c : Char} (h : c ≠ '<') (d : Char) (r : LC) :
    (iconStr d).isPrefixOf (c :: r) = false := by
  have hb : ('<' == c) = false := beq_eq_false_iff_ne.mpr (Ne.symm h)
  show (('<' :: ("i class=\"callout\" data-value=\"".data ++ [d] ++ "\"></i>".data)) : LC).isPrefixOf
      (c :: r) = false
  simp [List.isPrefixOf, hb]

theorem countIcon_nil (d : Char) : countIcon d [] = 0 := by rw [countIcon]

theorem countIcon_cons_np {d c : Char} {t : LC}
    (hnp : (iconStr d).isPrefixOf (c :: t) = false) :
    countIcon d (c :: t) = countIcon d t := by
  rw [countIcon]
  rw [if_neg (by simp [hnp])]

theorem countIcon_ch {d c : Char} (h : c ≠ '<') (r : LC) :
    countIcon d (c :: r) = countIcon d r :=
  countIcon_cons_np (icon_not_prefix_of_ne h d r)

theorem countIcon_no_lt {d : Char} : ∀ (s : LC), '<' ∉ s →
    ∀ r, countIcon d (s ++ r) = countIcon d r := by
  intro s
  induction s with
  | nil => intro _ r; rfl
  | cons c t ih =>
    intro h r
    have hc : c ≠ '<' := fun he => h (he ▸ List.mem_cons_self c t)
    rw [List.cons_append, countIcon_ch hc, ih (fun hm => h (List.mem_cons_of_mem c hm)) r]

theorem countIcon_icon_same (d : Char) (r : LC) :
    countIcon d (iconStr d ++ r) = 1 + countIcon d r := by
  obtain ⟨c, t, hct⟩ := List.exists_cons_of_ne_nil
    (show iconStr d ++ r ≠ [] by simp [iconStr_eq])
  rw [hct, countIcon, ← hct]
  rw [if_pos (isPrefixOf_append_self (iconStr d) r)]
  rw [List.drop_left]

theorem failsWithin_icon_at1 {d : Char} {s : LC} (h2 : 2 ≤ s.length)
    (hs : s[1]? ≠ some 'i') : failsWithinB (iconStr d) s = true := by
  simp only [failsWithinB, List.any_eq_true, List.mem_range, Bool.and_eq_true,
    decide_eq_true_eq, bne_iff_ne]
  refine ⟨1, ?_, by omega, ?_⟩
  · rw [iconStr_length]; omega
  · rw [iconStr_getElem1]
    exact hs

theorem countIcon_close {d : Char} (r : LC) :
    countIcon d (closeTagStr ++ r) = countIcon d r := by
  have hfw : failsWithinB (iconStr d) "</span>".data = true :=
    failsWithin_icon_at1 (by decide) (by decide)
  exact (countIcon_cons_np (not_prefix_of_failsWithin hfw r)).trans
    (countIcon_no_lt "/span>".data (by decide) r)

theorem countIcon_pre {d : Char} (r : LC) :
    countIcon d ("<pre><code>".data ++ r) = countIcon d r := by
  have hfw1 : failsWithinB (iconStr d) "<pre><code>".data = true :=
    failsWithin_icon_at1 (by decide) (by decide)
  have hfw2 : failsWithinB (iconStr d) "<code>".data = true :=
    failsWithin_icon_at1 (by decide) (by decide)
  refine (countIcon_cons_np (not_prefix_of_failsWithin hfw1 r)).trans ?_
  refine (countIcon_no_lt "pre>".data (by decide) ("<code>".data ++ r)).trans ?_
  refine (countIcon_cons_np (not_prefix_of_failsWithin hfw2 r)).trans ?_
  exact countIcon_no_lt "code>".data (by decide) r

theorem countIcon_post {d : Char} (r : LC) :
    countIcon d ("</code></pre>".data ++ r) = countIcon d r := by
  have hfw1 : failsWithinB (iconStr d) "</code></pre>".data = true :=
    failsWithin_icon_at1 (by decide) (by decide)
  have hfw2 : failsWithinB (iconStr d) "</pre>".data = true :=
    failsWithin_icon_at1 (by decide) (by decide)
  refine (countIcon_cons_np (not_prefix_of_failsWithin hfw1 r)).trans ?_
  refine (countIcon_no_lt "/code>".data (by decide) ("</pre>".data ++ r)).trans ?_
  refine (countIcon_cons_np (not_prefix_of_failsWithin hfw2 r)).trans ?_
  exact countIcon_no_lt "/pre>".data (by decide) r

theorem countIcon_openTag {d : Char} {cls : LC} (h : '<' ∉ cls) (r : LC) :
    countIcon d (openTagStr cls ++ r) = countIcon d r := by
  have h1 : (openTagStr cls)[1]? = some 's' := rfl
  have hfw : failsWithinB (iconStr d) (openTagStr cls) = true := by
    apply failsWithin_icon_at1
    · show 2 ≤ ('<' :: 's' :: (("pan class=\"".data ++ cls) ++ "\">".data) : LC).length
      simp
    · rw [h1]; simp
  refine (countIcon_cons_np (not_prefix_of_failsWithin hfw r)).trans ?_
  refine (countIcon_no_lt "span class=\"".data (by decide) ((cls ++ "\">".data) ++ r)).trans ?_
  rw [List.append_assoc]
  refine (countIcon_no_lt cls h ("\">".data ++ r)).trans ?_
  exact countIcon_no_lt "\">".data (by decide) r

theorem countIcon_icon_other {d e : Char} (hdig : e.isDigit) (hne : e ≠ d) (r : LC) :
    countIcon d (iconStr e ++ r) = countIcon d r := by
  have hfw : failsWithinB (iconStr d) (iconStr e) = true := by
    simp only [failsWithinB, List.any_eq_true, List.mem_range, Bool.and_eq_true,
      decide_eq_true_eq, bne_iff_ne]
    refine ⟨31, ?_, ?_, ?_⟩
    · rw [iconStr_length]; omega
    · rw [iconStr_length]; omega
    · rw [iconStr_getElem31, iconStr_getElem31]
      simp [hne]
  have he := digit_ne_specials hdig
  have hfw2 : failsWithinB (iconStr d) "</i>".data = true :=
    failsWithin_icon_at1 (by decide) (by decide)
  refine (countIcon_cons_np (not_prefix_of_failsWithin hfw r)).trans ?_
  refine (countIcon_no_lt "i class=\"callout\" data-value=\"".data (by decide)
    ((e :: "\"></i>".data) ++ r)).trans ?_
  rw [List.cons_append]
  refine (countIcon_ch he.1 ("\"></i>".data ++ r)).trans ?_
  refine (countIcon_ch (by decide) ('>' :: ("</i>".data ++ r))).trans ?_
  refine (countIcon_ch (by decide) ("</i>".data ++ r)).trans ?_
  refine (countIcon_cons_np (not_prefix_of_failsWithin hfw2 r)).trans ?_
  exact countIcon_no_lt "/i>".data (by decide) r

/-- For well-formed pieces, the icon count of the rendering is the number
of `picon d` pieces: no icon element can arise from text, tags or other
icons. -/
theorem countIcon_renderPs {d : Char} : ∀ {ps : List Piece}, (∀ p ∈ ps, p.wf) →
    countIcon d (renderPs ps) = ps.countP (fun p => p == Piece.picon d) := by
  intro ps
  induction ps with
  | nil => intro _; rw [renderPs_nil, countIcon_nil, List.countP_nil]
  | cons p t ih =>
    intro h
    have hp := h p (List.mem_cons_self p t)
    have ht := fun q hq => h q (List.mem_cons_of_mem p hq)
    rw [renderPs_cons, List.countP_cons]
    cases p with
    | pch c =>
      rw [show Piece.render (Piece.pch c) = [c] from rfl, List.singleton_append,
        countIcon_ch hp.1, ih ht]
      simp
    | pnl =>
      rw [show Piece.render Piece.pnl = ['\n'] from rfl, List.singleton_append,
        countIcon_ch (by decide), ih ht]
      simp
    | popen cls =>
      rw [show Piece.render (Piece.popen cls) = openTagStr cls from rfl,
        countIcon_openTag hp.1, ih ht]
      simp
    | pclose =>
      rw [show Piece.render Piece.pclose = closeTagStr from rfl, countIcon_close, ih ht]
      simp
    | picon e =>
      rw [show Piece.render (Piece.picon e) = iconStr e from rfl]
      by_cases hed : e = d
      · subst hed
        rw [countIcon_icon_same, ih ht]
        simp [Nat.add_comm]
      · rw [countIcon_icon_other hp hed, ih ht]
        simp [hed]
    | ppre =>
      rw [show Piece.render Piece.ppre = "<pre><code>".data from rfl, countIcon_pre, ih ht]
      simp
    | ppost =>
      rw [show Piece.render Piece.ppost = "</code></pre>".data from rfl, countIcon_post, ih ht]
      simp

theorem countP_noIcon {d : Char} : ∀ {ps : List Piece}, (∀ p ∈ ps, p.noIcon) →
    ps.countP (fun p => p == Piece.picon d) = 0 := by
  intro ps
  induction ps with
  | nil => intro _; rfl
  | cons p t ih =>
    intro h
    have hp := h p (List.mem_cons_self p t)
    have hne : (p == Piece.picon d) = false := by
      cases p with
      | picon e => exact hp.elim
      | pch c => simp
      | pnl => simp
      | popen cls => simp
      | pclose => simp
      | ppre => simp
      | ppost => simp
    rw [List.countP_cons, ih (fun q hq => h q (List.mem_cons_of_mem p hq)), hne]
    simp

theorem countP_iconPieces (d : Char) : ∀ ds : List Char,
    (iconPieces ds).countP (fun p => p == Piece.picon d) = ds.count d
  | [] => rfl
  | [e] => by
    rw [show iconPieces [e] = [Piece.picon e] from rfl]
    rw [List.countP_cons, List.countP_nil, List.count_cons, List.count_nil]
    by_cases hed : e = d
    · subst hed; simp
    · simp [hed, Ne.symm hed]
  | e :: e2 :: ds => by
    rw [show iconPieces (e :: e2 :: ds)
        = Piece.picon e :: Piece.pch ' ' :: iconPieces (e2 :: ds) from rfl]
    rw [List.count_cons, List.countP_cons, List.countP_cons, countP_iconPieces d (e2 :: ds)]
    by_cases hed : e = d
    · subst hed; simp
    · simp [hed, Ne.symm hed]

theorem mapIdxFrom_getElem {α β : Type} (f : Nat → α → β) :
    ∀ (i : Nat) (l : List α) (j : Nat),
      (mapIdxFrom f i l)[j]? = (l[j]?).map (f (i + j)) := by
  intro i l
  induction l generalizing i with
  | nil => intro j; rw [mapIdxFrom]; simp
  | cons x t ih =>
    intro j
    rw [mapIdxFrom]
    cases j with
    | zero => simp
    | succ k =>
      rw [List.getElem?_cons_succ, List.getElem?_cons_succ, ih (i + 1) k,
        show i + 1 + k = i + (k + 1) from by omega]

set_option maxRecDepth 8192 in
unseal resplitStr List.mergeSort in
/-- C2 — counterexample: the marker scan is a single left-to-right pass
with no rescanning, so overlapping marker-like text survives it. For the
source `<<5>5>`, the scan removes the marker `<5>` at index 1 and records
digit 5 for line 0, but the residue of the removal is again `<5>`. On a
grammar path (a language with a registered grammar, here with an empty
capture set) the residue is escaped exactly once, so the rendered output
contains `&lt;5&gt;` — the marker text, as the page displays it — refuting
the claim that the marker text appears nowhere in the output. -/
theorem highlight_callout_marker_counterexample :
    (parse_callouts "<<5>5>".data).2 = [(0, '5')]
    ∧ escapeHtml "<5>".data = "&lt;5&gt;".data
    ∧ "&lt;5&gt;".data <:+: highlight "<<5>5>".data (some "x".data) none (some []) := by
  refine ⟨by decide, by decide, ?_⟩
  decide

/-- C2 — amended: for every source, language, spec and capture set (with
capture names free of `<`, `>` and newline), and every output line `L` of
`highlight` whose recorded callout digits contain the digit `N` exactly
once, that line carries exactly one callout icon element with `N` as its
data value. (The original claim's further assertion — that the literal
marker text or its HTML-escaped form appears nowhere in the output — is
false: see the single-pass counterexample.) -/
theorem highlight_callout_icon_amended (source : LC) (language : Option LC)
    (highlight_spec : Option LC) (captures : Option (List Cap))
    (h : ∀ caps ∈ captures, ∀ cap ∈ caps,
      '<' ∉ cap.name ∧ '>' ∉ cap.name ∧ '\n' ∉ cap.name)
    (L : Nat) (N : Char) (lineStr : LC)
    (hline : (highlight_lines source language highlight_spec captures)[L]? = some lineStr)
    (hcount : (calloutsAt (parse_callouts source).2 L).count N = 1) :
    countIcon N lineStr = 1 := by
  obtain ⟨segs, e1, e2, e3⟩ := highlight_lines_pieces source language highlight_spec captures h
  rw [e1, List.getElem?_map, mapIdxFrom_getElem] at hline
  cases hseg : segs[L]? with
  | none =>
    rw [hseg] at hline
    simp at hline
  | some seg =>
    rw [hseg] at hline
    simp only [Option.map_some', Option.some.injEq, Nat.zero_add] at hline
    have hsegmem : seg ∈ segs := by
      obtain ⟨hlt, hget⟩ := List.getElem?_eq_some.mp hseg
      exact hget ▸ List.getElem_mem hlt
    have hwfseg : ∀ p ∈ wrapLineP (parse_highlight_spec highlight_spec)
        (parse_callouts source).2 L seg, p.wf :=
      wrapLineP_wf _ (parse_callouts_digits source) L (fun p hp => (e2 seg hsegmem p hp).1)
    rw [← hline, countIcon_renderPs hwfseg, wrapLineP]
    rw [List.countP_cons, List.countP_append, List.countP_append]
    rw [countP_noIcon (fun p hp => (e2 seg hsegmem p hp).2)]
    rw [countP_iconPieces, hcount]
    simp

unseal resplitStr in
/-- Witness for the amended theorem: the source `a <1>\nb` has one callout
digit 1 recorded for line 0, and output line 0 carries exactly one icon
element with value 1. -/
theorem highlight_callout_icon_amended_witness :
    (calloutsAt (parse_callouts "a <1>\nb".data).2 0).count '1' = 1
    ∧ countIcon '1'
        "<span class=\"line\"><i class=\"callout\" data-value=\"1\"></i></span>".data = 1 :=
  ⟨by decide, highlight_callout_icon_amended "a <1>\nb".data none none none
    (by intro caps hc; simp at hc) 0 '1'
    "<span class=\"line\"><i class=\"callout\" data-value=\"1\"></i></span>".data
    (by decide) (by decide)⟩

/-! ## C3: stripping tags from the no-language output -/

/-- Removing the HTML tags of a string: each maximal `<`…`>` run is
dropped, everything outside such runs is kept (the claim's "after
stripping all tags"). -/
def stripTagsAux : Bool → LC → LC
  | _, [] => []
  | inTag, c :: r =>
    if inTag then
      if c = '>' then stripTagsAux false r else stripTagsAux true r
    else
      if c = '<' then stripTagsAux true r else c :: stripTagsAux false r

/-- Strip all HTML tags from a string. -/
def stripTags (s : LC) : LC :=
  stripTagsAux false s

theorem stripAux_false_cons (c : Char) (r : LC) :
    stripTagsAux false (c :: r)
      = if c = '<' then stripTagsAux true r else c :: stripTagsAux false r := by
  rw [stripTagsAux]
  rfl

theorem stripAux_true_cons (c : Char) (r : LC) :
    stripTagsAux true (c :: r)
      = if c = '>' then stripTagsAux false r else stripTagsAux true r := by
  rw [stripTagsAux]
  rfl

theorem stripAux_false_no_lt : ∀ (s : LC), '<' ∉ s →
    ∀ r, stripTagsAux false (s ++ r) = s ++ stripTagsAux false r := by
  intro s
  induction s with
  | nil => intro _ r; rfl
  | cons c t ih =>
    intro h r
    have hc : c ≠ '<' := fun he => h (he ▸ List.mem_cons_self c t)
    rw [List.cons_append, stripAux_false_cons, if_neg hc,
      ih (fun hm => h (List.mem_cons_of_mem c hm)) r, List.cons_append]

theorem stripAux_true_no_gt : ∀ (s : LC), '>' ∉ s →
    ∀ r, stripTagsAux true (s ++ r) = stripTagsAux true r := by
  intro s
  induction s with
  | nil => intro _ r; rfl
  | cons c t ih =>
    intro h r
    have hc : c ≠ '>' := fun he => h (he ▸ List.mem_cons_self c t)
    rw [List.cons_append, stripAux_true_cons, if_neg hc,
      ih (fun hm => h (List.mem_cons_of_mem c hm)) r]

/-- The text outside tags of a rendered piece sequence: its characters
and newlines. -/
def keepText : List Piece → LC
  | [] => []
  | Piece.pch c :: t => c :: keepText t
  | Piece.pnl :: t => '\n' :: keepText t
  | Piece.popen _ :: t => keepText t
  | Piece.pclose :: t => keepText t
  | Piece.picon _ :: t => keepText t
  | Piece.ppre :: t => keepText t
  | Piece.ppost :: t => keepText t

theorem stripAux_openTag {cls : LC} (h : '>' ∉ cls) (x : LC) :
    stripTagsAux false (openTagStr cls ++ x) = stripTagsAux false x := by
  show stripTagsAux false ('<' :: ((("span class=\"".data ++ cls) ++ "\">".data) ++ x)) = _
  rw [stripAux_false_cons, if_pos rfl]
  refine (stripAux_true_no_gt "span class=\"".data (by decide)
    ((cls ++ "\">".data) ++ x)).trans ?_
  rw [List.append_assoc]
  refine (stripAux_true_no_gt cls h ("\">".data ++ x)).trans ?_
  show stripTagsAux true ('"' :: '>' :: x) = _
  rw [stripAux_true_cons, if_neg (by decide), stripAux_true_cons, if_pos rfl]

theorem stripAux_close (x : LC) :
    stripTagsAux false (closeTagStr ++ x) = stripTagsAux false x := by
  show stripTagsAux false ('<' :: ("/span".data ++ ('>' :: x))) = _
  rw [stripAux_false_cons, if_pos rfl]
  refine (stripAux_true_no_gt "/span".data (by decide) ('>' :: x)).trans ?_
  rw [stripAux_true_cons, if_pos rfl]

theorem stripAux_icon {e : Char} (hdig : e.isDigit) (x : LC) :
    stripTagsAux false (iconStr e ++ x) = stripTagsAux false x := by
  have he := digit_ne_specials hdig
  show stripTagsAux false ('<' :: ((("i class=\"callout\" data-value=\"".data ++ [e])
      ++ "\"></i>".data) ++ x)) = _
  rw [stripAux_false_cons, if_pos rfl]
  refine (stripAux_true_no_gt "i class=\"callout\" data-value=\"".data (by decide)
    ((e :: "\"></i>".data) ++ x)).trans ?_
  rw [List.cons_append, stripAux_true_cons, if_neg he.2.2.1]
  show stripTagsAux true ('"' :: '>' :: '<' :: '/' :: 'i' :: ('>' :: x)) = _
  rw [stripAux_true_cons, if_neg (by decide), stripAux_true_cons, if_pos rfl,
    stripAux_false_cons, if_pos rfl, stripAux_true_cons, if_neg (by decide),
    stripAux_true_cons, if_neg (by decide), stripAux_true_cons, if_pos rfl]

theorem stripAux_pre (x : LC) :
    stripTagsAux false ("<pre><code>".data ++ x) = stripTagsAux false x := by
  show stripTagsAux false
      ('<' :: 'p' :: 'r' :: 'e' :: '>' :: '<' :: 'c' :: 'o' :: 'd' :: 'e' :: ('>' :: x)) = _
  rw [stripAux_false_cons, if_pos rfl, stripAux_true_cons, if_neg (by decide),
    stripAux_true_cons, if_neg (by decide), stripAux_true_cons, if_neg (by decide),
    stripAux_true_cons, if_pos rfl, stripAux_false_cons, if_pos rfl,
    stripAux_true_cons, if_neg (by decide), stripAux_true_cons, if_neg (by decide),
    stripAux_true_cons, if_neg (by decide), stripAux_true_cons, if_neg (by decide),
    stripAux_true_cons, if_pos rfl]

theorem stripAux_post (x : LC) :
    stripTagsAux false ("</code></pre>".data ++ x) = stripTagsAux false x := by
  show stripTagsAux false
      ('<' :: '/' :: 'c' :: 'o' :: 'd' :: 'e' :: '>' :: '<' :: '/' :: 'p' :: 'r' :: 'e'
        :: ('>' :: x)) = _
  rw [stripAux_false_cons, if_pos rfl, stripAux_true_cons, if_neg (by decide),
    stripAux_true_cons, if_neg (by decide), stripAux_true_cons, if_neg (by decide),
    stripAux_true_cons, if_neg (by decide), stripAux_true_cons, if_neg (by decide),
    stripAux_true_cons, if_pos rfl, stripAux_false_cons, if_pos rfl,
    stripAux_true_cons, if_neg (by decide), stripAux_true_cons, if_neg (by decide),
    stripAux_true_cons, if_neg (by decide), stripAux_true_cons, if_neg (by decide),
    stripAux_true_cons, if_pos rfl]

theorem stripAux_renderPs : ∀ {ps : List Piece}, (∀ p ∈ ps, p.wf) →
    ∀ r, stripTagsAux false (renderPs ps ++ r) = keepText ps ++ stripTagsAux false r := by
  intro ps
  induction ps with
  | nil => intro _ r; rfl
  | cons p t ih =>
    intro h r
    have hp := h p (List.mem_cons_self p t)
    have ht := fun q hq => h q (List.mem_cons_of_mem p hq)
    rw [renderPs_cons, List.append_assoc]
    cases p with
    | pch c =>
      show stripTagsAux false (c :: (renderPs t ++ r))
          = c :: (keepText t ++ stripTagsAux false r)
      rw [stripAux_false_cons, if_neg hp.1, ih ht r]
    | pnl =>
      show stripTagsAux false ('\n' :: (renderPs t ++ r))
          = '\n' :: (keepText t ++ stripTagsAux false r)
      rw [stripAux_false_cons, if_neg (by decide), ih ht r]
    | popen cls =>
      show stripTagsAux false (openTagStr cls ++ (renderPs t ++ r))
          = keepText t ++ stripTagsAux false r
      exact (stripAux_openTag hp.2.1 (renderPs t ++ r)).trans (ih ht r)
    | pclose =>
      show stripTagsAux false (closeTagStr ++ (renderPs t ++ r))
          = keepText t ++ stripTagsAux false r
      exact (stripAux_close (renderPs t ++ r)).trans (ih ht r)
    | picon e =>
      show stripTagsAux false (iconStr e ++ (renderPs t ++ r))
          = keepText t ++ stripTagsAux false r
      exact (stripAux_icon hp (renderPs t ++ r)).trans (ih ht r)
    | ppre =>
      show stripTagsAux false ("<pre><code>".data ++ (renderPs t ++ r))
          = keepText t ++ stripTagsAux false r
      exact (stripAux_pre (renderPs t ++ r)).trans (ih ht r)
    | ppost =>
      show stripTagsAux false ("</code></pre>".data ++ (renderPs t ++ r))
          = keepText t ++ stripTagsAux false r
      exact (stripAux_post (renderPs t ++ r)).trans (ih ht r)

theorem stripTags_renderPs {ps : List Piece} (h : ∀ p ∈ ps, p.wf) :
    stripTags (renderPs ps) = keepText ps := by
  have h0 : stripTagsAux false ([] : LC) = [] := rfl
  have hx := stripAux_renderPs h []
  rw [List.append_nil, h0, List.append_nil] at hx
  exact hx

theorem keepText_append : ∀ (a b : List Piece), keepText (a ++ b) = keepText a ++ keepText b
  | [], _ => rfl
  | p :: t, b => by
    cases p <;> simp [keepText, keepText_append t b]

theorem keepText_textPieces : ∀ s : LC, keepText (textPieces s) = s
  | [] => rfl
  | c :: t => by
    rw [textPieces, List.map_cons]
    by_cases hc : c = '\n'
    · rw [if_pos hc, keepText, ← textPieces, keepText_textPieces t, hc]
    · rw [if_neg hc, keepText, ← textPieces, keepText_textPieces t]

theorem keepText_replicate_close (n : Nat) :
    keepText (List.replicate n Piece.pclose) = [] := by
  induction n with
  | zero => rfl
  | succ k ih => rw [List.replicate_succ, keepText, ih]

theorem keepText_map_popen (tags : List LC) :
    keepText (tags.map Piece.popen) = [] := by
  induction tags with
  | nil => rfl
  | cons x t ih => rw [List.map_cons, keepText, ih]

theorem keepText_presplit : ∀ (ps : List Piece) (tags : List LC),
    keepText (presplit tags ps) = keepText ps := by
  intro ps
  induction ps with
  | nil => intro tags; rfl
  | cons p t ih =>
    intro tags
    cases p with
    | popen cls => rw [presplit, keepText, keepText, ih]
    | pclose => rw [presplit, keepText, keepText, ih]
    | pnl =>
      rw [presplit, keepText_append, keepText_append, keepText_replicate_close,
        List.nil_append, keepText, keepText_map_popen, ih]
      rw [keepText]
      rfl
    | pch c => rw [presplit, keepText, keepText, ih]
    | picon e => rw [presplit, keepText, keepText, ih]
    | ppre => rw [presplit, keepText, keepText, ih]
    | ppost => rw [presplit, keepText, keepText, ih]

theorem joinP_segsP : ∀ ps : List Piece, joinP (segsP ps) = ps
  | [] => rfl
  | p :: t => by
    by_cases hnl : p = Piece.pnl
    · rw [segsP, if_pos hnl]
      rcases hsp : segsP t with _ | ⟨l, ls⟩
      · exact absurd hsp (segsP_ne_nil t)
      rw [show joinP ([] :: l :: ls) = [] ++ Piece.pnl :: joinP (l :: ls) from rfl]
      rw [← hsp, joinP_segsP t, hnl]
      rfl
    · rcases hsp : segsP t with _ | ⟨l, ls⟩
      · exact absurd hsp (segsP_ne_nil t)
      rw [segsP, if_neg hnl, hsp]
      have hjt := joinP_segsP t
      rw [hsp] at hjt
      cases ls with
      | nil =>
        rw [show joinP [p :: l] = p :: l from rfl]
        rw [show joinP [l] = l from rfl] at hjt
        rw [hjt]
      | cons l2 ls2 =>
        rw [show joinP ((p :: l) :: l2 :: ls2) = (p :: l) ++ Piece.pnl :: joinP (l2 :: ls2)
          from rfl]
        rw [show joinP (l :: l2 :: ls2) = l ++ Piece.pnl :: joinP (l2 :: ls2) from rfl] at hjt
        rw [List.cons_append, hjt]

theorem keepText_joinP : ∀ ls : List (List Piece),
    keepText (joinP ls) = join1 '\n' (ls.map keepText)
  | [] => rfl
  | [_] => rfl
  | l :: l2 :: ls => by
    rw [show joinP (l :: l2 :: ls) = l ++ Piece.pnl :: joinP (l2 :: ls) from rfl]
    rw [keepText_append,
      show keepText (Piece.pnl :: joinP (l2 :: ls)) = '\n' :: keepText (joinP (l2 :: ls))
        from rfl,
      keepText_joinP (l2 :: ls)]
    rfl

theorem mapIdxFrom_const {α β : Type} (g : α → β) :
    ∀ (i : Nat) (l : List α), mapIdxFrom (fun _ x => g x) i l = l.map g := by
  intro i l
  induction l generalizing i with
  | nil => rfl
  | cons x t ih => rw [mapIdxFrom, ih, List.map_cons]

theorem keepText_eq_render : ∀ {ps : List Piece},
    (∀ p ∈ ps, (∃ c, p = Piece.pch c) ∨ p = Piece.pnl) → keepText ps = renderPs ps := by
  intro ps
  induction ps with
  | nil => intro _; rfl
  | cons p t ih =>
    intro h
    have hp := h p (List.mem_cons_self p t)
    have ht := fun q hq => h q (List.mem_cons_of_mem p hq)
    rcases hp with ⟨c, hc⟩ | hc
    · subst hc
      rw [keepText, renderPs_cons, ih ht]
      rfl
    · subst hc
      rw [keepText, renderPs_cons, ih ht]
      rfl

theorem textPieces_mem {s : LC} :
    ∀ p ∈ textPieces s, (∃ c, p = Piece.pch c) ∨ p = Piece.pnl := by
  intro p hp
  rw [textPieces] at hp
  obtain ⟨c, _, hcp⟩ := List.mem_map.mp hp
  by_cases hnl : c = '\n'
  · right
    rw [← hcp, if_pos hnl]
  · left
    exact ⟨c, by rw [← hcp, if_neg hnl]⟩

/-- If the callout scan records no digit, it removes nothing: the cleaned
text is the source itself. -/
theorem parse_callouts_aux_clean : ∀ (line : Nat) (s : LC),
    (parse_callouts_aux line s).2 = [] → (parse_callouts_aux line s).1 = s := by
  intro line s
  induction line, s using parse_callouts_aux.induct with
  | case1 line => intro _; rfl
  | case2 line rest ih =>
    intro h
    have h2 : (parse_callouts_aux (line + 1) rest).2 = [] := h
    show '\n' :: (parse_callouts_aux (line + 1) rest).1 = '\n' :: rest
    rw [ih h2]
  | case3 line d r hd ih =>
    intro h
    exfalso
    rw [parse_callouts_aux, if_pos hd] at h
    exact absurd (h : (line, d) :: (parse_callouts_aux line r).2 = []) (by simp)
  | case4 line d r hd ih =>
    intro h
    have h2 : (parse_callouts_aux line (d :: '>' :: r)).2 = [] := by
      rw [parse_callouts_aux, if_neg hd] at h
      exact h
    rw [parse_callouts_aux, if_neg hd]
    show '<' :: (parse_callouts_aux line (d :: '>' :: r)).1 = '<' :: (d :: '>' :: r)
    rw [ih h2]
  | case5 line c rest h1 h2 ih =>
    intro h
    rw [parse_callouts_aux] at h
    · rw [parse_callouts_aux]
      · show c :: (parse_callouts_aux line rest).1 = c :: rest
        rw [ih h]
      · exact h1
      · exact h2
    · exact h1
    · exact h2

theorem calloutsAt_nil (idx : Nat) : calloutsAt [] idx = [] := rfl

set_option maxRecDepth 8192 in
unseal resplitStr in
/-- C3 — counterexample: with no language given, the output of `highlight`
after stripping all tags is not the HTML-escaped source. For the source
`a` the stripped output is the template text `"\n    \n      a\n  "`:
the wrapper whitespace, the injected template indentation and the line
structure remain, while `escapeHtml "a" = "a"` (so the double escape of
the plain path does not matter for this source). -/
theorem highlight_nolang_passthrough_counterexample :
    stripTags (highlight "a".data none none none) ≠ escapeHtml "a".data
    ∧ stripTags (highlight "a".data none none none) = "\n    \n      a\n  ".data :=
  ⟨by decide, by decide⟩

/-- C3 — amended: for every source with no callout markers and every
highlight spec and capture set, stripping all tags from
`highlight source none spec captures` yields the wrapper text around the
end-trimmed template-padded twice-escaped source (the local
`escapeHtml(source)` is escaped again by the `html` tagged template):
`"\n    " ++ trimEnd ("\n      " ++ escapeHtml (escapeHtml source)
++ "\n    ") ++ "\n  "`. Content pass-through fails twice over: the
template whitespace and the trailing trim remain (see the counterexample)
and special characters are escaped twice rather than once; callout
markers are additionally removed from the source before escaping. -/
theorem highlight_nolang_passthrough_amended (source : LC)
    (highlight_spec : Option LC) (captures : Option (List Cap))
    (hnm : (parse_callouts source).2 = []) :
    stripTags (highlight source none highlight_spec captures)
      = "\n    ".data
        ++ trimEnd ("\n      ".data ++ escapeHtml (escapeHtml source) ++ "\n    ".data)
        ++ "\n  ".data := by
  have hclean : (parse_callouts source).1 = source := parse_callouts_aux_clean 0 source hnm
  have a1 : add_spans (parse_callouts source).1 none captures
      = renderPs (textPieces ("\n      ".data ++ escapeHtml (escapeHtml source) ++ "\n    ".data)) := by
    rw [renderPs_textPieces]
    show plainWrap (parse_callouts source).1 = _
    rw [plainWrap, hclean]
  have hwf0 : ∀ p ∈ textPieces ("\n      ".data ++ escapeHtml (escapeHtml source) ++ "\n    ".data),
      p.wf := by
    apply textPieces_wf
    intro hmem
    rcases List.mem_append.mp hmem with hmem | hmem
    · rcases List.mem_append.mp hmem with hmem | hmem
      · exact absurd hmem (by decide)
      · exact (escapeHtml_no_specials hmem).1 rfl
    · exact absurd hmem (by decide)
  obtain ⟨ps1, b1, b2, bsub, b3⟩ := trimEnd_renderPs hwf0
  have c1 : resplitStr [] (trimEnd (add_spans (parse_callouts source).1 none captures))
      = renderPs (presplit [] ps1) := by
    rw [a1, b1]
    have := resplitStr_renderPs b2 ([] : List LC)
    simpa using this
  have c2 : ∀ p ∈ presplit [] ps1, p.wf := presplit_wf b2 (by simp)
  have htext1 : ∀ q ∈ ps1, (∃ c, q = Piece.pch c) ∨ q = Piece.pnl := fun q hq =>
    textPieces_mem q (bsub q hq)
  have d1 : highlight_lines source none highlight_spec captures
      = (mapIdxFrom (wrapLineP (parse_highlight_spec highlight_spec)
          (parse_callouts source).2) 0 (segsP (presplit [] ps1))).map renderPs := by
    rw [highlight_lines]
    show mapIdxFrom _ 0 (splitOn1 '\n'
        (resplitStr [] (trimEnd (add_spans (parse_callouts source).1 none captures)))) = _
    rw [c1, splitOn1_renderPs c2, mapIdxFrom_map, map_mapIdxFrom]
    congr 1
    funext j x
    rw [renderPs_wrapLineP]
  have d2 : highlight source none highlight_spec captures
      = renderPs (textPieces "\n    ".data ++ [Piece.ppre]
          ++ joinP (mapIdxFrom (wrapLineP (parse_highlight_spec highlight_spec)
              (parse_callouts source).2) 0 (segsP (presplit [] ps1)))
          ++ [Piece.ppost] ++ textPieces "\n  ".data) := by
    rw [highlight, d1, ← renderPs_joinP]
    rw [renderPs_append, renderPs_append, renderPs_append, renderPs_append,
      renderPs_textPieces, renderPs_textPieces]
    have hpre : ("\n    <pre><code>".data : LC) = "\n    ".data ++ renderPs [Piece.ppre] := by
      decide
    have hpost : ("</code></pre>\n  ".data : LC) = renderPs [Piece.ppost] ++ "\n  ".data := by
      decide
    rw [hpre, hpost]
    simp
  have hwfF : ∀ p ∈ (textPieces "\n    ".data ++ [Piece.ppre]
      ++ joinP (mapIdxFrom (wrapLineP (parse_highlight_spec highlight_spec)
          (parse_callouts source).2) 0 (segsP (presplit [] ps1)))
      ++ [Piece.ppost] ++ textPieces "\n  ".data), p.wf := by
    refine wf_append (wf_append (wf_append (wf_append (textPieces_wf (by decide)) ?_) ?_) ?_)
      (textPieces_wf (by decide))
    · intro p hp
      rw [List.mem_singleton.mp hp]
      trivial
    · apply joinP_wf
      intro l hl
      obtain ⟨j, seg, hseg, hlw⟩ := mem_mapIdxFrom hl
      rw [hlw]
      exact wrapLineP_wf _ (parse_callouts_digits source) j
        (fun p hp => c2 p (mem_segsP hseg p hp))
    · intro p hp
      rw [List.mem_singleton.mp hp]
      trivial
  rw [d2, stripTags_renderPs hwfF]
  rw [keepText_append, keepText_append, keepText_append, keepText_append,
    keepText_textPieces, keepText_textPieces,
    show keepText [Piece.ppre] = [] from rfl, show keepText [Piece.ppost] = [] from rfl,
    List.append_nil, List.append_nil]
  have hkey : keepText (joinP (mapIdxFrom (wrapLineP (parse_highlight_spec highlight_spec)
      (parse_callouts source).2) 0 (segsP (presplit [] ps1))))
      = trimEnd ("\n      ".data ++ escapeHtml (escapeHtml source) ++ "\n    ".data) := by
    rw [keepText_joinP, map_mapIdxFrom]
    have hcong : mapIdxFrom (fun j x => keepText (wrapLineP (parse_highlight_spec highlight_spec)
        (parse_callouts source).2 j x)) 0 (segsP (presplit [] ps1))
        = mapIdxFrom (fun j x => keepText x) 0 (segsP (presplit [] ps1)) := by
      congr 1
      funext j x
      rw [wrapLineP, hnm, calloutsAt_nil,
        show iconPieces [] = [] from rfl, List.append_nil]
      rw [show keepText (Piece.popen ("line".data
            ++ lineCls (parse_highlight_spec highlight_spec) j) :: (x ++ [Piece.pclose]))
          = keepText (x ++ [Piece.pclose]) from rfl]
      rw [keepText_append, show keepText [Piece.pclose] = [] from rfl, List.append_nil]
    rw [hcong, mapIdxFrom_const, ← keepText_joinP, joinP_segsP, keepText_presplit]
    rw [keepText_eq_render htext1, ← b1, renderPs_textPieces]
  rw [hkey]

set_option maxRecDepth 8192 in
unseal resplitStr in
/-- Witness for the amended C3 theorem at source `a\nb` with the
highlight spec `2`: no callout digits are recorded, and the stripped
output is the wrapper around the trimmed, template-padded escaped
source. -/
theorem highlight_nolang_passthrough_amended_witness :
    (parse_callouts "a\nb".data).2 = []
    ∧ stripTags (highlight "a\nb".data none (some "2".data) none)
      = "\n    ".data
        ++ trimEnd ("\n      ".data ++ escapeHtml (escapeHtml "a\nb".data) ++ "\n    ".data)
        ++ "\n  ".data :=
  ⟨by decide, highlight_nolang_passthrough_amended "a\nb".data (some "2".data) none (by decide)⟩

/-! ## The djot AST (for `estimate_reading_time`, `build_table_contents`
and `render`) -/

/-- Attributes of an AST node: an ordered association list (the JS object
`node.attributes`). -/
def Attrs := List (LC × LC)

/-- The djot AST shape used by `templates.tsx`. Nodes carrying `text` hold
it directly; nodes carrying `children` hold the child list; the document
also holds its footnote table (label to `footnote` node). Node kinds not
treated specially anywhere in the code are gathered under `other`. -/
inductive Ast where
  | doc (footnotes : List (LC × Ast)) (children : List Ast)
  | «section» (autoId : Option LC) (attributes : Attrs) (children : List Ast)
  | heading (level : Nat) (attributes : Attrs) (children : List Ast)
  | para (attributes : Attrs) (children : List Ast)
  | block_quote (attributes : Attrs) (children : List Ast)
  | div (attributes : Attrs) (children : List Ast)
  | ordered_list (style : LC) (attributes : Attrs) (children : List Ast)
  | code_block (text : LC) (lang : Option LC) (attributes : Attrs)
  | image (destination : Option LC) (attributes : Attrs) (children : List Ast)
  | link (destination : Option LC) (attributes : Attrs) (children : List Ast)
  | span (attributes : Attrs) (children : List Ast)
  | str (text : LC) (attributes : Attrs)
  | url (text : LC) (attributes : Attrs)
  | footnote_reference (text : LC) (attributes : Attrs)
  | footnote (label : LC) (attributes : Attrs) (children : List Ast)
  | soft_break
  | hard_break
  | thematic_break (attributes : Attrs)
  | other (tag : LC) (attributes : Attrs) (children : List Ast)

mutual
/-- `get_string_content` / `add_string_content`: nodes with a `text` field
contribute it, soft and hard breaks contribute a newline, all other nodes
the concatenation over their children (the document's footnote table is
not part of `children`). -/
def get_string_content : Ast → LC
  | Ast.doc _ cs => gscList cs
  | Ast.«section» _ _ cs => gscList cs
  | Ast.heading _ _ cs => gscList cs
  | Ast.para _ cs => gscList cs
  | Ast.block_quote _ cs => gscList cs
  | Ast.div _ cs => gscList cs
  | Ast.ordered_list _ _ cs => gscList cs
  | Ast.code_block t _ _ => t
  | Ast.image _ _ cs => gscList cs
  | Ast.link _ _ cs => gscList cs
  | Ast.span _ cs => gscList cs
  | Ast.str t _ => t
  | Ast.url t _ => t
  | Ast.footnote_reference t _ => t
  | Ast.footnote _ _ cs => gscList cs
  | Ast.soft_break => ['\n']
  | Ast.hard_break => ['\n']
  | Ast.thematic_break _ => []
  | Ast.other _ _ cs => gscList cs

def gscList : List Ast → LC
  | [] => []
  | a :: t => get_string_content a ++ gscList t
end

/-! ## C4: the reading-time estimate -/

/-- JavaScript `String.prototype.trim`. -/
def jsTrim (s : LC) : LC :=
  trimEnd (s.dropWhile wsChar)

theorem dropWhile_length_le (p : Char → Bool) (l : LC) :
    (l.dropWhile p).length ≤ l.length :=
  (List.dropWhile_suffix p).length_le

/-- JavaScript `s.split(/\s+/)`: each maximal whitespace run separates
two fields, so a leading or trailing run produces an empty field. -/
def jsSplitWs : LC → List LC
  | [] => [[]]
  | c :: r =>
    if wsChar c then [] :: jsSplitWs (r.dropWhile wsChar)
    else
      match jsSplitWs r with
      | [] => [[c]]
      | h :: t => (c :: h) :: t
termination_by s => s.length
decreasing_by
  · simp only [List.length_cons]
    exact Nat.lt_succ_of_le (dropWhile_length_le _ _)
  · simp only [List.length_cons]
    omega

/-- The number of whitespace-delimited words of a string: its maximal
non-whitespace runs. -/
def wordCount : LC → Nat
  | [] => 0
  | c :: r =>
    if wsChar c then wordCount r
    else 1 + wordCount (r.dropWhile (fun x => !wsChar x))
termination_by s => s.length
decreasing_by
  · simp only [List.length_cons]
    omega
  · simp only [List.length_cons]
    exact Nat.lt_succ_of_le (dropWhile_length_le _ _)

/-- The `words` contribution of one `str` node:
`const t = node.text.trim(); if (t) words += t.split(/\s+/).length`. -/
def jsWords (text : LC) : Nat :=
  if jsTrim text = [] then 0 else (jsSplitWs (jsTrim text)).length

mutual
/-- The `visit` of `estimate_reading_time` as the counter triple
`(words, images, code_blocks)`: `str` counts its trimmed split length,
`image` counts one and descends, `code_block` counts one and returns
without descending, every other node just descends into its children. -/
def ertVisit : Ast → Nat × Nat × Nat
  | Ast.doc _ cs => ertList cs
  | Ast.«section» _ _ cs => ertList cs
  | Ast.heading _ _ cs => ertList cs
  | Ast.para _ cs => ertList cs
  | Ast.block_quote _ cs => ertList cs
  | Ast.div _ cs => ertList cs
  | Ast.ordered_list _ _ cs => ertList cs
  | Ast.code_block _ _ _ => (0, 0, 1)
  | Ast.image _ _ cs =>
    ((ertList cs).1, (ertList cs).2.1 + 1, (ertList cs).2.2)
  | Ast.link _ _ cs => ertList cs
  | Ast.span _ cs => ertList cs
  | Ast.str t _ => (jsWords t, 0, 0)
  | Ast.url _ _ => (0, 0, 0)
  | Ast.footnote_reference _ _ => (0, 0, 0)
  | Ast.footnote _ _ cs => ertList cs
  | Ast.soft_break => (0, 0, 0)
  | Ast.hard_break => (0, 0, 0)
  | Ast.thematic_break _ => (0, 0, 0)
  | Ast.other _ _ cs => ertList cs

def ertList : List Ast → Nat × Nat × Nat
  | [] => (0, 0, 0)
  | a :: t =>
    ((ertVisit a).1 + (ertList t).1, (ertVisit a).2.1 + (ertList t).2.1,
      (ertVisit a).2.2 + (ertList t).2.2)
end

/-! JS numbers are IEEE-754 binary64. Nonnegative doubles are modelled as
unnormalized mantissa-times-power-of-two pairs `(m, e)` standing for
`m * 2 ^ e`, with every arithmetic operation correctly rounded to a 53-bit
significand, round to nearest, ties to even — exactly binary64 on the
magnitudes this formula can produce (overflow and subnormal thresholds
are out of reach). The visitor's counters are kept as exact naturals:
counter increments are exact in binary64 for any machine-representable
document (a JS string/array length is below `2 ^ 32`, far below the
`2 ^ 53` exactness bound). -/

/-- Double `n` until `n / d` reaches `2 ^ 52`, tracking the binary
exponent; the fuel is an upper bound on the doublings needed. -/
def scaleUp : Nat → Nat → Nat → Int → Nat × Int
  | 0, n, _, e => (n, e)
  | fuel + 1, n, d, e =>
    if n < d * 2 ^ 52 then scaleUp fuel (2 * n) d (e - 1) else (n, e)

/-- Double `d` until `n / d` drops below `2 ^ 53`, tracking the binary
exponent. -/
def scaleDown : Nat → Nat → Nat → Int → Nat × Int
  | 0, _, d, e => (d, e)
  | fuel + 1, n, d, e =>
    if d * 2 ^ 53 ≤ n then scaleDown fuel n (2 * d) (e + 1) else (d, e)

/-- Round the scaled quotient `m0 + r / d` (with `2 ^ 52 ≤ m0 < 2 ^ 53`)
to the nearest integer mantissa, ties to even. -/
def roundMant (m0 r d : Nat) (e : Int) : Nat × Int :=
  if d < 2 * r then (m0 + 1, e)
  else if 2 * r < d then (m0, e)
  else if m0 % 2 = 0 then (m0, e) else (m0 + 1, e)

/-- The nonnegative rational `n / d` rounded to the nearest binary64:
scale the quotient into `[2 ^ 52, 2 ^ 53)` (at most `52 + bits` doublings
either way, so the fuel `64 + n + d` is always enough), then round the
53-bit mantissa. -/
def roundQ (n d : Nat) : Nat × Int :=
  if n = 0 then (0, 0)
  else
    match scaleUp (64 + n + d) n d 0 with
    | (n1, e1) =>
      match scaleDown (64 + n + d) n1 d e1 with
      | (d2, e2) => roundMant (n1 / d2) (n1 % d2) d2 e2

/-- A natural number as a double (exact below `2 ^ 53`). -/
def ofNatD (k : Nat) : Nat × Int := roundQ k 1

/-- Exact scaling by a power of two (doubles have unbounded exponent at
these magnitudes). -/
def shiftD : Nat × Int → Int → Nat × Int
  | (m, e), k => (m, e + k)

/-- Correctly rounded binary64 division: round the mantissa ratio, then
shift by the exponent difference (exact). -/
def divD : Nat × Int → Nat × Int → Nat × Int
  | (m1, e1), (m2, e2) => shiftD (roundQ m1 m2) (e1 - e2)

/-- Correctly rounded binary64 multiplication: round the exact mantissa
product. -/
def mulD : Nat × Int → Nat × Int → Nat × Int
  | (m1, e1), (m2, e2) => shiftD (roundQ (m1 * m2) 1) (e1 + e2)

/-- Correctly rounded binary64 addition: align the mantissas to the
smaller exponent (exact), round the exact sum. -/
def addD : Nat × Int → Nat × Int → Nat × Int
  | (m1, e1), (m2, e2) =>
    if e1 ≤ e2 then shiftD (roundQ (m1 + m2 * 2 ^ (e2 - e1).toNat) 1) e1
    else shiftD (roundQ (m1 * 2 ^ (e1 - e2).toNat + m2) 1) e2

/-- `Math.ceil` of a nonnegative double, as an exact integer (every
double at or above `2 ^ 52` is already integral, so the result is always
exactly representable and the model loses nothing). -/
def ceilD : Nat × Int → Int
  | (m, e) =>
    if 0 ≤ e then (m : Int) * 2 ^ e.toNat
    else ((m + 2 ^ (-e).toNat - 1) / 2 ^ (-e).toNat : Nat)

/-- `estimate_reading_time` from `templates.tsx`:
`Math.ceil(words / 225 + images * 0.17 + code_blocks * 0.5)` evaluated in
binary64 left to right — the literal `0.17` is the double nearest to
`17 / 100` (`roundQ 17 100`), `0.5` is exact, and each division,
multiplication and addition rounds. -/
def estimate_reading_time (doc : Ast) : Int :=
  ceilD (addD (addD (divD (ofNatD (ertVisit doc).1) (ofNatD 225))
      (mulD (ofNatD (ertVisit doc).2.1) (roundQ 17 100)))
    (mulD (ofNatD (ertVisit doc).2.2) (roundQ 1 2)))

theorem wordCount_dropWhile_ws : ∀ s : LC, wordCount (s.dropWhile wsChar) = wordCount s := by
  intro s
  induction s with
  | nil => rfl
  | cons c r ih =>
    by_cases hc : wsChar c
    · rw [List.dropWhile_cons_of_pos hc, ih, wordCount, if_pos hc]
    · rw [List.dropWhile_cons_of_neg hc]

theorem wordCount_all_ws : ∀ {s : LC}, (∀ c ∈ s, wsChar c) → wordCount s = 0 := by
  intro s
  induction s with
  | nil => intro _; rw [wordCount]
  | cons c r ih =>
    intro h
    rw [wordCount, if_pos (h c (List.mem_cons_self c r))]
    exact ih (fun x hx => h x (List.mem_cons_of_mem c hx))

theorem wordCount_append_ws {w : LC} (hw : ∀ c ∈ w, wsChar c) :
    ∀ s : LC, wordCount (s ++ w) = wordCount s := by
  intro s
  induction s using wordCount.induct with
  | case1 =>
    rw [List.nil_append, wordCount_all_ws hw, wordCount]
  | case2 c r hc ih =>
    rw [List.cons_append, wordCount, if_pos hc, ih, wordCount, if_pos hc]
  | case3 c r hc ih =>
    rw [List.cons_append, wordCount, if_neg hc]
    rw [wordCount, if_neg hc]
    rw [List.dropWhile_append]
    by_cases he : r.dropWhile (fun x => !wsChar x) = []
    · rw [if_pos (by rw [he]; rfl)]
      have hwdrop : w.dropWhile (fun x => !wsChar x) = w := by
        cases w with
        | nil => rfl
        | cons x t =>
          exact List.dropWhile_cons_of_neg (by simp [hw x (List.mem_cons_self x t)])
      rw [hwdrop, wordCount_all_ws hw, he, wordCount]
    · rw [if_neg (by simp [he])]
      rw [ih]

theorem trimEnd_decomp (y : LC) :
    trimEnd y ++ (y.reverse.takeWhile wsChar).reverse = y := by
  rw [trimEnd, ← List.reverse_append, List.takeWhile_append_dropWhile, List.reverse_reverse]

theorem wordCount_trimEnd (y : LC) : wordCount (trimEnd y) = wordCount y := by
  have hws : ∀ c ∈ (y.reverse.takeWhile wsChar).reverse, wsChar c := by
    intro c hc
    rw [List.mem_reverse] at hc
    exact List.mem_takeWhile_imp hc
  rw [← wordCount_append_ws hws (trimEnd y), trimEnd_decomp]

theorem wordCount_jsTrim (t : LC) : wordCount (jsTrim t) = wordCount t := by
  rw [jsTrim, wordCount_trimEnd, wordCount_dropWhile_ws]

/-- The first character of a string, if whitespace. -/
def headWs : LC → Bool
  | [] => false
  | c :: _ => wsChar c

/-- The last character of a string is whitespace, or the string is
empty. -/
def tailWsE (s : LC) : Bool :=
  match s.getLast? with
  | none => true
  | some c => wsChar c

theorem headWs_dropWhile (r : LC) : headWs (r.dropWhile wsChar) = false := by
  induction r with
  | nil => rfl
  | cons c t ih =>
    by_cases hc : wsChar c
    · rw [List.dropWhile_cons_of_pos hc]
      exact ih
    · rw [List.dropWhile_cons_of_neg hc]
      simpa [headWs] using hc

theorem headWs_trimEnd {y : LC} (h : headWs y = false) : headWs (trimEnd y) = false := by
  cases hq : trimEnd y with
  | nil => rfl
  | cons c u =>
    have hdec := trimEnd_decomp y
    rw [hq, List.cons_append] at hdec
    rw [← hdec] at h
    rw [headWs]
    rw [headWs] at h
    exact h

theorem tailWsE_trimEnd {y : LC} (h : trimEnd y ≠ []) : tailWsE (trimEnd y) = false := by
  rw [trimEnd] at h ⊢
  rcases hq : y.reverse.dropWhile wsChar with _ | ⟨c, u⟩
  · rw [hq] at h
    simp at h
  · have hc := dropWhile_ne_head y.reverse hq
    rw [tailWsE, List.getLast?_reverse]
    exact hc

theorem tailWsE_all_ws {s : LC} (h : ∀ c ∈ s, wsChar c) : tailWsE s = true := by
  cases hq : s.getLast? with
  | none => simp [tailWsE, hq]
  | some c =>
    have hmem : c ∈ s := by
      cases s with
      | nil => simp at hq
      | cons x t =>
        have := List.getLast?_eq_getLast (x :: t) (by simp)
        rw [this] at hq
        rw [Option.some.injEq] at hq
        rw [← hq]
        exact List.getLast_mem (by simp)
    simp [tailWsE, hq, h c hmem]

theorem tailWsE_cons_of_ne {c : Char} {r : LC} (h : r ≠ []) :
    tailWsE (c :: r) = tailWsE r := by
  cases r with
  | nil => exact absurd rfl h
  | cons x t => rw [tailWsE, tailWsE, List.getLast?_cons_cons]

theorem tailWsE_dropWhile_ws {r : LC} (h : r.dropWhile wsChar ≠ []) :
    tailWsE (r.dropWhile wsChar) = tailWsE r := by
  obtain ⟨pre, hpre⟩ := (List.dropWhile_suffix wsChar : r.dropWhile wsChar <:+ r)
  cases hd : (r.dropWhile wsChar).getLast? with
  | none => exact absurd (List.getLast?_eq_none_iff.mp hd) h
  | some x =>
    have hr : r.getLast? = some x := by
      rw [← hpre, List.getLast?_append, hd]
      rfl
    rw [tailWsE, tailWsE, hd, hr]

theorem ite_true_one : (if true = true then 1 else 0) = 1 := rfl

theorem ite_false_zero : (if false = true then 1 else 0) = 0 := rfl

theorem jsSplitWs_ne_nil : ∀ s : LC, jsSplitWs s ≠ [] := by
  intro s
  induction s using jsSplitWs.induct with
  | case1 =>
    rw [jsSplitWs]
    simp
  | case2 c r hc ih =>
    rw [jsSplitWs, if_pos hc]
    simp
  | case3 c t hc hsp ih => exact absurd hsp ih
  | case4 c t hc l ls hsp ih =>
    rw [jsSplitWs, if_neg hc, hsp]
    simp

theorem jsSplitWs_length : ∀ s : LC,
    (jsSplitWs s).length
      = wordCount s + (if headWs s then 1 else 0) + (if tailWsE s then 1 else 0) := by
  intro s
  induction s using jsSplitWs.induct with
  | case1 =>
    rw [jsSplitWs, wordCount]
    rfl
  | case2 c r hc ih =>
    rw [jsSplitWs, if_pos hc, List.length_cons, ih, wordCount_dropWhile_ws,
      headWs_dropWhile, wordCount, if_pos hc]
    have hhead : headWs (c :: r) = true := by rw [headWs]; exact hc
    by_cases he : r.dropWhile wsChar = []
    · have hall : ∀ x ∈ r, wsChar x := List.dropWhile_eq_nil_iff.mp he
      have h1 : tailWsE (r.dropWhile wsChar) = true := by rw [he]; rfl
      have h2 : tailWsE (c :: r) = true := by
        apply tailWsE_all_ws
        intro x hx
        rcases List.mem_cons.mp hx with hx | hx
        · rw [hx]; exact hc
        · exact hall x hx
      rw [h1, h2, hhead, ite_true_one, ite_false_zero]
    · have h1 : tailWsE (r.dropWhile wsChar) = tailWsE r := tailWsE_dropWhile_ws he
      have hr : r ≠ [] := by
        intro hre
        rw [hre] at he
        exact he rfl
      have h2 : tailWsE (c :: r) = tailWsE r := tailWsE_cons_of_ne hr
      rw [h1, h2, hhead, ite_true_one, ite_false_zero]
      omega
  | case3 c t hc hsp ih => exact absurd hsp (jsSplitWs_ne_nil t)
  | case4 c t hc l ls hsp ih =>
    have hlen : (jsSplitWs (c :: t)).length = (jsSplitWs t).length := by
      rw [jsSplitWs, if_neg hc, hsp]
      simp
    rw [hlen, ih]
    have hhead : headWs (c :: t) = false := by
      rw [headWs]
      simpa using hc
    rw [hhead]
    cases t with
    | nil =>
      have hw1 : wordCount [c] = 1 := by
        rw [wordCount, if_neg hc, List.dropWhile_nil, wordCount]
      rw [hw1, wordCount]
      simp [headWs, tailWsE, hc]
    | cons d r2 =>
      by_cases hd : wsChar d
      · have hwc : wordCount (c :: d :: r2) = 1 + wordCount (d :: r2) := by
          rw [wordCount, if_neg hc, List.dropWhile_cons_of_neg (by simp [hd])]
        have hh : headWs (d :: r2) = true := by rw [headWs]; exact hd
        have ht : tailWsE (c :: d :: r2) = tailWsE (d :: r2) :=
          tailWsE_cons_of_ne (by simp)
        rw [hwc, hh, ht, ite_true_one, ite_false_zero]
        omega
      · have hwc : wordCount (c :: d :: r2) = wordCount (d :: r2) := by
          rw [wordCount, if_neg hc, List.dropWhile_cons_of_pos (by simp [hd]),
            wordCount, if_neg hd]
        have hh : headWs (d :: r2) = false := by
          rw [headWs]
          simpa using hd
        have ht : tailWsE (c :: d :: r2) = tailWsE (d :: r2) :=
          tailWsE_cons_of_ne (by simp)
        rw [hwc, hh, ht, ite_false_zero]

/-- The `str`-node word contribution of the code (trim, then split on
whitespace runs if non-empty) is the number of whitespace-delimited
words. -/
theorem jsWords_eq_wordCount (t : LC) : jsWords t = wordCount t := by
  rw [jsWords]
  by_cases hz : jsTrim t = []
  · rw [if_pos hz]
    have hh := wordCount_jsTrim t
    rw [hz, wordCount] at hh
    exact hh
  · rw [if_neg hz, jsSplitWs_length]
    have hhead : headWs (jsTrim t) = false :=
      headWs_trimEnd (headWs_dropWhile t)
    have htail : tailWsE (jsTrim t) = false := tailWsE_trimEnd hz
    rw [hhead, htail, wordCount_jsTrim]
    simp

mutual
/-- Claim-side word count: the whitespace-delimited words of every
text-run (`str`) node of the tree; a code block holds its content as
`text`, not as a `str` child, so it contributes nothing. -/
def specWords : Ast → Nat
  | Ast.doc _ cs => specWordsL cs
  | Ast.«section» _ _ cs => specWordsL cs
  | Ast.heading _ _ cs => specWordsL cs
  | Ast.para _ cs => specWordsL cs
  | Ast.block_quote _ cs => specWordsL cs
  | Ast.div _ cs => specWordsL cs
  | Ast.ordered_list _ _ cs => specWordsL cs
  | Ast.code_block _ _ _ => 0
  | Ast.image _ _ cs => specWordsL cs
  | Ast.link _ _ cs => specWordsL cs
  | Ast.span _ cs => specWordsL cs
  | Ast.str t _ => wordCount t
  | Ast.url _ _ => 0
  | Ast.footnote_reference _ _ => 0
  | Ast.footnote _ _ cs => specWordsL cs
  | Ast.soft_break => 0
  | Ast.hard_break => 0
  | Ast.thematic_break _ => 0
  | Ast.other _ _ cs => specWordsL cs

def specWordsL : List Ast → Nat
  | [] => 0
  | a :: t => specWords a + specWordsL t
end

mutual
/-- Claim-side image count: the number of image nodes of the tree. -/
def specImages : Ast → Nat
  | Ast.doc _ cs => specImagesL cs
  | Ast.«section» _ _ cs => specImagesL cs
  | Ast.heading _ _ cs => specImagesL cs
  | Ast.para _ cs => specImagesL cs
  | Ast.block_quote _ cs => specImagesL cs
  | Ast.div _ cs => specImagesL cs
  | Ast.ordered_list _ _ cs => specImagesL cs
  | Ast.code_block _ _ _ => 0
  | Ast.image _ _ cs => specImagesL cs + 1
  | Ast.link _ _ cs => specImagesL cs
  | Ast.span _ cs => specImagesL cs
  | Ast.str _ _ => 0
  | Ast.url _ _ => 0
  | Ast.footnote_reference _ _ => 0
  | Ast.footnote _ _ cs => specImagesL cs
  | Ast.soft_break => 0
  | Ast.hard_break => 0
  | Ast.thematic_break _ => 0
  | Ast.other _ _ cs => specImagesL cs

def specImagesL : List Ast → Nat
  | [] => 0
  | a :: t => specImages a + specImagesL t
end

mutual
/-- Claim-side code-block count: the number of code-block nodes of the
tree. -/
def specCode : Ast → Nat
  | Ast.doc _ cs => specCodeL cs
  | Ast.«section» _ _ cs => specCodeL cs
  | Ast.heading _ _ cs => specCodeL cs
  | Ast.para _ cs => specCodeL cs
  | Ast.block_quote _ cs => specCodeL cs
  | Ast.div _ cs => specCodeL cs
  | Ast.ordered_list _ _ cs => specCodeL cs
  | Ast.code_block _ _ _ => 1
  | Ast.image _ _ cs => specCodeL cs
  | Ast.link _ _ cs => specCodeL cs
  | Ast.span _ cs => specCodeL cs
  | Ast.str _ _ => 0
  | Ast.url _ _ => 0
  | Ast.footnote_reference _ _ => 0
  | Ast.footnote _ _ cs => specCodeL cs
  | Ast.soft_break => 0
  | Ast.hard_break => 0
  | Ast.thematic_break _ => 0
  | Ast.other _ _ cs => specCodeL cs

def specCodeL : List Ast → Nat
  | [] => 0
  | a :: t => specCode a + specCodeL t
end

mutual
theorem ertVisit_eq : ∀ a : Ast, ertVisit a = (specWords a, specImages a, specCode a)
  | Ast.doc fs cs => by
    rw [ertVisit, specWords, specImages, specCode, ertList_eq cs]
  | Ast.«section» i at_ cs => by
    rw [ertVisit, specWords, specImages, specCode, ertList_eq cs]
  | Ast.heading l at_ cs => by
    rw [ertVisit, specWords, specImages, specCode, ertList_eq cs]
  | Ast.para at_ cs => by
    rw [ertVisit, specWords, specImages, specCode, ertList_eq cs]
  | Ast.block_quote at_ cs => by
    rw [ertVisit, specWords, specImages, specCode, ertList_eq cs]
  | Ast.div at_ cs => by
    rw [ertVisit, specWords, specImages, specCode, ertList_eq cs]
  | Ast.ordered_list st at_ cs => by
    rw [ertVisit, specWords, specImages, specCode, ertList_eq cs]
  | Ast.code_block t l at_ => by
    rw [ertVisit, specWords, specImages, specCode]
  | Ast.image d at_ cs => by
    rw [ertVisit, specWords, specImages, specCode, ertList_eq cs]
  | Ast.link d at_ cs => by
    rw [ertVisit, specWords, specImages, specCode, ertList_eq cs]
  | Ast.span at_ cs => by
    rw [ertVisit, specWords, specImages, specCode, ertList_eq cs]
  | Ast.str t at_ => by
    rw [ertVisit, specWords, specImages, specCode, jsWords_eq_wordCount]
  | Ast.url t at_ => by
    rw [ertVisit, specWords, specImages, specCode]
  | Ast.footnote_reference t at_ => by
    rw [ertVisit, specWords, specImages, specCode]
  | Ast.footnote l at_ cs => by
    rw [ertVisit, specWords, specImages, specCode, ertList_eq cs]
  | Ast.soft_break => by
    rw [ertVisit, specWords, specImages, specCode]
  | Ast.hard_break => by
    rw [ertVisit, specWords, specImages, specCode]
  | Ast.thematic_break at_ => by
    rw [ertVisit, specWords, specImages, specCode]
  | Ast.other tg at_ cs => by
    rw [ertVisit, specWords, specImages, specCode, ertList_eq cs]

theorem ertList_eq : ∀ l : List Ast, ertList l = (specWordsL l, specImagesL l, specCodeL l)
  | [] => by rw [ertList, specWordsL, specImagesL, specCodeL]
  | a :: t => by
    rw [ertList, specWordsL, specImagesL, specCodeL, ertVisit_eq a, ertList_eq t]
end

set_option maxRecDepth 8192 in
/-- C4 — counterexample: the program computes the formula in binary64, not
in exact arithmetic, and the two disagree. The double nearest `0.17` is
`6124895493223875 * 2 ^ (-55)`, slightly above `17 / 100`, so for a
document of 300 images the program evaluates
`300 * 0.17 = 51.000000000000007` and `Math.ceil` returns 52, while the
claim's exact formula gives `ceil(51) = 51`. -/
theorem estimate_reading_time_formula_counterexample :
    estimate_reading_time (Ast.doc [] (List.replicate 300 (Ast.image none [] []))) = 52
    ∧ Int.ceil
        ((specWords (Ast.doc [] (List.replicate 300 (Ast.image none [] []))) : ℚ) / 225
          + (specImages (Ast.doc [] (List.replicate 300 (Ast.image none [] []))) : ℚ)
              * (17 / 100)
          + (specCode (Ast.doc [] (List.replicate 300 (Ast.image none [] []))) : ℚ)
              * (1 / 2)) = 51 := by
  constructor
  · decide
  · have hw : specWords (Ast.doc [] (List.replicate 300 (Ast.image none [] []))) = 0 := by
      decide
    have hi : specImages (Ast.doc [] (List.replicate 300 (Ast.image none [] []))) = 300 := by
      decide
    have hc : specCode (Ast.doc [] (List.replicate 300 (Ast.image none [] []))) = 0 := by
      decide
    rw [hw, hi, hc]
    rw [show (((0 : Nat) : ℚ) / 225 + ((300 : Nat) : ℚ) * (17 / 100)
        + ((0 : Nat) : ℚ) * (1 / 2)) = ((51 : ℤ) : ℚ) by norm_num]
    exact Int.ceil_intCast 51

/-- C4 — amended: for every document, `estimate_reading_time` returns
`Math.ceil(words / 225 + images * 0.17 + code_blocks * 0.5)` evaluated in
IEEE-754 binary64 (each constant and operation correctly rounded, left to
right), where `words` sums the whitespace-delimited word counts of all
text-run nodes, `images` counts the image nodes, and `code_blocks` counts
the code-block nodes, whose contents (held as their `text`, never
descended into) contribute nothing to the word count. The claim's exact
reading of the formula is off by one at boundary inputs (see the
counterexample). -/
theorem estimate_reading_time_formula_amended (doc : Ast) :
    estimate_reading_time doc
      = ceilD (addD (addD (divD (ofNatD (specWords doc)) (ofNatD 225))
            (mulD (ofNatD (specImages doc)) (roundQ 17 100)))
          (mulD (ofNatD (specCode doc)) (roundQ 1 2))) := by
  rw [estimate_reading_time, ertVisit_eq doc]

/-! ## C5: the table of contents -/

/-- `\w` of JavaScript regexes: ASCII letters, digits and underscore. -/
def wordChar (c : Char) : Bool :=
  c.isAlpha || c.isDigit || c = '_'

/-- `.replace(/\s+/g, "-")`: each maximal whitespace run becomes one
hyphen. -/
def replaceWsRuns : LC → LC
  | [] => []
  | c :: r =>
    if wsChar c then '-' :: replaceWsRuns (r.dropWhile wsChar)
    else c :: replaceWsRuns r
termination_by s => s.length
decreasing_by
  · simp only [List.length_cons]
    exact Nat.lt_succ_of_le (dropWhile_length_le _ _)
  · simp only [List.length_cons]
    omega

/-- `.replace(/[^\w\-]+/g, "")`: remove every character that is neither a
word character nor a hyphen. -/
def stripNonWord (s : LC) : LC :=
  s.filter (fun c => wordChar c || c = '-')

/-- `.replace(/\-\-+/g, "-")`: each maximal hyphen run becomes one hyphen
(a run of length one is already one hyphen). -/
def collapseHyphens : LC → LC
  | [] => []
  | c :: r =>
    if c = '-' then '-' :: collapseHyphens (r.dropWhile (fun x => x = '-'))
    else c :: collapseHyphens r
termination_by s => s.length
decreasing_by
  · simp only [List.length_cons]
    exact Nat.lt_succ_of_le (dropWhile_length_le _ _)
  · simp only [List.length_cons]
    omega

/-- `.replace(/^-+/, "")`. -/
def stripLeadHyphens (s : LC) : LC :=
  s.dropWhile (fun x => x = '-')

/-- `.replace(/\-+$/, "")` (hyphen escaped here to keep the comment
well formed). -/
def stripTrailHyphens (s : LC) : LC :=
  (s.reverse.dropWhile (fun x => x = '-')).reverse

/-- The slug pipeline of `build_table_contents`, in the code's order. -/
def slug (title : LC) : LC :=
  stripTrailHyphens (stripLeadHyphens (collapseHyphens (stripNonWord (replaceWsRuns title))))

mutual
/-- The `visit` of `build_table_contents`: the `(id, title, level)`
entries pushed by this subtree, in push order (the node's own entry, when
its level exceeds one and its flattened text is non-empty, then its
children's). The `counter` local of the code is never read and is not
modelled. -/
def btcVisit : Ast → List (LC × LC × Nat)
  | Ast.doc _ cs => btcList cs
  | Ast.«section» _ _ cs => btcList cs
  | Ast.heading level at_ cs =>
    (if (if 1 < level then get_string_content (Ast.heading level at_ cs) else []) = []
      then []
      else [(slug (if 1 < level then get_string_content (Ast.heading level at_ cs) else []),
        (if 1 < level then get_string_content (Ast.heading level at_ cs) else []), level)])
      ++ btcList cs
  | Ast.para _ cs => btcList cs
  | Ast.block_quote _ cs => btcList cs
  | Ast.div _ cs => btcList cs
  | Ast.ordered_list _ _ cs => btcList cs
  | Ast.code_block _ _ _ => []
  | Ast.image _ _ cs => btcList cs
  | Ast.link _ _ cs => btcList cs
  | Ast.span _ cs => btcList cs
  | Ast.str _ _ => []
  | Ast.url _ _ => []
  | Ast.footnote_reference _ _ => []
  | Ast.footnote _ _ cs => btcList cs
  | Ast.soft_break => []
  | Ast.hard_break => []
  | Ast.thematic_break _ => []
  | Ast.other _ _ cs => btcList cs

def btcList : List Ast → List (LC × LC × Nat)
  | [] => []
  | a :: t => btcVisit a ++ btcList t
end

/-- `build_table_contents` of `templates.tsx`: the collected headings. -/
def build_table_contents (doc : Ast) : List (LC × LC × Nat) :=
  btcVisit doc

mutual
/-- The preorder node list of a tree (each node before its children; the
document footnote table is not part of the tree). -/
def preorder : Ast → List Ast
  | Ast.doc fs cs => Ast.doc fs cs :: preorderL cs
  | Ast.«section» i at_ cs => Ast.«section» i at_ cs :: preorderL cs
  | Ast.heading l at_ cs => Ast.heading l at_ cs :: preorderL cs
  | Ast.para at_ cs => Ast.para at_ cs :: preorderL cs
  | Ast.block_quote at_ cs => Ast.block_quote at_ cs :: preorderL cs
  | Ast.div at_ cs => Ast.div at_ cs :: preorderL cs
  | Ast.ordered_list st at_ cs => Ast.ordered_list st at_ cs :: preorderL cs
  | Ast.code_block t l at_ => [Ast.code_block t l at_]
  | Ast.image d at_ cs => Ast.image d at_ cs :: preorderL cs
  | Ast.link d at_ cs => Ast.link d at_ cs :: preorderL cs
  | Ast.span at_ cs => Ast.span at_ cs :: preorderL cs
  | Ast.str t at_ => [Ast.str t at_]
  | Ast.url t at_ => [Ast.url t at_]
  | Ast.footnote_reference t at_ => [Ast.footnote_reference t at_]
  | Ast.footnote l at_ cs => Ast.footnote l at_ cs :: preorderL cs
  | Ast.soft_break => [Ast.soft_break]
  | Ast.hard_break => [Ast.hard_break]
  | Ast.thematic_break at_ => [Ast.thematic_break at_]
  | Ast.other tg at_ cs => Ast.other tg at_ cs :: preorderL cs

def preorderL : List Ast → List Ast
  | [] => []
  | a :: t => preorder a ++ preorderL t
end

/-- The claim's per-node table-of-contents entry: a heading of level
greater than one with non-empty flattened text yields its slug, title and
level; every other node yields nothing. -/
def headingEntry : Ast → Option (LC × LC × Nat)
  | Ast.heading level at_ cs =>
    if 1 < level ∧ get_string_content (Ast.heading level at_ cs) ≠ [] then
      some (slug (get_string_content (Ast.heading level at_ cs)),
        get_string_content (Ast.heading level at_ cs), level)
    else none
  | _ => none

mutual
theorem btcVisit_eq : ∀ a : Ast, btcVisit a = (preorder a).filterMap headingEntry
  | Ast.doc fs cs => by
    rw [btcVisit, preorder,
      List.filterMap_cons_none (show headingEntry (Ast.doc fs cs) = none from rfl),
      btcList_eq cs]
  | Ast.«section» i at_ cs => by
    rw [btcVisit, preorder,
      List.filterMap_cons_none (show headingEntry (Ast.«section» i at_ cs) = none from rfl),
      btcList_eq cs]
  | Ast.heading level at_ cs => by
    rw [btcVisit, preorder, btcList_eq cs]
    by_cases hl : 1 < level
    · rw [if_pos hl]
      by_cases hg : get_string_content (Ast.heading level at_ cs) = []
      · have hE : headingEntry (Ast.heading level at_ cs) = none := by
          rw [headingEntry, if_neg (fun hcon => hcon.2 hg)]
        rw [if_pos hg, List.filterMap_cons_none hE, List.nil_append]
      · have hE : headingEntry (Ast.heading level at_ cs)
            = some (slug (get_string_content (Ast.heading level at_ cs)),
              get_string_content (Ast.heading level at_ cs), level) := by
          rw [headingEntry, if_pos ⟨hl, hg⟩]
        rw [if_neg hg, List.filterMap_cons_some hE, List.singleton_append]
    · rw [if_neg hl]
      have hE : headingEntry (Ast.heading level at_ cs) = none := by
        rw [headingEntry, if_neg (fun hcon => hl hcon.1)]
      rw [if_pos rfl, List.filterMap_cons_none hE, List.nil_append]
  | Ast.para at_ cs => by
    rw [btcVisit, preorder,
      List.filterMap_cons_none (show headingEntry (Ast.para at_ cs) = none from rfl),
      btcList_eq cs]
  | Ast.block_quote at_ cs => by
    rw [btcVisit, preorder,
      List.filterMap_cons_none (show headingEntry (Ast.block_quote at_ cs) = none from rfl),
      btcList_eq cs]
  | Ast.div at_ cs => by
    rw [btcVisit, preorder,
      List.filterMap_cons_none (show headingEntry (Ast.div at_ cs) = none from rfl),
      btcList_eq cs]
  | Ast.ordered_list st at_ cs => by
    rw [btcVisit, preorder,
      List.filterMap_cons_none
        (show headingEntry (Ast.ordered_list st at_ cs) = none from rfl),
      btcList_eq cs]
  | Ast.code_block t l at_ => by
    rw [btcVisit, preorder,
      List.filterMap_cons_none (show headingEntry (Ast.code_block t l at_) = none from rfl),
      List.filterMap_nil]
  | Ast.image d at_ cs => by
    rw [btcVisit, preorder,
      List.filterMap_cons_none (show headingEntry (Ast.image d at_ cs) = none from rfl),
      btcList_eq cs]
  | Ast.link d at_ cs => by
    rw [btcVisit, preorder,
      List.filterMap_cons_none (show headingEntry (Ast.link d at_ cs) = none from rfl),
      btcList_eq cs]
  | Ast.span at_ cs => by
    rw [btcVisit, preorder,
      List.filterMap_cons_none (show headingEntry (Ast.span at_ cs) = none from rfl),
      btcList_eq cs]
  | Ast.str t at_ => by
    rw [btcVisit, preorder,
      List.filterMap_cons_none (show headingEntry (Ast.str t at_) = none from rfl),
      List.filterMap_nil]
  | Ast.url t at_ => by
    rw [btcVisit, preorder,
      List.filterMap_cons_none (show headingEntry (Ast.url t at_) = none from rfl),
      List.filterMap_nil]
  | Ast.footnote_reference t at_ => by
    rw [btcVisit, preorder,
      List.filterMap_cons_none
        (show headingEntry (Ast.footnote_reference t at_) = none from rfl),
      List.filterMap_nil]
  | Ast.footnote l at_ cs => by
    rw [btcVisit, preorder,
      List.filterMap_cons_none (show headingEntry (Ast.footnote l at_ cs) = none from rfl),
      btcList_eq cs]
  | Ast.soft_break => by
    rw [btcVisit, preorder,
      List.filterMap_cons_none (show headingEntry Ast.soft_break = none from rfl),
      List.filterMap_nil]
  | Ast.hard_break => by
    rw [btcVisit, preorder,
      List.filterMap_cons_none (show headingEntry Ast.hard_break = none from rfl),
      List.filterMap_nil]
  | Ast.thematic_break at_ => by
    rw [btcVisit, preorder,
      List.filterMap_cons_none (show headingEntry (Ast.thematic_break at_) = none from rfl),
      List.filterMap_nil]
  | Ast.other tg at_ cs => by
    rw [btcVisit, preorder,
      List.filterMap_cons_none (show headingEntry (Ast.other tg at_ cs) = none from rfl),
      btcList_eq cs]

theorem btcList_eq : ∀ l : List Ast, btcList l = (preorderL l).filterMap headingEntry
  | [] => by rw [btcList, preorderL, List.filterMap_nil]
  | a :: t => by
    rw [btcList, preorderL, List.filterMap_append, btcVisit_eq a, btcList_eq t]
end

/-- C5 — `build_table_contents` collects exactly the heading nodes of
level greater than one with non-empty flattened text content, in document
(preorder) order, each with its slug: whitespace runs become single
hyphens, the remaining non-word non-hyphen characters are stripped,
repeated hyphens are collapsed and leading and trailing hyphens are
trimmed. -/
theorem build_table_contents_spec (doc : Ast) :
    build_table_contents doc = (preorder doc).filterMap headingEntry := by
  rw [build_table_contents, btcVisit_eq]

/-! ## The render visitor (`render` of `templates.tsx`) -/

/-- `attr(node, name)`: look the attribute up in the map. -/
def attr (ats : Attrs) (name : LC) : Option LC :=
  List.lookup name ats

/-- `setattr(node, name, value)`: update the attribute map. -/
def setattr : Attrs → LC → LC → Attrs
  | [], name, v => [(name, v)]
  | (k, w) :: t, name, v =>
    if k = name then (name, v) :: t else (k, w) :: setattr t name v

/-- `has_class(node, cls)`: split the `class` attribute (defaulted to the
empty string) on single spaces and test membership. -/
def hasClass (ats : Attrs) (cls : LC) : Bool :=
  (splitOn1 ' ' ((attr ats "class".data).getD [])).contains cls

/-- `add_class(node, cls)`: append to a non-empty class list, else start
one. -/
def add_class (ats : Attrs) (cls : LC) : Attrs :=
  setattr ats "class".data
    (match attr ats "class".data with
     | some c => if c = [] then cls else c ++ ' ' :: cls
     | none => cls)

/-- `extract_cap(node)`: a truthy `cap` attribute is removed from the map
and returned. -/
def extract_cap (ats : Attrs) : Option LC × Attrs :=
  match attr ats "cap".data with
  | some c =>
    if c = [] then (none, ats)
    else (some c, ats.filter (fun p => !(p.1 = "cap".data : Bool)))
  | none => (none, ats)

/-- Modelled from the spec: the renderer "serializes its attribute map"
as ` key="value"` pairs with HTML-escaped values. -/
def renderAttributes (ats : Attrs) : LC :=
  ats.flatMap (fun p => ' ' :: (p.1 ++ "=\"".data ++ escapeHtml p.2 ++ "\"".data))

/-- Decimal digits of a number. -/
def natDigits (n : Nat) : LC :=
  if n < 10 then [Char.ofNat (48 + n)]
  else natDigits (n / 10) ++ [Char.ofNat (48 + n % 10)]
termination_by n
decreasing_by
  have : 0 < n := by omega
  exact Nat.div_lt_self this (by omega)

/-- `childContent.replace(/<\/?p>/g, "")`: delete every `<p>` and `</p>`
occurrence. -/
def removePTags : LC → LC
  | [] => []
  | c :: r =>
    if "<p>".data.isPrefixOf (c :: r) then removePTags ((c :: r).drop 3)
    else if "</p>".data.isPrefixOf (c :: r) then removePTags ((c :: r).drop 4)
    else c :: removePTags r
termination_by s => s.length
decreasing_by
  · simp only [List.length_drop, List.length_cons]
    omega
  · simp only [List.length_drop, List.length_cons]
    omega
  · simp only [List.length_cons]
    omega

/-- `get_child(node, "heading")?.level`. -/
def firstHeadingLevel : List Ast → Option Nat
  | [] => none
  | Ast.heading l _ _ :: _ => some l
  | _ :: t => firstHeadingLevel t

/-- `node.children.length == 1 && node.children[0].tag == "image"`. -/
def isSingleImage : List Ast → Bool
  | [Ast.image _ _ _] => true
  | _ => false

/-- JS truthiness of `ctx.summary`: absent or the empty string. -/
def summaryFalsy : Option LC → Bool
  | none => true
  | some s => s.isEmpty

/-- The children of a node, for node kinds that carry them. -/
def Ast.childrenOf : Ast → List Ast
  | Ast.doc _ cs => cs
  | Ast.«section» _ _ cs => cs
  | Ast.heading _ _ cs => cs
  | Ast.para _ cs => cs
  | Ast.block_quote _ cs => cs
  | Ast.div _ cs => cs
  | Ast.ordered_list _ _ cs => cs
  | Ast.code_block _ _ _ => []
  | Ast.image _ _ cs => cs
  | Ast.link _ _ cs => cs
  | Ast.span _ cs => cs
  | Ast.str _ _ => []
  | Ast.url _ _ => []
  | Ast.footnote_reference _ _ => []
  | Ast.footnote _ _ cs => cs
  | Ast.soft_break => []
  | Ast.hard_break => []
  | Ast.thematic_break _ => []
  | Ast.other _ _ cs => cs

/-- The `children` field of a node, `none` for node kinds without one
(text runs, code blocks, breaks, references). -/
def Ast.childrenOpt : Ast → Option (List Ast)
  | Ast.doc _ cs => some cs
  | Ast.«section» _ _ cs => some cs
  | Ast.heading _ _ cs => some cs
  | Ast.para _ cs => some cs
  | Ast.block_quote _ cs => some cs
  | Ast.div _ cs => some cs
  | Ast.ordered_list _ _ cs => some cs
  | Ast.code_block _ _ _ => none
  | Ast.image _ _ cs => some cs
  | Ast.link _ _ cs => some cs
  | Ast.span _ cs => some cs
  | Ast.str _ _ => none
  | Ast.url _ _ => none
  | Ast.footnote_reference _ _ => none
  | Ast.footnote _ _ cs => some cs
  | Ast.soft_break => none
  | Ast.hard_break => none
  | Ast.thematic_break _ => none
  | Ast.other _ _ cs => some cs

def isLinkNode : Ast → Bool
  | Ast.link _ _ _ => true
  | _ => false

def isThematicBreak : Ast → Bool
  | Ast.thematic_break _ => true
  | _ => false

/-- The block-quote citation pattern: a last child that is not a thematic
break and whose `children` field holds exactly one link; returns the link
and the remaining children. -/
def bqCitation (cs : List Ast) : Option (Ast × List Ast) :=
  match cs.getLast? with
  | none => none
  | some last =>
    if isThematicBreak last then none
    else
      match last.childrenOpt with
      | some [x] => if isLinkNode x then some (x, cs.dropLast) else none
      | _ => none

/-- The admonition icon of a `div`: each matching class overwrites the
previous, so the last check wins. -/
def admonIcon (ats : Attrs) : LC :=
  if hasClass ats "danger".data then "danger".data
  else if hasClass ats "warn".data then "warn".data
  else "info".data

/-- Modelled from the spec: `renderAttributes(node, e)` serializes the
extra class merged before the node's own classes. -/
def renderAttributesAdmn (ats : Attrs) : LC :=
  renderAttributes (setattr ats "class".data
    (match attr ats "class".data with
     | some c => if c = [] then "admn".data else "admn".data ++ ' ' :: c
     | none => "admn".data))

/-- The kbd dispatch: split on `+`, wrap each segment, re-join with
`+`. -/
def kbdWrap (s : LC) : LC :=
  join1 '+' ((splitOn1 '+' s).map (fun it => "<kbd>".data ++ it ++ "</kbd>".data))

/-- The internal-link test of the `link` override. -/
def isInternalDest (d : LC) : Bool :=
  "/".data.isPrefixOf d || "#".data.isPrefixOf d || "./".data.isPrefixOf d
    || "../".data.isPrefixOf d
    || (!("http://".data.isPrefixOf d) && !("https://".data.isPrefixOf d))

/-- The mutable state threaded through the render pass: `ctx.title`,
`ctx.summary`, the current section's auto id (the only field of the
saved section the code reads), `documentSideNotes` as label-to-children,
and the renderer's `footnoteIndex`. `dateHtml` carries the pre-rendered
`time_html(ctx.date)` fragment (the date is only spliced into the header
template), `readingTime` the `reading_time_mins` argument, and
`capturesOf` abstracts the grammar registry consulted by `highlight` for
a code block's source and language. -/
structure St where
  title : Option LC
  summary : Option LC
  curSectionId : Option (Option LC)
  sideNotes : List (LC × List Ast)
  footnoteIndex : List (LC × Nat)
  dateHtml : Option LC
  readingTime : Option Nat
  capturesOf : LC → Option LC → Option (List Cap)

def St.setTitle (st : St) (v : Option LC) : St :=
  ⟨v, st.summary, st.curSectionId, st.sideNotes, st.footnoteIndex, st.dateHtml,
    st.readingTime, st.capturesOf⟩

def St.setSummary (st : St) (v : Option LC) : St :=
  ⟨st.title, v, st.curSectionId, st.sideNotes, st.footnoteIndex, st.dateHtml,
    st.readingTime, st.capturesOf⟩

def St.setCurSectionId (st : St) (v : Option (Option LC)) : St :=
  ⟨st.title, st.summary, v, st.sideNotes, st.footnoteIndex, st.dateHtml,
    st.readingTime, st.capturesOf⟩

def St.setSideNotes (st : St) (v : List (LC × List Ast)) : St :=
  ⟨st.title, st.summary, st.curSectionId, v, st.footnoteIndex, st.dateHtml,
    st.readingTime, st.capturesOf⟩

def St.setFootnoteIndex (st : St) (v : List (LC × Nat)) : St :=
  ⟨st.title, st.summary, st.curSectionId, st.sideNotes, v, st.dateHtml,
    st.readingTime, st.capturesOf⟩

/-- JS-object-style update of the footnote index: replace the value of an
existing key in place, else append the key. -/
def setIdx : List (LC × Nat) → LC → Nat → List (LC × Nat)
  | [], lbl, v => [(lbl, v)]
  | (k, w) :: t, lbl, v =>
    if k = lbl then (lbl, v) :: t else (k, w) :: setIdx t lbl v

/-- The three `result +=` template strings of the `footnote_reference`
override around the stripped footnote body. -/
def sidenoteWidget (idx : Nat) (body : LC) : LC :=
  "<label for=\"sn-".data ++ natDigits idx
    ++ "\" class=\"margin-toggle sidenote-number\"></label>".data
    ++ "<input type=\"checkbox\" id=\"sn-".data ++ natDigits idx
    ++ "\" class=\"margin-toggle\"/>".data
    ++ "<span class=\"sidenote-content\">".data ++ body ++ "</span>".data

mutual

/-- `renderAstNode` with the `overrides` table of `render` (`templates.tsx`).
Rendering is fuel-indexed: every recursive call spends one unit, and
exhausted fuel is an error, so any terminating run is reproduced by a large
enough fuel. Failure (`throw`) is the `Except.error` case. -/
def renderNode : Nat → Ast → St → Except LC (LC × St)
  | 0, _, _ => Except.error "render: out of fuel".data
  | fuel + 1, node, st =>
    match node with
    | Ast.doc fts cs =>
      renderDefault fuel (Ast.doc fts cs)
        (st.setSideNotes (fts.map (fun p => (p.1, Ast.childrenOf p.2))))
    | Ast.«section» autoId ats cs =>
      match (if firstHeadingLevel cs = some 1
             then renderList fuel cs (st.setCurSectionId (some autoId))
             else renderDefault fuel (Ast.«section» autoId ats cs)
                    (st.setCurSectionId (some autoId))) with
      | Except.ok (s, st1) => Except.ok (s, st1.setCurSectionId st.curSectionId)
      | Except.error e => Except.error e
    | Ast.heading level ats cs =>
      if level = 1 then
        match renderList fuel cs
            (st.setTitle (some (get_string_content (Ast.heading level ats cs)))) with
        | Except.ok (children, st2) =>
          Except.ok ("<header>\n      <h1".data ++ renderAttributes ats ++ ">".data
            ++ children ++ "</h1>\n      ".data
            ++ st2.dateHtml.getD []
            ++ (match st2.readingTime with
                | some n =>
                  if n = 0 then []
                  else "<span class=\"reading-time\">\n           ".data
                    ++ natDigits n ++ " min read\n         </span>".data
                | none => [])
            ++ "\n    </header>".data, st2)
        | Except.error e => Except.error e
      else
        match renderList fuel cs st with
        | Except.ok (children, st1) =>
          Except.ok ("\n<h".data ++ natDigits level ++ renderAttributes ats ++ ">".data
            ++ (match (if 1 < level then
                        match st.curSectionId with
                        | some (some i) => if i.isEmpty then none else some i
                        | _ => none
                       else none) with
                | some i => "<a href=\"#".data ++ i ++ "\">".data ++ children ++ "</a>".data
                | none => children)
            ++ "</h".data ++ natDigits level ++ ">\n".data, st1)
        | Except.error e => Except.error e
    | Ast.ordered_list style ats cs =>
      renderDefault fuel
        (Ast.ordered_list style
          (if style = "1)".data then add_class ats "callout".data else ats) cs) st
    | Ast.link dest ats cs =>
      renderDefault fuel
        (Ast.link dest
          (match dest with
           | some d =>
             if d.isEmpty then ats
             else if isInternalDest d then add_class ats "internal-link".data else ats
           | none => ats) cs) st
    | Ast.para ats cs =>
      if isSingleImage cs then
        match renderList fuel cs st with
        | Except.ok (children, st1) =>
          Except.ok ("<figure".data ++ renderAttributes (extract_cap ats).2 ++ ">".data
            ++ (match (extract_cap ats).1 with
                | some c => "<figcaption class=\"title\">".data ++ c ++ "</figcaption>\n".data
                | none => [])
            ++ children ++ "</figure>".data, st1)
        | Except.error e => Except.error e
      else
        match renderDefault fuel (Ast.para ats cs) st with
        | Except.ok (result, st1) =>
          Except.ok (result,
            if summaryFalsy st1.summary then
              st1.setSummary (some (get_string_content (Ast.para ats cs)))
            else st1)
        | Except.error e => Except.error e
    | Ast.block_quote _ cs =>
      match bqCitation cs with
      | some (src, rest) =>
        match renderNode fuel src st with
        | Except.ok (citeStr, st1) =>
          match renderList fuel rest st1 with
          | Except.ok (children, st2) =>
            Except.ok ("<figure class=\"blockquote\"><blockquote>".data ++ children
              ++ "</blockquote><figcaption><cite>".data ++ citeStr
              ++ "</cite></figcaption></figure>\n".data, st2)
          | Except.error e => Except.error e
        | Except.error e => Except.error e
      | none =>
        match renderList fuel cs st with
        | Except.ok (children, st1) =>
          Except.ok ("<figure class=\"blockquote\"><blockquote>".data ++ children
            ++ "</blockquote></figure>\n".data, st1)
        | Except.error e => Except.error e
    | Ast.div ats cs =>
      if hasClass ats "info".data || hasClass ats "warn".data
          || hasClass ats "danger".data then
        match renderList fuel cs st with
        | Except.ok (children, st1) =>
          Except.ok ("<aside".data ++ renderAttributesAdmn ats
            ++ "><svg class=\"icon\"><use href=\"/assets/icons.svg#".data ++ admonIcon ats
            ++ "\"/></svg><div>".data ++ children ++ "</aside>".data, st1)
        | Except.error e => Except.error e
      else if hasClass ats "block".data then
        match renderList fuel cs st with
        | Except.ok (children, st1) =>
          Except.ok ("<aside".data ++ renderAttributes (extract_cap ats).2 ++ ">".data
            ++ (match (extract_cap ats).1 with
                | some c => "<div class=\"title\">".data ++ c ++ "</div>".data
                | none => [])
            ++ children ++ "</aside>".data, st1)
        | Except.error e => Except.error e
      else if hasClass ats "details".data then
        match renderList fuel cs st with
        | Except.ok (children, st1) =>
          Except.ok ("<details><summary>".data
            ++ ((extract_cap ats).1.getD "undefined".data)
            ++ "</summary>".data ++ children ++ "</details>".data, st1)
        | Except.error e => Except.error e
      else renderDefault fuel (Ast.div ats cs) st
    | Ast.code_block text lang ats =>
      Except.ok ("<figure class=\"code-block\">".data
        ++ (match (extract_cap ats).1 with
            | some c => "<figcaption class=\"title\">".data ++ c ++ "</figcaption>\n".data
            | none => [])
        ++ jsTrim (highlight text lang (attr ats "highlight".data) (st.capturesOf text lang))
        ++ "</figure>".data, st)
    | Ast.image dest ats cs =>
      if hasClass ats "video".data then
        match dest with
        | none => Except.error "missing destination".data
        | some d =>
          if d.isEmpty then Except.error "missing destination".data
          else if hasClass ats "loop".data then
            Except.ok ("<video src=\"".data ++ d
              ++ "\" autoplay muted=true loop=true></video>".data, st)
          else
            Except.ok ("<video src=\"".data ++ d ++ "\" controls muted=true></video>".data, st)
      else renderDefault fuel (Ast.image dest ats cs) st
    | Ast.span ats cs =>
      if hasClass ats "code".data then
        match renderList fuel cs st with
        | Except.ok (children, st1) =>
          Except.ok ("<code>".data ++ children ++ "</code>".data, st1)
        | Except.error e => Except.error e
      else if hasClass ats "dfn".data then
        match renderList fuel cs st with
        | Except.ok (children, st1) =>
          Except.ok ("<dfn>".data ++ children ++ "</dfn>".data, st1)
        | Except.error e => Except.error e
      else if hasClass ats "kbd".data then
        Except.ok ("<kbd>".data ++ kbdWrap (get_string_content (Ast.span ats cs))
          ++ "</kbd>".data, st)
      else renderDefault fuel (Ast.span ats cs) st
    | Ast.str text ats =>
      if hasClass ats "dfn".data then
        Except.ok ("<dfn>".data ++ text ++ "</dfn>".data, st)
      else renderDefault fuel (Ast.str text ats) st
    | Ast.url text ats => renderDefault fuel (Ast.url text (add_class ats "url".data)) st
    | Ast.footnote_reference label _ =>
      match List.lookup label st.sideNotes with
      | none => Except.ok ([], st)
      | some body =>
        match (match List.lookup label st.footnoteIndex with
               | some i =>
                 if i = 0 then
                   (st.footnoteIndex.length + 1,
                    st.setFootnoteIndex
                      (setIdx st.footnoteIndex label (st.footnoteIndex.length + 1)))
                 else (i, st)
               | none =>
                 (st.footnoteIndex.length + 1,
                  st.setFootnoteIndex
                    (setIdx st.footnoteIndex label (st.footnoteIndex.length + 1)))) with
        | (idx, st1) =>
          match renderSideChildren fuel body st1 with
          | Except.ok (bodyStr, st2) => Except.ok (sidenoteWidget idx bodyStr, st2)
          | Except.error e => Except.error e
    | Ast.footnote _ _ _ => Except.ok ([], st)
    | Ast.soft_break => renderDefault fuel Ast.soft_break st
    | Ast.hard_break => renderDefault fuel Ast.hard_break st
    | Ast.thematic_break ats => renderDefault fuel (Ast.thematic_break ats) st
    | Ast.other tag ats cs => renderDefault fuel (Ast.other tag ats cs) st

/-- Modelled from the spec: the default generic renderer "renders children,
wraps in the node's natural tag, serializes its attribute map". `doc`
renders its children only: the library's endnote section keys off the
renderer's own next-footnote counter, which this pass never advances (the
override stores indices directly), so no endnotes are emitted. -/
def renderDefault : Nat → Ast → St → Except LC (LC × St)
  | 0, _, _ => Except.error "render: out of fuel".data
  | fuel + 1, node, st =>
    match node with
    | Ast.doc _ cs => renderList fuel cs st
    | Ast.«section» _ ats cs => renderWrap fuel "section".data ats cs st
    | Ast.heading l ats cs => renderWrap fuel ("h".data ++ natDigits l) ats cs st
    | Ast.para ats cs => renderWrap fuel "p".data ats cs st
    | Ast.block_quote ats cs => renderWrap fuel "blockquote".data ats cs st
    | Ast.div ats cs => renderWrap fuel "div".data ats cs st
    | Ast.ordered_list _ ats cs => renderWrap fuel "ol".data ats cs st
    | Ast.code_block text _ ats =>
      Except.ok ("<pre><code".data ++ renderAttributes ats ++ ">".data
        ++ escapeHtml text ++ "</code></pre>".data, st)
    | Ast.image dest ats _ =>
      Except.ok ("<img".data ++ renderAttributes ats
        ++ (match dest with
            | some d => " src=\"".data ++ escapeHtml d ++ "\"".data
            | none => [])
        ++ ">".data, st)
    | Ast.link dest ats cs =>
      match renderList fuel cs st with
      | Except.ok (children, st1) =>
        Except.ok ("<a".data ++ renderAttributes ats
          ++ (match dest with
              | some d => " href=\"".data ++ escapeHtml d ++ "\"".data
              | none => [])
          ++ ">".data ++ children ++ "</a>".data, st1)
      | Except.error e => Except.error e
    | Ast.span ats cs => renderWrap fuel "span".data ats cs st
    | Ast.str text _ => Except.ok (escapeHtml text, st)
    | Ast.url text ats =>
      Except.ok ("<a".data ++ renderAttributes ats ++ " href=\"".data ++ escapeHtml text
        ++ "\">".data ++ escapeHtml text ++ "</a>".data, st)
    | Ast.footnote_reference text _ =>
      Except.ok ("<sup>".data ++ escapeHtml text ++ "</sup>".data, st)
    | Ast.footnote _ _ _ => Except.ok ([], st)
    | Ast.soft_break => Except.ok ("\n".data, st)
    | Ast.hard_break => Except.ok ("<br>\n".data, st)
    | Ast.thematic_break ats =>
      Except.ok ("<hr".data ++ renderAttributes ats ++ ">".data, st)
    | Ast.other tag ats cs => renderWrap fuel tag ats cs st

/-- Modelled from the spec: wrapping rendered children in a natural tag
with the serialized attribute map. -/
def renderWrap : Nat → LC → Attrs → List Ast → St → Except LC (LC × St)
  | 0, _, _, _, _ => Except.error "render: out of fuel".data
  | fuel + 1, tag, ats, cs, st =>
    match renderList fuel cs st with
    | Except.ok (children, st1) =>
      Except.ok ("<".data ++ tag ++ renderAttributes ats ++ ">".data
        ++ children ++ "</".data ++ tag ++ ">".data, st1)
    | Except.error e => Except.error e

/-- `renderChildren`: children are rendered left to right, concatenating
output and threading state; the first error aborts the rest. -/
def renderList : Nat → List Ast → St → Except LC (LC × St)
  | _, [], st => Except.ok ([], st)
  | 0, _ :: _, _ => Except.error "render: out of fuel".data
  | fuel + 1, n :: t, st =>
    match renderNode fuel n st with
    | Except.ok (s, st1) =>
      match renderList fuel t st1 with
      | Except.ok (rest, st2) => Except.ok (s ++ rest, st2)
      | Except.error e => Except.error e
    | Except.error e => Except.error e

/-- The footnote-body loop of the `footnote_reference` override: each
child's rendering has its `<p>`/`</p>` tags deleted before concatenation. -/
def renderSideChildren : Nat → List Ast → St → Except LC (LC × St)
  | _, [], st => Except.ok ([], st)
  | 0, _ :: _, _ => Except.error "render: out of fuel".data
  | fuel + 1, n :: t, st =>
    match renderNode fuel n st with
    | Except.ok (s, st1) =>
      match renderSideChildren fuel t st1 with
      | Except.ok (rest, st2) => Except.ok (removePTags s ++ rest, st2)
      | Except.error e => Except.error e
    | Except.error e => Except.error e

end

/-- The state at the start of a post render (`collect_posts` of `main.ts`
passes `{ date, summary: undefined, title: undefined }`; the renderer's
side-note and index tables start empty). The date/reading-time fragments
and the grammar registry are left empty; no claim depends on them. -/
def initSt : St :=
  ⟨none, none, none, [], [], none, none, fun _ _ => none⟩

/-- The emitted HTML of a render from the initial state, `none` on error. -/
def renderOut (fuel : Nat) (node : Ast) : Option LC :=
  match renderNode fuel node initSt with
  | Except.ok (s, _) => some s
  | Except.error _ => none

/-- The final `ctx.summary` of a render from the initial state. -/
def renderSummary (fuel : Nat) (node : Ast) : Option (Option LC) :=
  match renderNode fuel node initSt with
  | Except.ok (_, st) => some st.summary
  | Except.error _ => none

/-- The thrown value of a failed render from the initial state. -/
def renderErr (fuel : Nat) (node : Ast) : Option LC :=
  match renderNode fuel node initSt with
  | Except.ok _ => none
  | Except.error e => some e

/-- The footnote-index table invariant: the value stored at position `k`
is `k + 1`, i.e. each label's index is the number of labels indexed
before it plus one. -/
def fnInv (l : List (LC × Nat)) : Prop :=
  ∀ k p, l[k]? = some p → p.2 = k + 1

/-- The state relation every render step preserves: a non-falsy summary
is kept unchanged, and a well-indexed footnote table is extended in
place (old entries and their positions untouched). -/
def StP (st st' : St) : Prop :=
  (summaryFalsy st.summary = false → st'.summary = st.summary) ∧
  (fnInv st.footnoteIndex →
    fnInv st'.footnoteIndex ∧ st.footnoteIndex <+: st'.footnoteIndex)

theorem StP_refl (st : St) : StP st st :=
  ⟨fun _ => rfl, fun h => ⟨h, List.prefix_refl _⟩⟩

theorem StP_trans {a b c : St} (h1 : StP a b) (h2 : StP b c) : StP a c := by
  refine ⟨fun hf => ?_, fun hi => ?_⟩
  · have e1 := h1.1 hf
    have e2 := h2.1 (by rw [e1]; exact hf)
    rw [e2, e1]
  · obtain ⟨i1, p1⟩ := h1.2 hi
    obtain ⟨i2, p2⟩ := h2.2 i1
    exact ⟨i2, p1.trans p2⟩

theorem StP_of_fields {a b : St} (hs : b.summary = a.summary)
    (hf : b.footnoteIndex = a.footnoteIndex) : StP a b :=
  ⟨fun _ => hs, fun hi => ⟨hf ▸ hi, hf ▸ List.prefix_refl _⟩⟩

theorem summary_setTitle (st : St) (v : Option LC) :
    (st.setTitle v).summary = st.summary := rfl

theorem summary_setCurSectionId (st : St) (v : Option (Option LC)) :
    (st.setCurSectionId v).summary = st.summary := rfl

theorem summary_setSideNotes (st : St) (v : List (LC × List Ast)) :
    (st.setSideNotes v).summary = st.summary := rfl

theorem summary_setFootnoteIndex (st : St) (v : List (LC × Nat)) :
    (st.setFootnoteIndex v).summary = st.summary := rfl

theorem summary_setSummary (st : St) (v : Option LC) :
    (st.setSummary v).summary = v := rfl

theorem fi_setTitle (st : St) (v : Option LC) :
    (st.setTitle v).footnoteIndex = st.footnoteIndex := rfl

theorem fi_setCurSectionId (st : St) (v : Option (Option LC)) :
    (st.setCurSectionId v).footnoteIndex = st.footnoteIndex := rfl

theorem fi_setSideNotes (st : St) (v : List (LC × List Ast)) :
    (st.setSideNotes v).footnoteIndex = st.footnoteIndex := rfl

theorem fi_setSummary (st : St) (v : Option LC) :
    (st.setSummary v).footnoteIndex = st.footnoteIndex := rfl

theorem fi_setFootnoteIndex (st : St) (v : List (LC × Nat)) :
    (st.setFootnoteIndex v).footnoteIndex = v := rfl

/-- A JS-object assignment to a key absent from the table appends it. -/
theorem setIdx_of_lookup_none {l : List (LC × Nat)} {k : LC} (v : Nat)
    (h : List.lookup k l = none) : setIdx l k v = l ++ [(k, v)] := by
  induction l with
  | nil => rfl
  | cons p t ih =>
    obtain ⟨a, b⟩ := p
    rw [List.lookup_cons] at h
    rw [setIdx]
    by_cases hk : a = k
    · subst hk
      simp at h
    · rw [if_neg hk]
      have hk2 : (k == a) = false := by
        simp only [beq_eq_false_iff_ne, ne_eq]
        exact fun hx => hk hx.symm
      rw [hk2] at h
      rw [ih h, List.cons_append]

theorem fnInv_nil : fnInv [] := by
  intro k p h
  simp at h

/-- Appending the next index preserves the table invariant. -/
theorem fnInv_append {l : List (LC × Nat)} (h : fnInv l) (k : LC) :
    fnInv (l ++ [(k, l.length + 1)]) := by
  intro j p hj
  rw [List.getElem?_append] at hj
  by_cases hlt : j < l.length
  · rw [if_pos hlt] at hj
    exact h j p hj
  · rw [if_neg hlt] at hj
    have hb : j - l.length < 1 := by
      by_contra hb
      rw [List.getElem?_eq_none] at hj
      · exact Option.noConfusion hj
      · simp only [List.length_cons, List.length_nil]
        omega
    have hje : j = l.length := by omega
    subst hje
    simp only [Nat.sub_self, List.getElem?_cons_zero, Option.some.injEq] at hj
    rw [← hj]

/-- A successful lookup's value is stored somewhere in the table. -/
theorem lookup_val_mem {l : List (LC × Nat)} {k : LC} {v : Nat}
    (hl : List.lookup k l = some v) : ∃ q : LC × Nat, q ∈ l ∧ q.2 = v := by
  induction l with
  | nil => simp at hl
  | cons p t ih =>
    obtain ⟨a, b⟩ := p
    rw [List.lookup_cons] at hl
    by_cases hk : (k == a) = true
    · rw [hk] at hl
      simp only [Option.some.injEq] at hl
      exact ⟨(a, b), List.mem_cons_self _ _, hl⟩
    · rw [Bool.eq_false_iff.mpr hk] at hl
      simp only at hl
      obtain ⟨q, hq, hv⟩ := ih hl
      exact ⟨q, List.mem_cons_of_mem _ hq, hv⟩

/-- Any value stored in a well-indexed table is positive. -/
theorem fnInv_lookup_pos {l : List (LC × Nat)} (h : fnInv l) {k : LC} {v : Nat}
    (hl : List.lookup k l = some v) : 0 < v := by
  obtain ⟨q, hq, hv⟩ := lookup_val_mem hl
  rw [List.mem_iff_getElem?] at hq
  obtain ⟨n, hn⟩ := hq
  have := h n q hn
  omega

/-- A lookup that succeeds stays valid in any extension of the table:
indices, once assigned, are stable for the rest of the pass. -/
theorem lookup_prefix_stable {l l' : List (LC × Nat)} (hp : l <+: l')
    {k : LC} {v : Nat} (h : List.lookup k l = some v) :
    List.lookup k l' = some v := by
  obtain ⟨t, rfl⟩ := hp
  induction l with
  | nil => simp at h
  | cons p r ih =>
    obtain ⟨a, b⟩ := p
    rw [List.lookup_cons] at h
    rw [List.cons_append, List.lookup_cons]
    by_cases hk : (k == a) = true
    · rw [hk] at h ⊢
      exact h
    · rw [Bool.eq_false_iff.mpr hk] at h ⊢
      simp only at h ⊢
      exact ih h

theorem StP_setTitle (st : St) (v : Option LC) : StP st (st.setTitle v) :=
  StP_of_fields rfl rfl

theorem StP_setCurSectionId (st : St) (v : Option (Option LC)) :
    StP st (st.setCurSectionId v) :=
  StP_of_fields rfl rfl

theorem StP_setSideNotes (st : St) (v : List (LC × List Ast)) :
    StP st (st.setSideNotes v) :=
  StP_of_fields rfl rfl

/-- Every successful render step preserves the state relation `StP`: a
non-falsy summary is never changed, and a well-indexed footnote table is
only ever extended at the end. Proved for all five mutually recursive
render functions at once by induction on fuel. -/
theorem render_StP : ∀ fuel : Nat,
    (∀ node st out st', renderNode fuel node st = Except.ok (out, st') → StP st st') ∧
    (∀ node st out st', renderDefault fuel node st = Except.ok (out, st') → StP st st') ∧
    (∀ tag ats cs st out st', renderWrap fuel tag ats cs st = Except.ok (out, st') →
      StP st st') ∧
    (∀ ns st out st', renderList fuel ns st = Except.ok (out, st') → StP st st') ∧
    (∀ ns st out st', renderSideChildren fuel ns st = Except.ok (out, st') → StP st st') := by
  intro fuel
  induction fuel with
  | zero =>
    refine ⟨?_, ?_, ?_, ?_, ?_⟩
    · intro node st out st' h
      rw [renderNode] at h
      exact Except.noConfusion h
    · intro node st out st' h
      rw [renderDefault] at h
      exact Except.noConfusion h
    · intro tag ats cs st out st' h
      rw [renderWrap] at h
      exact Except.noConfusion h
    · intro ns st out st' h
      cases ns with
      | nil =>
        rw [renderList] at h
        simp only [Except.ok.injEq, Prod.mk.injEq] at h
        obtain ⟨-, h2⟩ := h
        subst h2
        exact StP_refl st
      | cons n t =>
        rw [renderList] at h
        exact Except.noConfusion h
    · intro ns st out st' h
      cases ns with
      | nil =>
        rw [renderSideChildren] at h
        simp only [Except.ok.injEq, Prod.mk.injEq] at h
        obtain ⟨-, h2⟩ := h
        subst h2
        exact StP_refl st
      | cons n t =>
        rw [renderSideChildren] at h
        exact Except.noConfusion h
  | succ fuel ih =>
    obtain ⟨ihN, ihD, ihW, ihL, ihS⟩ := ih
    refine ⟨?_, ?_, ?_, ?_, ?_⟩
    · -- renderNode
      intro node st out st' h
      cases node with
      | doc fts cs =>
        simp only [renderNode] at h
        exact StP_trans (StP_setSideNotes st _) (ihD _ _ _ _ h)
      | «section» autoId ats cs =>
        simp only [renderNode] at h
        by_cases hc : firstHeadingLevel cs = some 1
        · rw [if_pos hc] at h
          cases hr : renderList fuel cs (st.setCurSectionId (some autoId)) with
          | error e =>
            rw [hr] at h
            exact Except.noConfusion h
          | ok p =>
            obtain ⟨s1, st1⟩ := p
            rw [hr] at h
            simp only [Except.ok.injEq, Prod.mk.injEq] at h
            obtain ⟨-, h2⟩ := h
            subst h2
            exact StP_trans (StP_setCurSectionId st _)
              (StP_trans (ihL _ _ _ _ hr) (StP_setCurSectionId st1 _))
        · rw [if_neg hc] at h
          cases hr : renderDefault fuel (Ast.«section» autoId ats cs) (st.setCurSectionId (some autoId)) with
          | error e =>
            rw [hr] at h
            exact Except.noConfusion h
          | ok p =>
            obtain ⟨s1, st1⟩ := p
            rw [hr] at h
            simp only [Except.ok.injEq, Prod.mk.injEq] at h
            obtain ⟨-, h2⟩ := h
            subst h2
            exact StP_trans (StP_setCurSectionId st _)
              (StP_trans (ihD _ _ _ _ hr) (StP_setCurSectionId st1 _))
      | heading level ats cs =>
        simp only [renderNode] at h
        by_cases hl : level = 1
        · rw [if_pos hl] at h
          cases hr : renderList fuel cs
              (st.setTitle (some (get_string_content (Ast.heading level ats cs)))) with
          | error e =>
            rw [hr] at h
            exact Except.noConfusion h
          | ok p =>
            obtain ⟨s1, st1⟩ := p
            rw [hr] at h
            simp only [Except.ok.injEq, Prod.mk.injEq] at h
            obtain ⟨-, h2⟩ := h
            subst h2
            exact StP_trans (StP_setTitle st _) (ihL _ _ _ _ hr)
        · rw [if_neg hl] at h
          cases hr : renderList fuel cs st with
          | error e =>
            rw [hr] at h
            exact Except.noConfusion h
          | ok p =>
            obtain ⟨s1, st1⟩ := p
            rw [hr] at h
            simp only [Except.ok.injEq, Prod.mk.injEq] at h
            obtain ⟨-, h2⟩ := h
            subst h2
            exact ihL _ _ _ _ hr
      | ordered_list style ats cs =>
        simp only [renderNode] at h
        exact ihD _ _ _ _ h
      | link dest ats cs =>
        simp only [renderNode] at h
        exact ihD _ _ _ _ h
      | para ats cs =>
        simp only [renderNode] at h
        by_cases hsi : isSingleImage cs = true
        · rw [if_pos hsi] at h
          cases hr : renderList fuel cs st with
          | error e =>
            rw [hr] at h
            exact Except.noConfusion h
          | ok p =>
            obtain ⟨s1, st1⟩ := p
            rw [hr] at h
            simp only [Except.ok.injEq, Prod.mk.injEq] at h
            obtain ⟨-, h2⟩ := h
            subst h2
            exact ihL _ _ _ _ hr
        · rw [if_neg hsi] at h
          cases hr : renderDefault fuel (Ast.para ats cs) st with
          | error e =>
            rw [hr] at h
            exact Except.noConfusion h
          | ok p =>
            obtain ⟨result, st1⟩ := p
            rw [hr] at h
            simp only [Except.ok.injEq, Prod.mk.injEq] at h
            obtain ⟨-, h2⟩ := h
            subst h2
            have hd := ihD _ _ _ _ hr
            by_cases hsf : summaryFalsy st1.summary = true
            · rw [if_pos hsf]
              refine StP_trans hd ⟨fun hg => ?_, fun hi => ⟨hi, List.prefix_refl _⟩⟩
              rw [hg] at hsf
              exact Bool.noConfusion hsf
            · rw [if_neg hsf]
              exact hd
      | block_quote ats cs =>
        simp only [renderNode] at h
        cases hbc : bqCitation cs with
        | some p =>
          obtain ⟨src, rest⟩ := p
          rw [hbc] at h
          simp only [] at h
          cases h1 : renderNode fuel src st with
          | error e =>
            rw [h1] at h
            exact Except.noConfusion h
          | ok q =>
            obtain ⟨citeStr, st1⟩ := q
            rw [h1] at h
            simp only [] at h
            cases h2 : renderList fuel rest st1 with
            | error e =>
              rw [h2] at h
              exact Except.noConfusion h
            | ok r =>
              obtain ⟨children, st2⟩ := r
              rw [h2] at h
              simp only [Except.ok.injEq, Prod.mk.injEq] at h
              obtain ⟨-, h3⟩ := h
              subst h3
              exact StP_trans (ihN _ _ _ _ h1) (ihL _ _ _ _ h2)
        | none =>
          rw [hbc] at h
          simp only [] at h
          cases hr : renderList fuel cs st with
          | error e =>
            rw [hr] at h
            exact Except.noConfusion h
          | ok p =>
            obtain ⟨s1, st1⟩ := p
            rw [hr] at h
            simp only [Except.ok.injEq, Prod.mk.injEq] at h
            obtain ⟨-, h2⟩ := h
            subst h2
            exact ihL _ _ _ _ hr
      | div ats cs =>
        simp only [renderNode] at h
        by_cases h1 : (hasClass ats "info".data || hasClass ats "warn".data
            || hasClass ats "danger".data) = true
        · rw [if_pos h1] at h
          cases hr : renderList fuel cs st with
          | error e =>
            rw [hr] at h
            exact Except.noConfusion h
          | ok p =>
            obtain ⟨s1, st1⟩ := p
            rw [hr] at h
            simp only [Except.ok.injEq, Prod.mk.injEq] at h
            obtain ⟨-, h2⟩ := h
            subst h2
            exact ihL _ _ _ _ hr
        · rw [if_neg h1] at h
          by_cases h2 : hasClass ats "block".data = true
          · rw [if_pos h2] at h
            cases hr : renderList fuel cs st with
            | error e =>
              rw [hr] at h
              exact Except.noConfusion h
            | ok p =>
              obtain ⟨s1, st1⟩ := p
              rw [hr] at h
              simp only [Except.ok.injEq, Prod.mk.injEq] at h
              obtain ⟨-, h2⟩ := h
              subst h2
              exact ihL _ _ _ _ hr
          · rw [if_neg h2] at h
            by_cases h3 : hasClass ats "details".data = true
            · rw [if_pos h3] at h
              cases hr : renderList fuel cs st with
              | error e =>
                rw [hr] at h
                exact Except.noConfusion h
              | ok p =>
                obtain ⟨s1, st1⟩ := p
                rw [hr] at h
                simp only [Except.ok.injEq, Prod.mk.injEq] at h
                obtain ⟨-, h2⟩ := h
                subst h2
                exact ihL _ _ _ _ hr
            · rw [if_neg h3] at h
              exact ihD _ _ _ _ h
      | code_block text lang ats =>
        simp only [renderNode] at h
        simp only [Except.ok.injEq, Prod.mk.injEq] at h
        obtain ⟨-, h2⟩ := h
        subst h2
        exact StP_refl st
      | image dest ats cs =>
        simp only [renderNode] at h
        by_cases hv : hasClass ats "video".data = true
        · rw [if_pos hv] at h
          cases dest with
          | none =>
            simp only [] at h
            exact Except.noConfusion h
          | some d =>
            simp only [] at h
            by_cases he : d.isEmpty = true
            · rw [if_pos he] at h
              exact Except.noConfusion h
            · rw [if_neg he] at h
              by_cases hlp : hasClass ats "loop".data = true
              · rw [if_pos hlp] at h
                simp only [Except.ok.injEq, Prod.mk.injEq] at h
                obtain ⟨-, h2⟩ := h
                subst h2
                exact StP_refl st
              · rw [if_neg hlp] at h
                simp only [Except.ok.injEq, Prod.mk.injEq] at h
                obtain ⟨-, h2⟩ := h
                subst h2
                exact StP_refl st
        · rw [if_neg hv] at h
          exact ihD _ _ _ _ h
      | span ats cs =>
        simp only [renderNode] at h
        by_cases h1 : hasClass ats "code".data = true
        · rw [if_pos h1] at h
          cases hr : renderList fuel cs st with
          | error e =>
            rw [hr] at h
            exact Except.noConfusion h
          | ok p =>
            obtain ⟨s1, st1⟩ := p
            rw [hr] at h
            simp only [Except.ok.injEq, Prod.mk.injEq] at h
            obtain ⟨-, h2⟩ := h
            subst h2
            exact ihL _ _ _ _ hr
        · rw [if_neg h1] at h
          by_cases h2 : hasClass ats "dfn".data = true
          · rw [if_pos h2] at h
            cases hr : renderList fuel cs st with
            | error e =>
              rw [hr] at h
              exact Except.noConfusion h
            | ok p =>
              obtain ⟨s1, st1⟩ := p
              rw [hr] at h
              simp only [Except.ok.injEq, Prod.mk.injEq] at h
              obtain ⟨-, h2⟩ := h
              subst h2
              exact ihL _ _ _ _ hr
          · rw [if_neg h2] at h
            by_cases h3 : hasClass ats "kbd".data = true
            · rw [if_pos h3] at h
              simp only [Except.ok.injEq, Prod.mk.injEq] at h
              obtain ⟨-, h2⟩ := h
              subst h2
              exact StP_refl st
            · rw [if_neg h3] at h
              exact ihD _ _ _ _ h
      | str text ats =>
        simp only [renderNode] at h
        by_cases h1 : hasClass ats "dfn".data = true
        · rw [if_pos h1] at h
          simp only [Except.ok.injEq, Prod.mk.injEq] at h
          obtain ⟨-, h2⟩ := h
          subst h2
          exact StP_refl st
        · rw [if_neg h1] at h
          exact ihD _ _ _ _ h
      | url text ats =>
        simp only [renderNode] at h
        exact ihD _ _ _ _ h
      | footnote_reference label ats =>
        simp only [renderNode] at h
        cases hsn : List.lookup label st.sideNotes with
        | none =>
          rw [hsn] at h
          simp only [Except.ok.injEq, Prod.mk.injEq] at h
          obtain ⟨-, h2⟩ := h
          subst h2
          exact StP_refl st
        | some body =>
          rw [hsn] at h
          simp only [] at h
          cases hfi : List.lookup label st.footnoteIndex with
          | some i =>
            rw [hfi] at h
            simp only [] at h
            by_cases hz : i = 0
            · rw [if_pos hz] at h
              simp only [] at h
              cases hrs : renderSideChildren fuel body
                  (st.setFootnoteIndex (setIdx st.footnoteIndex label (st.footnoteIndex.length + 1))) with
              | error e =>
                rw [hrs] at h
                exact Except.noConfusion h
              | ok p =>
                obtain ⟨bodyStr, st2⟩ := p
                rw [hrs] at h
                simp only [Except.ok.injEq, Prod.mk.injEq] at h
                obtain ⟨-, h2⟩ := h
                subst h2
                have hmid : StP st (st.setFootnoteIndex
                    (setIdx st.footnoteIndex label (st.footnoteIndex.length + 1))) :=
                  ⟨fun _ => rfl, fun hi =>
                    absurd hz (Nat.pos_iff_ne_zero.mp (fnInv_lookup_pos hi hfi))⟩
                exact StP_trans hmid (ihS _ _ _ _ hrs)
            · rw [if_neg hz] at h
              simp only [] at h
              cases hrs : renderSideChildren fuel body st with
              | error e =>
                rw [hrs] at h
                exact Except.noConfusion h
              | ok p =>
                obtain ⟨bodyStr, st2⟩ := p
                rw [hrs] at h
                simp only [Except.ok.injEq, Prod.mk.injEq] at h
                obtain ⟨-, h2⟩ := h
                subst h2
                exact ihS _ _ _ _ hrs
          | none =>
            rw [hfi] at h
            simp only [] at h
            cases hrs : renderSideChildren fuel body
                (st.setFootnoteIndex (setIdx st.footnoteIndex label (st.footnoteIndex.length + 1))) with
            | error e =>
              rw [hrs] at h
              exact Except.noConfusion h
            | ok p =>
              obtain ⟨bodyStr, st2⟩ := p
              rw [hrs] at h
              simp only [Except.ok.injEq, Prod.mk.injEq] at h
              obtain ⟨-, h2⟩ := h
              subst h2
              have hmid : StP st (st.setFootnoteIndex
                  (setIdx st.footnoteIndex label (st.footnoteIndex.length + 1))) := by
                refine ⟨fun _ => rfl, fun hi => ?_⟩
                rw [fi_setFootnoteIndex, setIdx_of_lookup_none _ hfi]
                exact ⟨fnInv_append hi label, List.prefix_append _ _⟩
              exact StP_trans hmid (ihS _ _ _ _ hrs)
      | footnote lbl ats cs =>
        simp only [renderNode] at h
        simp only [Except.ok.injEq, Prod.mk.injEq] at h
        obtain ⟨-, h2⟩ := h
        subst h2
        exact StP_refl st
      | soft_break =>
        simp only [renderNode] at h
        exact ihD _ _ _ _ h
      | hard_break =>
        simp only [renderNode] at h
        exact ihD _ _ _ _ h
      | thematic_break ats =>
        simp only [renderNode] at h
        exact ihD _ _ _ _ h
      | other tag ats cs =>
        simp only [renderNode] at h
        exact ihD _ _ _ _ h
    · -- renderDefault
      intro node st out st' h
      cases node with
      | doc fts cs =>
        simp only [renderDefault] at h
        exact ihL _ _ _ _ h
      | «section» autoId ats cs =>
        simp only [renderDefault] at h
        exact ihW _ _ _ _ _ _ h
      | heading level ats cs =>
        simp only [renderDefault] at h
        exact ihW _ _ _ _ _ _ h
      | para ats cs =>
        simp only [renderDefault] at h
        exact ihW _ _ _ _ _ _ h
      | block_quote ats cs =>
        simp only [renderDefault] at h
        exact ihW _ _ _ _ _ _ h
      | div ats cs =>
        simp only [renderDefault] at h
        exact ihW _ _ _ _ _ _ h
      | ordered_list style ats cs =>
        simp only [renderDefault] at h
        exact ihW _ _ _ _ _ _ h
      | code_block text lang ats =>
        simp only [renderDefault] at h
        simp only [Except.ok.injEq, Prod.mk.injEq] at h
        obtain ⟨-, h2⟩ := h
        subst h2
        exact StP_refl st
      | image dest ats cs =>
        simp only [renderDefault] at h
        simp only [Except.ok.injEq, Prod.mk.injEq] at h
        obtain ⟨-, h2⟩ := h
        subst h2
        exact StP_refl st
      | link dest ats cs =>
        simp only [renderDefault] at h
        cases hr : renderList fuel cs st with
        | error e =>
          rw [hr] at h
          exact Except.noConfusion h
        | ok p =>
          obtain ⟨s1, st1⟩ := p
          rw [hr] at h
          simp only [Except.ok.injEq, Prod.mk.injEq] at h
          obtain ⟨-, h2⟩ := h
          subst h2
          exact ihL _ _ _ _ hr
      | span ats cs =>
        simp only [renderDefault] at h
        exact ihW _ _ _ _ _ _ h
      | str text ats =>
        simp only [renderDefault] at h
        simp only [Except.ok.injEq, Prod.mk.injEq] at h
        obtain ⟨-, h2⟩ := h
        subst h2
        exact StP_refl st
      | url text ats =>
        simp only [renderDefault] at h
        simp only [Except.ok.injEq, Prod.mk.injEq] at h
        obtain ⟨-, h2⟩ := h
        subst h2
        exact StP_refl st
      | footnote_reference text ats =>
        simp only [renderDefault] at h
        simp only [Except.ok.injEq, Prod.mk.injEq] at h
        obtain ⟨-, h2⟩ := h
        subst h2
        exact StP_refl st
      | footnote lbl ats cs =>
        simp only [renderDefault] at h
        simp only [Except.ok.injEq, Prod.mk.injEq] at h
        obtain ⟨-, h2⟩ := h
        subst h2
        exact StP_refl st
      | soft_break =>
        simp only [renderDefault] at h
        simp only [Except.ok.injEq, Prod.mk.injEq] at h
        obtain ⟨-, h2⟩ := h
        subst h2
        exact StP_refl st
      | hard_break =>
        simp only [renderDefault] at h
        simp only [Except.ok.injEq, Prod.mk.injEq] at h
        obtain ⟨-, h2⟩ := h
        subst h2
        exact StP_refl st
      | thematic_break ats =>
        simp only [renderDefault] at h
        simp only [Except.ok.injEq, Prod.mk.injEq] at h
        obtain ⟨-, h2⟩ := h
        subst h2
        exact StP_refl st
      | other tag ats cs =>
        simp only [renderDefault] at h
        exact ihW _ _ _ _ _ _ h
    · -- renderWrap
      intro tag ats cs st out st' h
      simp only [renderWrap] at h
      cases hr : renderList fuel cs st with
      | error e =>
        rw [hr] at h
        exact Except.noConfusion h
      | ok p =>
        obtain ⟨s1, st1⟩ := p
        rw [hr] at h
        simp only [Except.ok.injEq, Prod.mk.injEq] at h
        obtain ⟨-, h2⟩ := h
        subst h2
        exact ihL _ _ _ _ hr
    · -- renderList
      intro ns st out st' h
      cases ns with
      | nil =>
        rw [renderList] at h
        simp only [Except.ok.injEq, Prod.mk.injEq] at h
        obtain ⟨-, h2⟩ := h
        subst h2
        exact StP_refl st
      | cons n t =>
        simp only [renderList] at h
        cases h1 : renderNode fuel n st with
        | error e =>
          rw [h1] at h
          exact Except.noConfusion h
        | ok q =>
          obtain ⟨s1, st1⟩ := q
          rw [h1] at h
          simp only [] at h
          cases h2 : renderList fuel t st1 with
          | error e =>
            rw [h2] at h
            exact Except.noConfusion h
          | ok r =>
            obtain ⟨rest, st2⟩ := r
            rw [h2] at h
            simp only [Except.ok.injEq, Prod.mk.injEq] at h
            obtain ⟨-, h3⟩ := h
            subst h3
            exact StP_trans (ihN _ _ _ _ h1) (ihL _ _ _ _ h2)
    · -- renderSideChildren
      intro ns st out st' h
      cases ns with
      | nil =>
        rw [renderSideChildren] at h
        simp only [Except.ok.injEq, Prod.mk.injEq] at h
        obtain ⟨-, h2⟩ := h
        subst h2
        exact StP_refl st
      | cons n t =>
        simp only [renderSideChildren] at h
        cases h1 : renderNode fuel n st with
        | error e =>
          rw [h1] at h
          exact Except.noConfusion h
        | ok q =>
          obtain ⟨s1, st1⟩ := q
          rw [h1] at h
          simp only [] at h
          cases h2 : renderSideChildren fuel t st1 with
          | error e =>
            rw [h2] at h
            exact Except.noConfusion h
          | ok r =>
            obtain ⟨rest, st2⟩ := r
            rw [h2] at h
            simp only [Except.ok.injEq, Prod.mk.injEq] at h
            obtain ⟨-, h3⟩ := h
            subst h3
            exact StP_trans (ihN _ _ _ _ h1) (ihS _ _ _ _ h2)

/-! ## C7: the summary capture; C6: footnotes; C9: the video fail-fast -/

/-- C7: counterexample. The summary is not one-shot: rendering a document
whose first paragraph is empty assigns `ctx.summary` the empty string
(first conjunct), and a later paragraph overwrites it (second conjunct:
the final summary is the second paragraph's text), because the guard
`if (!ctx.summary)` treats the already-assigned empty string as unset. -/
theorem para_summary_one_shot_counterexample :
    renderSummary 20 (Ast.doc [] [Ast.para [] []]) = some (some []) ∧
    renderSummary 20 (Ast.doc [] [Ast.para [] [], Ast.para [] [Ast.str "hello".data []]])
      = some (some "hello".data) :=
  ⟨rfl, rfl⟩

/-- C7 (amended): the summary capture is one-shot only up to JS truthiness:
(1) once `ctx.summary` holds a non-empty string, no render step changes it;
(2) a paragraph that is not a single-image figure, whose default rendering
leaves the summary unset or empty, captures the paragraph's flattened
string content as the summary. -/
theorem para_summary_one_shot_amended :
    (∀ fuel node st out st', renderNode fuel node st = Except.ok (out, st') →
        summaryFalsy st.summary = false → st'.summary = st.summary) ∧
    (∀ fuel ats cs st result st1, isSingleImage cs = false →
        renderDefault fuel (Ast.para ats cs) st = Except.ok (result, st1) →
        summaryFalsy st1.summary = true →
        renderNode (fuel + 1) (Ast.para ats cs) st
          = Except.ok (result,
              st1.setSummary (some (get_string_content (Ast.para ats cs))))) := by
  constructor
  · intro fuel node st out st' h hf
    exact ((render_StP fuel).1 node st out st' h).1 hf
  · intro fuel ats cs st result st1 hsi hd hsf
    simp only [renderNode]
    rw [if_neg (Bool.eq_false_iff.mp hsi)]
    rw [hd]
    simp only []
    rw [if_pos hsf]

/-- C7 (amended) at a concrete input: a one-word paragraph rendered from a
state whose summary is the (falsy) empty string captures its text. -/
theorem para_summary_one_shot_amended_witness :
    isSingleImage [Ast.str "hi".data []] = false ∧
    renderDefault 5 (Ast.para [] [Ast.str "hi".data []]) (initSt.setSummary (some []))
      = Except.ok ("<p>hi</p>".data, initSt.setSummary (some [])) ∧
    summaryFalsy (initSt.setSummary (some [])).summary = true ∧
    renderNode 6 (Ast.para [] [Ast.str "hi".data []]) (initSt.setSummary (some []))
      = Except.ok ("<p>hi</p>".data,
          (initSt.setSummary (some [])).setSummary (some "hi".data)) :=
  ⟨rfl, rfl, rfl,
   para_summary_one_shot_amended.2 5 [] [Ast.str "hi".data []]
     (initSt.setSummary (some [])) "<p>hi</p>".data (initSt.setSummary (some []))
     rfl rfl rfl⟩

/-- A state with one side note under label `a` and no index assigned yet. -/
def fnWitnessSt : St := initSt.setSideNotes [("a".data, [Ast.str "note".data []])]

/-- C6: in one render pass, (1) a footnote definition node renders as the
empty string with the state untouched, so an unreferenced footnote's
content is dropped; (2) a reference whose label is not in the footnote
table renders as the empty string with the state untouched; (3) every
successful render step keeps the footnote index well formed (the value at
position `k` is `k + 1`) and only extends it at the end, so an assigned
index is never reassigned and lookups stay stable for the rest of the
pass; (4) at a reference site of a defined label, an already-assigned
index `i` is reused with no index change, and an unassigned label gets
index `count of already-indexed labels + 1`, appended to the table, the
widget being rendered with that index either way. -/
theorem footnote_index_one_shot :
    (∀ fuel lbl ats cs st,
        renderNode (fuel + 1) (Ast.footnote lbl ats cs) st = Except.ok ([], st)) ∧
    (∀ fuel lbl ats st, List.lookup lbl st.sideNotes = none →
        renderNode (fuel + 1) (Ast.footnote_reference lbl ats) st = Except.ok ([], st)) ∧
    (∀ fuel node st out st', renderNode fuel node st = Except.ok (out, st') →
        fnInv st.footnoteIndex →
        fnInv st'.footnoteIndex ∧ st.footnoteIndex <+: st'.footnoteIndex) ∧
    (∀ fuel lbl ats st body, List.lookup lbl st.sideNotes = some body →
        (∀ i, List.lookup lbl st.footnoteIndex = some i → fnInv st.footnoteIndex →
          renderNode (fuel + 1) (Ast.footnote_reference lbl ats) st
            = (match renderSideChildren fuel body st with
               | Except.ok (bodyStr, st2) => Except.ok (sidenoteWidget i bodyStr, st2)
               | Except.error e => Except.error e)) ∧
        (List.lookup lbl st.footnoteIndex = none →
          renderNode (fuel + 1) (Ast.footnote_reference lbl ats) st
            = (match renderSideChildren fuel body
                  (st.setFootnoteIndex
                    (st.footnoteIndex ++ [(lbl, st.footnoteIndex.length + 1)])) with
               | Except.ok (bodyStr, st2) =>
                 Except.ok (sidenoteWidget (st.footnoteIndex.length + 1) bodyStr, st2)
               | Except.error e => Except.error e))) := by
  refine ⟨?_, ?_, ?_, ?_⟩
  · intro fuel lbl ats cs st
    simp only [renderNode]
  · intro fuel lbl ats st h
    simp only [renderNode, h]
  · intro fuel node st out st' h hi
    exact ((render_StP fuel).1 node st out st' h).2 hi
  · intro fuel lbl ats st body hsn
    constructor
    · intro i hfi hinv
      have hz : ¬ i = 0 := Nat.pos_iff_ne_zero.mp (fnInv_lookup_pos hinv hfi)
      simp only [renderNode, hsn, hfi]
      rw [if_neg hz]
    · intro hfi
      simp only [renderNode, hsn, hfi]
      rw [setIdx_of_lookup_none _ hfi]

unseal removePTags natDigits in
/-- C6 at a concrete input: the first reference to the defined label `a`
is assigned index `0 + 1 = 1`, appended to the empty table, and renders
the sidenote widget with that index around the footnote body. -/
theorem footnote_index_one_shot_witness :
    List.lookup "a".data fnWitnessSt.sideNotes = some [Ast.str "note".data []] ∧
    List.lookup "a".data fnWitnessSt.footnoteIndex = none ∧
    renderNode 4 (Ast.footnote_reference "a".data []) fnWitnessSt
      = Except.ok (sidenoteWidget 1 "note".data,
          fnWitnessSt.setFootnoteIndex [("a".data, 1)]) :=
  ⟨rfl, rfl,
   Eq.trans ((footnote_index_one_shot.2.2.2 3 "a".data [] fnWitnessSt
     [Ast.str "note".data []] rfl).2 rfl) (by rfl)⟩

/-- C9: counterexample. A `video`-classed image without a destination does
throw when its node is rendered (first conjunct), but rendering a document
containing such a node need not raise: inside a `kbd`-classed span the
children are flattened to text and never visited, so the whole document
renders successfully (second conjunct). -/
theorem video_missing_destination_counterexample :
    renderErr 5 (Ast.image none [("class".data, "video".data)] [])
      = some "missing destination".data ∧
    renderOut 20 (Ast.doc [] [Ast.para [] [Ast.span [("class".data, "kbd".data)]
        [Ast.image none [("class".data, "video".data)] []]]])
      = some "<p><kbd><kbd></kbd></kbd></p>".data :=
  ⟨rfl, rfl⟩

/-- C9 (amended): whenever a `video`-classed image node is itself rendered,
a missing (absent or empty) destination throws `missing destination`
immediately; with a destination it renders as a `<video>` element (the
`loop` class selecting the autoplay-loop variant); and an error from a
child aborts the enclosing child-list render, propagating the failure. -/
theorem video_missing_destination_amended :
    (∀ fuel ats cs st, hasClass ats "video".data = true →
        renderNode (fuel + 1) (Ast.image none ats cs) st
          = Except.error "missing destination".data) ∧
    (∀ fuel ats cs st, hasClass ats "video".data = true →
        renderNode (fuel + 1) (Ast.image (some []) ats cs) st
          = Except.error "missing destination".data) ∧
    (∀ fuel d ats cs st, hasClass ats "video".data = true → d ≠ [] →
        renderNode (fuel + 1) (Ast.image (some d) ats cs) st
          = Except.ok ((if hasClass ats "loop".data then
              "<video src=\"".data ++ d ++ "\" autoplay muted=true loop=true></video>".data
            else "<video src=\"".data ++ d ++ "\" controls muted=true></video>".data), st)) ∧
    (∀ fuel n t st e, renderNode fuel n st = Except.error e →
        renderList (fuel + 1) (n :: t) st = Except.error e) := by
  refine ⟨?_, ?_, ?_, ?_⟩
  · intro fuel ats cs st hv
    simp only [renderNode]
    rw [if_pos hv]
  · intro fuel ats cs st hv
    simp only [renderNode]
    rw [if_pos hv]
    simp only [List.isEmpty_nil, if_true]
  · intro fuel d ats cs st hv hd
    have he : d.isEmpty = false := by
      cases d with
      | nil => exact absurd rfl hd
      | cons c t => rfl
    simp only [renderNode]
    rw [if_pos hv, he]
    simp only [Bool.false_eq_true, if_false]
    by_cases hlp : hasClass ats "loop".data = true
    · rw [if_pos hlp, if_pos hlp]
    · rw [if_neg hlp, if_neg hlp]
  · intro fuel n t st e h
    simp only [renderList, h]

/-- C9 (amended) at a concrete input: a destination-less video image
errors, and as the head of a child list it aborts the list render. -/
theorem video_missing_destination_amended_witness :
    hasClass [("class".data, "video".data)] "video".data = true ∧
    renderNode 1 (Ast.image none [("class".data, "video".data)] []) initSt
      = Except.error "missing destination".data ∧
    renderList 2 [Ast.image none [("class".data, "video".data)] []] initSt
      = Except.error "missing destination".data :=
  ⟨rfl,
   video_missing_destination_amended.1 0 [("class".data, "video".data)] [] initSt rfl,
   video_missing_destination_amended.2.2.2 1
     (Ast.image none [("class".data, "video".data)] []) [] initSt "missing destination".data
     (video_missing_destination_amended.1 0 [("class".data, "video".data)] [] initSt rfl)⟩

end Blog
